import Mathlib

/-!
The tool mkdeps: path resolver and include scanner.

A shallow embedding of the path functions and of the include scanner of
`src/mkdeps.cpp`, with the properties of the written specification stated
and settled against it.

A `std::string` is modelled by the list of its characters.  A pointer into
the buffer of a string is modelled by its offset from the start of the
buffer; the offset `size()` holds the terminating NUL.
-/

namespace Mkdeps

/-- Contents of a `std::string` (or of a C string), character by character. -/
abbrev Str := List Char

/-- The constant `dirsep` of the source. -/
def dirsep : Char := '/'

/-- The terminating NUL character of a C string. -/
def NUL : Char := Char.ofNat 0

/-- The character read through a pointer at offset `i` of the buffer of a
string: the characters of the string, then the terminating NUL. -/
def charAt (buf : Str) (i : Nat) : Char := buf.getD i NUL

/-- The call `strncmp (buf + off, pat, n) == 0` for a pattern `pat` of `n`
characters, none of them NUL: the `n` characters at `off` are those of
`pat`.  A NUL met in the buffer differs from the pattern and stops the
comparison. -/
def strncmp_eq (buf : Str) (off : Nat) : Str → Bool
  | [] => true
  | c :: pat => charAt buf off == c && strncmp_eq buf (off + 1) pat

/-- The loop `while (limit > start && *limit != dirsep) --limit;` of
`last_sep_before`, for `limit = start + k`; the result is the final value of
`limit`. -/
def last_sep_scan (buf : Str) (start : Nat) : Nat → Nat
  | 0 => start
  | k + 1 => if charAt buf (start + (k + 1)) ≠ dirsep then last_sep_scan buf start k
             else start + (k + 1)

/-- The function `last_sep_before (start, limit)`: `limit` is decremented
once, moved down to the nearest separator above `start`, and `start` is
returned when the pointer ends below `start`.  `limit` is an integer offset
because the caller passes `cw - 1`, which is `-1` for `cw == beg`. -/
def last_sep_before (buf : Str) (start : Nat) (limit : Int) : Nat :=
  let l : Int := limit - 1
  if l < (start : Int) then start
  else last_sep_scan buf start (l.toNat - start)

/-- The loop `while (cr != end && *cr != dirsep) *cw++ = *cr++;` of
`normalize_path`, with `n = end - cr`.  Returns the buffer, `cr` and `cw`. -/
def copy_component : Nat → Str → Nat → Nat → Str × Nat × Nat
  | 0, buf, cr, cw => (buf, cr, cw)
  | n + 1, buf, cr, cw =>
    if charAt buf cr ≠ dirsep then
      copy_component n (buf.set cw (charAt buf cr)) (cr + 1) (cw + 1)
    else (buf, cr, cw)

/-- The branch of `normalize_path` taken at `"../"`: the last component
written is dropped (`cw = sep + 1`), or the whole output is (`cw = beg`), or
`"../"` is written at `cw`; then `cr += 3`.  Returns the buffer, `cr`, `cw`. -/
def dotdot_step (buf : Str) (cr cw : Nat) : Str × Nat × Nat :=
  let sep := last_sep_before buf 0 ((cw : Int) - 1)
  if charAt buf sep = dirsep ∧ strncmp_eq buf sep ['/', '.', '.', '/'] = false then
    (buf, cr + 3, sep + 1)
  else if cw ≠ 0 ∧ charAt buf (cw - 1) = dirsep
      ∧ strncmp_eq buf 0 ['.', '.', '/'] = false then
    (buf, cr + 3, 0)
  else
    (((buf.set cw '.').set (cw + 1) '.').set (cw + 2) dirsep, cr + 3, cw + 3)

/-- The tail of an iteration of `normalize_path`: the component at `cr` is
copied, then the separator after it, and a second separator is skipped. -/
def copy_step (buf : Str) (cr cw : Nat) : Str × Nat × Nat :=
  match copy_component (buf.length - cr) buf cr cw with
  | (buf1, cr1, cw1) =>
    if cr1 ≠ buf1.length then
      let buf2 := buf1.set cw1 (charAt buf1 cr1)
      if charAt buf2 (cr1 + 1) = dirsep then (buf2, cr1 + 2, cw1 + 1)
      else (buf2, cr1 + 1, cw1 + 1)
    else (buf1, cr1, cw1)

/-- One iteration of the loop `while (cr != end)` of `normalize_path`, entered
with `cr != end`. -/
def normalize_step (buf : Str) (cr cw : Nat) : Str × Nat × Nat :=
  if charAt buf cr = '.' ∧ cr + 1 ≠ buf.length ∧ charAt buf (cr + 1) = dirsep then
    (buf, cr + 2, cw)
  else if charAt buf cr = '.' ∧ cr + 1 ≠ buf.length ∧ charAt buf (cr + 1) = '.'
      ∧ cr + 2 ≠ buf.length ∧ charAt buf (cr + 2) = dirsep then
    dotdot_step buf cr cw
  else copy_step buf cr cw

/-- The loop `while (cr != end) ...` of `normalize_path`.  Every iteration
advances `cr`, so the first argument, an upper bound of `end - cr`, bounds the
number of iterations.  Returns the buffer and `cw`. -/
def normalize_loop : Nat → Str → Nat → Nat → Str × Nat
  | 0, buf, _, cw => (buf, cw)
  | fuel + 1, buf, cr, cw =>
    if cr = buf.length then (buf, cw)
    else
      match normalize_step buf cr cw with
      | (buf1, cr1, cw1) => normalize_loop fuel buf1 cr1 cw1

/-- The function `normalize_path`: the rewriting loop on the buffer of `sb`,
`resize (cw - beg)`, and the removal of one final `'/'`.  On an empty string
`sb->back()` reads the byte before the buffer; it is taken not to be `'/'`. -/
def normalize_path (sb : Str) : Str :=
  let r := normalize_loop sb.length sb 0 0
  let s := r.1.take r.2
  if s.getLast? = some '/' then s.dropLast else s

/-- The C function `tolower` in the "C" locale. -/
def tolower (c : Char) : Char :=
  if 'A' ≤ c ∧ c ≤ 'Z' then Char.ofNat (c.toNat + 32) else c

/-- The loop of `convert_to_fwd_slash`: every backslash becomes `'/'`. -/
def fwd_slash_loop : Str → Str
  | [] => []
  | c :: cs => (if c = '\\' then '/' else c) :: fwd_slash_loop cs

/-- The function `convert_to_fwd_slash`: the first character is lower-cased
when the second one is `':'`, then every backslash becomes `'/'`. -/
def convert_to_fwd_slash (sb : Str) : Str :=
  let sb1 := if sb.length ≠ 0 ∧ sb.length ≠ 1 ∧ charAt sb 1 = ':' then
      sb.set 0 (tolower (charAt sb 0)) else sb
  fwd_slash_loop sb1

/-- The C string held by the buffer of a `std::string` (`c_str()` read by a
function taking `const char *`): the characters before the first NUL. -/
def c_str (s : Str) : Str := s.takeWhile (fun c => c ≠ NUL)

/-- The function `path_is_absolute` on a C string. -/
def path_is_absolute (s : Str) : Bool :=
  let drive := tolower (charAt s 0)
  charAt s 0 = dirsep || (('a' ≤ drive && drive ≤ 'z') && charAt s 1 = ':')

/-- The function `try_merge_paths`, on the C strings `head` and `tail`:
returns the return value and the final value of `*dest`. -/
def try_merge_paths (dest head tail : Str) : Int × Str :=
  if path_is_absolute tail then (-1, dest)
  else (0, normalize_path (head ++ [dirsep] ++ tail))

/-- The call `s.compare (0, pfx.size(), pfx) == 0` (also `starts_with`). -/
def starts_with (s pfx : Str) : Bool := s.take pfx.length == pfx

/-- The function `normalize_to_cwd`; `gcwd` is the global of that name. -/
def normalize_to_cwd (gcwd p : Str) : Str :=
  let p1 := normalize_path p
  if starts_with p1 ['.', '.', '/'] then
    let cwd := gcwd
    match try_merge_paths [] (c_str cwd) (c_str p1) with
    | (rc, res) =>
      if rc = 0 then
        if res.length > cwd.length ∧ starts_with res cwd then res.drop (cwd.length + 1)
        else p1
      else p1
  else p1

/-- The loop of `shrink_to_dir`, with `n = end - cp`: `last_sep` follows the
last `'/'` or backslash, and a backslash is overwritten with `'/'`. -/
def shrink_loop : Nat → Str → Nat → Nat → Str × Nat
  | 0, buf, _, last_sep => (buf, last_sep)
  | n + 1, buf, cp, last_sep =>
    if charAt buf cp = '/' then shrink_loop n buf (cp + 1) cp
    else if charAt buf cp = '\\' then shrink_loop n (buf.set cp '/') (cp + 1) cp
    else shrink_loop n buf (cp + 1) last_sep

/-- The function `shrink_to_dir`. -/
def shrink_to_dir (sb : Str) : Str :=
  match shrink_loop sb.length sb 0 sb.length with
  | (buf, last_sep) =>
    if last_sep = sb.length then [] else (buf.set last_sep NUL).take last_sep

/-- The enumeration `Target_type`. -/
inductive Target_type where
  | Not_target
  | Main_target
  | Lib_target
  deriving DecidableEq, Repr

/-- The members of `class State`; an `unordered_set` of strings is the list
of its members, without repetition. -/
structure State where
  deps : List Str
  defines : List Str
  target : Target_type
  already_seen : List Str
  deriving DecidableEq, Repr

/-- The file-scope variables read by the scanner. -/
structure Globals where
  search_dirs : List Str
  gcwd : Str

/-- The regular files that `std::ifstream` opens: each path, as it is spelled,
with the lines that the successive calls of `getline` deliver until `eof()`. -/
abbrev Files := List (Str × List Str)

/-- Opening `std::ifstream is (name)`: the lines of the file, when `is.good()`. -/
def open_file : Files → Str → Option (List Str)
  | [], _ => none
  | (p, ls) :: fs, name => if p = name then some ls else open_file fs name

/-- The classification `isspace` / `iswspace` in the "C" locale. -/
def isspace (c : Char) : Bool :=
  c = ' ' || c = '\t' || c = '\n' || c = Char.ofNat 11 || c = Char.ofNat 12 || c = '\r'

/-- The test `wc == '_' || iswalnum (wc)` of `skip_word` in the "C" locale. -/
def isword (c : Char) : Bool :=
  c = '_' || ('0' ≤ c && c ≤ '9') || ('a' ≤ c && c ≤ 'z') || ('A' ≤ c && c ≤ 'Z')

/-- The function `skip_space` on a C string: the rest of the string from the
first character that is not white space. -/
def skip_space (s : Str) : Str := s.dropWhile isspace

/-- The function `skip_word` on a C string: the rest of the string from the
first character that is neither `'_'` nor alphanumeric. -/
def skip_word (s : Str) : Str := s.dropWhile isword

/-- The string `std::string (line, eow - line)` built by `add_define` and
`process_ifdef`, where `eow = skip_word (line)` is moved back by one
character when it differs from `line`. -/
def word_before (line : Str) : Str :=
  let n := line.length - (skip_word line).length
  line.take (if n ≠ 0 then n - 1 else n)

/-- The method `State::add_dependency`. -/
def add_dependency (st : State) (s : Str) : State :=
  { st with deps := st.deps.insert s }

/-- The method `State::add_define`. -/
def add_define (st : State) (d : Str) : State :=
  { st with defines := st.defines.insert (word_before d) }

/-- Offset from `from` of the pointer `last` at the end of the loop of
`trim_spaces`, which runs over the characters `s` from offset `i`. -/
def trim_last : Str → Nat → Nat → Nat
  | [], _, last => last
  | c :: cs, i, last => trim_last cs (i + 1) (if isspace c then last else i)

/-- The function `trim_spaces`: `std::string (from, last - from + 1)`; the
character at `last` is the terminating NUL when nothing follows the spaces. -/
def trim_spaces (s : Str) : Str :=
  let src := skip_space (c_str s)
  (src ++ [NUL]).take (trim_last src 0 0 + 1)

/-- The loop of `State::locate_file` over the search directories; `expanded`
keeps its value from one directory to the next.  Returns the return value
and the final value of `expanded`. -/
def locate_loop (g : Globals) (fs : Files) (stripped : Str) : List Str → Str → Bool × Str
  | [], expanded => (false, expanded)
  | i :: dirs, expanded =>
    let e1 := if i ≠ ['.'] then i ++ ['/'] else expanded
    let e2 := e1 ++ stripped
    if (open_file fs (c_str e2)).isSome then
      let e3 := if e2.length > 3 ∧ starts_with e2 ['.', '.', '/'] then
          normalize_to_cwd g.gcwd e2 else e2
      let e4 := if e3.length > g.gcwd.length ∧ starts_with e3 g.gcwd
          ∧ charAt e3 g.gcwd.length = '/' then e3.drop (g.gcwd.length + 1) else e3
      (true, e4)
    else locate_loop g fs stripped dirs e2

/-- The method `State::locate_file` on the C strings `name` and `parent_dir`;
`Dir_pusher` puts `parent_dir` in front of the search directories for the
duration of the call when the name is in quotes. -/
def locate_file (g : Globals) (fs : Files) (name expanded parent_dir : Str) : Bool × Str :=
  if charAt name 0 ≠ Char.ofNat 34 ∧ charAt name 0 ≠ '<' then (false, expanded)
  else
    let loc : Bool := charAt name 0 = Char.ofNat 34
    let stripped := name.drop 1
    if stripped = [] then (false, expanded)
    else
      let stripped := trim_spaces stripped
      let stripped := if stripped.getLast? = some (Char.ofNat 34) ∨ stripped.getLast? = some '>'
          then stripped.dropLast else stripped
      let dirs := if loc then parent_dir :: g.search_dirs else g.search_dirs
      locate_loop g fs stripped dirs expanded

/-- The skipping loop of `State::process_ifdef`: the lines left in the stream
when the loop returns. -/
def skip_ifdef : Int → List Str → List Str
  | _, [] => []
  | nesting, sb :: rest =>
    let i := skip_space (c_str sb)
    if strncmp_eq i 0 "#if".toList then skip_ifdef (nesting + 1) rest
    else if nesting = 1 ∧ strncmp_eq i 0 "#else".toList then rest
    else if strncmp_eq i 0 "#endif".toList then
      if nesting - 1 = 0 then rest else skip_ifdef (nesting - 1) rest
    else skip_ifdef nesting rest

/-- The method `State::process_ifdef`: the lines left in the stream `is`. -/
def process_ifdef (st : State) (is : List Str) (line : Str) (pos : Bool) : List Str :=
  let needle := word_before line
  let have_it : Bool := needle ∈ st.defines
  if needle ≠ ['0'] ∧ ((pos ∧ have_it) ∨ (¬ pos ∧ ¬ have_it)) then is
  else skip_ifdef 1 is

/-- The method `State::process_include`; `scan` is `scan_source_file`. -/
def process_include (fs : Files) (scan : State → List Str → Str → Option State)
    (st : State) (name : Str) : Option State :=
  match open_file fs name with
  | some is => scan st is name
  | none => some st

/-- The method `State::process_line`: the state and the lines left in `is`. -/
def process_line (g : Globals) (fs : Files) (scan : State → List Str → Str → Option State)
    (st : State) (is : List Str) (d parent_dir : Str) : Option (State × List Str) :=
  if strncmp_eq d 0 "include".toList then
    let dep_name := skip_space (d.drop 7)
    match locate_file g fs dep_name [] parent_dir with
    | (true, expanded) =>
      (process_include fs scan (add_dependency st expanded) (c_str expanded)).map
        (fun st1 => (st1, is))
    | (false, _) => some (st, is)
  else if strncmp_eq d 0 "define".toList then
    some (add_define st (skip_space (d.drop 6)), is)
  else if strncmp_eq d 0 "ifdef".toList then
    some (st, process_ifdef st is (skip_space (d.drop 5)) true)
  else if strncmp_eq d 0 "ifndef".toList then
    some (st, process_ifdef st is (skip_space (d.drop 6)) false)
  else if strncmp_eq d 0 "if defined(".toList then
    some (st, process_ifdef st is (skip_space (d.drop 11)) true)
  else if strncmp_eq d 0 "if !defined(".toList then
    some (st, process_ifdef st is (skip_space (d.drop 12)) false)
  else some (st, is)

/-- The loop `while (!is.eof())` of `State::scan_source_file`.  Every
iteration reads at least one line, so the first argument, an upper bound of
the number of lines left, bounds the number of iterations; `none` when a
nested scan ran out of depth. -/
def scan_loop (g : Globals) (fs : Files) (scan : State → List Str → Str → Option State) :
    Nat → State → Str → List Str → Option State
  | _, st, _, [] => some st
  | 0, _, _, _ :: _ => none
  | n + 1, st, ns, sb :: rest =>
    let i := skip_space (c_str sb)
    if charAt i 0 = '#' then
      match process_line g fs scan st rest (skip_space (i.drop 1)) ns with
      | some (st1, rest1) => scan_loop g fs scan n st1 ns rest1
      | none => none
    else if strncmp_eq i 0 "int main".toList ∨ strncmp_eq i 0 "main".toList then
      scan_loop g fs scan n { st with target := Target_type.Main_target } ns rest
    else if strncmp_eq i 0 "/* LIBRARY */".toList then
      scan_loop g fs scan n { st with target := Target_type.Lib_target } ns rest
    else scan_loop g fs scan n st ns rest

/-- The method `State::scan_source_file` on the stream `is` and the C string
`name`.  The first argument bounds the depth of nested includes: a call that
goes past the test of `already_seen` uses one level, and the result is `none`
when no level is left. -/
def scan_source_file (g : Globals) (fs : Files) : Nat → State → List Str → Str → Option State
  | 0, st, _, name => if name ∈ st.already_seen then some st else none
  | depth + 1, st, is, name =>
    if name ∈ st.already_seen then some st
    else
      let st1 := { st with already_seen := st.already_seen.insert name }
      let ns := shrink_to_dir name
      let ns := if ns = [] then ['.'] else ns
      scan_loop g fs (scan_source_file g fs depth) is.length st1 ns is

end Mkdeps

/-! ## The project: registered files and link dependencies -/

namespace Mkdeps

/-- The order in which an `unordered_set` of strings hands out its members
to an iterator; the source leaves it to the hash table. -/
abbrev Enumeration := List Str → List Str

/-- The members of `struct Source_file`; `depcount` is neither initialised
nor read by the functions below and is left out. -/
structure Source_file where
  name : Str
  full_name : Str
  deps : List Str
  deps_full_path : List Str
  target : Target_type
  deriving DecidableEq, Repr

/-- The comparison `lhs.name < rhs.name` of two `std::string`. -/
def str_lt : Str → Str → Bool
  | [], [] => false
  | [], _ :: _ => true
  | _ :: _, [] => false
  | a :: as, b :: bs => a < b || (a = b && str_lt as bs)

/-- The call `files.insert (src)` on a `std::set<Source_file>`, which is kept
as the list of its members in the order of `operator<`: a member with the same
name stays and `src` is dropped. -/
def set_insert (src : Source_file) : List Source_file → List Source_file
  | [] => [src]
  | f :: fs =>
    if str_lt src.name f.name then src :: f :: fs
    else if str_lt f.name src.name then f :: set_insert src fs
    else f :: fs

/-- The call `s.rfind ('.')`: the offset of the last `'.'`. -/
def rfind_dot : Str → Option Nat
  | [] => none
  | c :: cs =>
    match rfind_dot cs with
    | some pos => some (pos + 1)
    | none => if c = '.' then some 0 else none

/-- The function `replace_extension`. -/
def replace_extension (s newext : Str) : Str :=
  match rfind_dot s with
  | some pos => s.take pos ++ newext
  | none => s

/-- The loop of `get_base_name`: `ans` is the string returned so far, the
whole string or the part after the last `'/'` or backslash read. -/
def base_name_loop : Str → Str → Str
  | [], ans => ans
  | c :: cs, ans => if c = '/' ∨ c = '\\' then base_name_loop cs cs else base_name_loop cs ans

/-- The function `get_base_name` on a C string. -/
def get_base_name (s : Str) : Str := base_name_loop s s

/-- The members of `class Project`. -/
structure Project where
  files : List Source_file
  mains : List Source_file
  given_files : List Str
  given_files_full : List Str
  curdir : Str
  deriving DecidableEq, Repr

/-- The method `Project::add_given_file` on the C string `fn`. -/
def Project.add_given_file (p : Project) (fn : Str) : Project :=
  let tmp := get_base_name (c_str fn)
  let tmp := replace_extension tmp []
  { p with given_files := p.given_files.insert tmp,
           given_files_full := p.given_files_full.insert (c_str fn) }

/-- The method `Project::add` on the C string `name`; `cont` is enumerated by
`enum`. -/
def Project.add (enum : Enumeration) (p : Project) (name : Str) (cont : List Str)
    (target : Target_type) : Project :=
  let chopped := replace_extension (c_str name) []
  let src : Source_file :=
    { name := get_base_name (c_str chopped), full_name := c_str name,
      deps := (enum cont).foldl (fun acc d => acc.insert d) [],
      deps_full_path := [], target := target }
  { p with files := set_insert src p.files }

/-- The loop of `add_deps` over the members of `src`: returns `changed` and
the final `target`. -/
def add_deps_loop (filter : List Str) : List Str → Bool → List Str → Bool × List Str
  | [], changed, target => (changed, target)
  | i :: rest, changed, target =>
    let base := get_base_name (c_str (replace_extension i []))
    if base ∈ filter then
      if base ∈ target then add_deps_loop filter rest changed target
      else add_deps_loop filter rest true (target.insert base)
    else add_deps_loop filter rest changed target

/-- The function `add_deps`: returns the return value and the final `target`. -/
def add_deps (enum : Enumeration) (target src filter : List Str) : Bool × List Str :=
  add_deps_loop filter (enum src) false target

/-- The loop of `add_single_dep` over the members of `filter`. -/
def add_single_dep_loop (base dep : Str) (literal : Bool) :
    List Str → List Str → Bool × List Str
  | [], target => (false, target)
  | fi :: rest, target =>
    let fbase := get_base_name (c_str (replace_extension fi []))
    if fbase = base then
      if fi ∈ target then add_single_dep_loop base dep literal rest target
      else (true, if literal then (target.insert fi).insert dep else target.insert fi)
    else add_single_dep_loop base dep literal rest target

/-- The function `add_single_dep` on the C string `dep`. -/
def add_single_dep (enum : Enumeration) (target : List Str) (dep : Str) (filter : List Str)
    (literal : Bool) : Bool × List Str :=
  add_single_dep_loop (get_base_name (c_str (replace_extension dep []))) dep literal
    (enum filter) target

/-- The loop of `add_full_deps`: `changed` is overwritten by every call. -/
def add_full_deps_loop (enum : Enumeration) (filter : List Str) :
    List Str → Bool → List Str → Bool × List Str
  | [], changed, target => (changed, target)
  | i :: rest, _, target =>
    match add_single_dep enum target (c_str i) filter true with
    | (changed, target1) => add_full_deps_loop enum filter rest changed target1

/-- The function `add_full_deps`. -/
def add_full_deps (enum : Enumeration) (target src filter : List Str) : Bool × List Str :=
  add_full_deps_loop enum filter (enum src) false target

/-- The entry that the first loop of `compute_mains` builds for a file. -/
def main_entry (enum : Enumeration) (given_files given_files_full : List Str)
    (i : Source_file) : Source_file :=
  let deps := (add_deps enum [] i.deps given_files).2
  let full := (add_full_deps enum [] i.deps given_files_full).2
  if i.target = Target_type.Main_target then
    { name := i.name, full_name := [], deps := deps.insert i.name,
      deps_full_path := (add_single_dep enum full (c_str i.name) given_files_full false).2,
      target := i.target }
  else
    { name := i.name, full_name := [], deps := deps, deps_full_path := full,
      target := i.target }

/-- The first loop of `compute_mains`: an entry is put into `mains` for every
file. -/
def initial_mains (enum : Enumeration) (given_files given_files_full : List Str) :
    List Source_file → List Source_file → List Source_file
  | [], mains => mains
  | i :: rest, mains =>
    initial_mains enum given_files given_files_full rest
      (set_insert (main_entry enum given_files given_files_full i) mains)

/-- The loop `while (i != e)` of `compute_mains` for one member `li` of the
set of an entry: returns whether `goto restart` is taken, and the set. -/
def match_files (enum : Enumeration) (given_files : List Str) (li : Str) :
    List Source_file → List Str → Bool × List Str
  | [], deps => (false, deps)
  | i :: rest, deps =>
    if get_base_name (c_str li) = i.name then
      match add_deps enum deps i.deps given_files with
      | (true, deps1) => (true, deps1)
      | (false, deps1) => match_files enum given_files li rest deps1
    else match_files enum given_files li rest deps

/-- The loop `while (li != le)` of `compute_mains` over the members of the set
of an entry, as enumerated at `restart`. -/
def scan_deps (enum : Enumeration) (files : List Source_file) (given_files : List Str) :
    List Str → List Str → Bool × List Str
  | [], deps => (false, deps)
  | li :: rest, deps =>
    match match_files enum given_files li files deps with
    | (true, deps1) => (true, deps1)
    | (false, deps1) => scan_deps enum files given_files rest deps1

/-- The body of `while (mi != me)` for one entry, from the label `restart` to
`++mi`.  The first argument bounds the number of times the label is reached;
returns `changed` and the set of the entry, `none` when the bound is used up. -/
def close_entry (enum : Enumeration) (files : List Source_file) (given_files : List Str) :
    Nat → Bool → List Str → Option (Bool × List Str)
  | 0, _, _ => none
  | fuel + 1, changed, deps =>
    match scan_deps enum files given_files (enum deps) deps with
    | (true, deps1) => close_entry enum files given_files fuel true deps1
    | (false, deps1) => some (changed, deps1)

/-- The loop `while (mi != me)` of `compute_mains`: one pass over the entries. -/
def pass_mains (enum : Enumeration) (files : List Source_file) (given_files : List Str)
    (fuel : Nat) : List Source_file → Bool → Option (Bool × List Source_file)
  | [], changed => some (changed, [])
  | mi :: rest, changed =>
    match close_entry enum files given_files fuel changed mi.deps with
    | none => none
    | some (changed1, deps1) =>
      match pass_mains enum files given_files fuel rest changed1 with
      | none => none
      | some (changed2, rest2) => some (changed2, { mi with deps := deps1 } :: rest2)

/-- The loop `do ... while (changed)` of `compute_mains`; the first argument
bounds the number of passes. -/
def fix_mains (enum : Enumeration) (files : List Source_file) (given_files : List Str)
    (fuel : Nat) : Nat → List Source_file → Option (List Source_file)
  | 0, _ => none
  | passes + 1, mains =>
    match pass_mains enum files given_files fuel mains false with
    | none => none
    | some (true, mains1) => fix_mains enum files given_files fuel passes mains1
    | some (false, mains1) => some mains1

/-- The method `Project::compute_mains`.  `fuel` bounds the number of passes
of the outer loop and the number of restarts for an entry; the result is
`none` when a bound is used up. -/
def Project.compute_mains (enum : Enumeration) (fuel : Nat) (p : Project) : Option Project :=
  (fix_mains enum p.files p.given_files fuel fuel
    (initial_mains enum p.given_files p.given_files_full p.files p.mains)).map
    (fun mains => { p with mains := mains })

end Mkdeps

/-! ## The rule emitter -/

namespace Mkdeps

/-- The file-scope variables read by the emitter. -/
structure Options where
  object_ext : Str
  exe_ext : Str
  lib_prefix : Str
  lib_suffix : Str
  ar_suffix : Str
  header_prefix : Str
  object_dirs : List Str
  abis : List Str
  append : Bool
  precomp_headers : Bool
  potdeps : Bool
  deriving DecidableEq, Repr

/-- The values of the file-scope variables at the start of `real_main`. -/
def Options.initial : Options :=
  { object_ext := ".o".toList, exe_ext := [], lib_prefix := "lib".toList,
    lib_suffix := ".so.$(SONAME)".toList, ar_suffix := ".a".toList, header_prefix := [],
    object_dirs := [], abis := [], append := false, precomp_headers := false,
    potdeps := false }

/-- The conversion of a pointer difference to `int`, of 32 bits. -/
def to_int (x : Int) : Int := (x + 2147483648) % 4294967296 - 2147483648

/-- The sum `lnlen + s.size()` of an `int` and a `size_t`, of 64 bits. -/
def add_size (lnlen : Int) (size : Nat) : Int :=
  (lnlen % 18446744073709551616 + size) % 18446744073709551616

/-- The loop `do { --cp; if (*cp == '\n') break; } while (cp > lim);` of
`cat_and_wrap`, for a value `lim + k` of `cp` after the decrement: the final
offset of `cp` from `lim`. -/
def line_start_scan (dest : Str) : Nat → Nat
  | 0 => 0
  | k + 1 => if charAt dest (k + 1) = '\n' then k + 1 else line_start_scan dest k

/-- The string `"  \\\n   "` that `cat_and_wrap` appends before a token. -/
def continuation : Str := [' ', ' ', '\\', '\n', ' ', ' ', ' ']

/-- The function `cat_and_wrap`: the final value of `*dest`.  On an empty
`*dest` the loop reads the byte before the buffer and ends with
`cp == lim - 1` whatever that byte is. -/
def cat_and_wrap (dest s : Str) : Str :=
  let cp : Int := if dest = [] then -1 else (line_start_scan dest (dest.length - 1) : Nat)
  let lnlen : Int := to_int ((dest.length : Int) - cp)
  let dest1 := if add_size lnlen s.length > 72 then dest ++ continuation else dest
  dest1 ++ [' '] ++ s

/-- The method `Project::list_deps`: the final value of `*res`. -/
def list_deps (enum : Enumeration) (target : List Str) (ext dir : Str) : Str :=
  (enum target).foldl
    (fun res li => cat_and_wrap res (if dir = [] then li ++ ext else dir ++ ['/'] ++ li ++ ext))
    []

/-- The method `Project::list_pots`: the final value of `*res`. -/
def list_pots (enum : Enumeration) (target : List Str) : Str :=
  (enum target).foldl (fun res li => cat_and_wrap res li) []

/-- The call `strncmp (a, b, n) == 0` on two C strings. -/
def strncmp_zero : Nat → Str → Str → Bool
  | 0, _, _ => true
  | n + 1, a, b =>
    if charAt a 0 ≠ charAt b 0 then false
    else if charAt a 0 = NUL then true
    else strncmp_zero n (a.drop 1) (b.drop 1)

/-- The method `Project::clean_file_name` on the C string `name`: the final
value of `*res`.  `merge_paths` does not throw here, its `tail` is not
absolute. -/
def clean_file_name (curdir name : Str) : Str :=
  let res := if ¬ path_is_absolute name then (try_merge_paths [] (c_str curdir) name).2
    else name
  let res := if charAt res 1 = ':' then res.drop 2 else res
  if strncmp_zero curdir.length (c_str res) (c_str curdir) then res.drop (curdir.length + 1)
  else if res.length > name.length then name
  else res

/-- The loop over `abis` of `dump_single_deps` when there is no object
directory: the text written to `os` and `count`. -/
def single_abis_plain (o : Options) (name : Str) : List Str → Str × Nat → Str × Nat
  | [], r => r
  | abi :: rest, (os, count) =>
    let item_len := name.length + abi.length + 2
    let r1 : Str × Nat := if count + item_len > 80 then (os ++ "\\\n    ".toList, 0)
      else (os, count)
    single_abis_plain o name rest
      (r1.1 ++ name ++ ['-'] ++ abi ++ o.object_ext ++ [' '], r1.2 + item_len)

/-- The loop over `abis` of `dump_single_deps` for the object directory `od`
without precompiled headers: the text written to `os` and `count`. -/
def single_abis_dir (o : Options) (od name : Str) : List Str → Str × Nat → Str × Nat
  | [], r => r
  | abi :: rest, (os, count) =>
    let item_len := od.length + 1 + name.length + 1 + abi.length + o.object_ext.length + 1
    let r1 : Str × Nat := if count + item_len > 80 then (os ++ "\\\n    ".toList, 0)
      else (os, count)
    single_abis_dir o od name rest
      (r1.1 ++ od ++ ['/'] ++ name ++ ['-'] ++ abi ++ o.object_ext ++ [' '], r1.2 + item_len)

/-- The loop over `abis` of `dump_single_deps` for the object directory `od`
with precompiled headers: the text written to `os` and `pchs`. -/
def single_abis_pch (od name : Str) : List Str → Str × Str → Str × Str
  | [], r => r
  | abi :: rest, (os, pchs) =>
    single_abis_pch od name rest
      (os ++ od ++ ['/'] ++ name ++ ['-'] ++ abi ++ ": ".toList ++ od ++ ['/'] ++ name
          ++ "-incls.hpp".toList ++ ['-'] ++ abi ++ ".gch".toList ++ ['\n'],
        pchs ++ od ++ ['/'] ++ name ++ "-incls.hpp".toList ++ ['-'] ++ abi ++ ".gch".toList
          ++ [' '])

/-- The loop over `object_dirs` of `dump_single_deps`: the text written to
`os`, `count` and `pchs`. -/
def single_dirs (enum : Enumeration) (o : Options) (name : Str) :
    List Str → Str × Nat × Str → Str × Nat × Str
  | [], r => r
  | od :: rest, (os, count, pchs) =>
    if name = "precompiled".toList then
      single_dirs enum o name rest
        (os ++ od ++ "/precompiled.hpp.gch ".toList, count, pchs)
    else if o.precomp_headers then
      let os1 := os ++ od ++ ['/'] ++ name ++ o.object_ext ++ ": ".toList ++ od ++ ['/'] ++ name
        ++ "-incls.hpp".toList ++ ".gch".toList ++ ['\n']
      let pchs1 := pchs ++ od ++ ['/'] ++ name ++ "-incls.hpp".toList ++ ".gch".toList ++ [' ']
      let r := single_abis_pch od name (enum o.abis) (os1, pchs1)
      single_dirs enum o name rest (r.1, count, r.2)
    else
      let item_len := od.length + 1 + name.length + o.object_ext.length + 1
      let r1 : Str × Nat := if count + item_len > 80 then (os ++ "\\\n     ".toList, 0)
        else (os, count)
      let r := single_abis_dir o od name (enum o.abis)
        (r1.1 ++ od ++ ['/'] ++ name ++ o.object_ext ++ [' '], r1.2 + item_len)
      single_dirs enum o name rest (r.1, r.2, pchs)

/-- The loop over the dependencies of `dump_single_deps`: the text written to
`os` and `count`. -/
def single_headers (o : Options) (curdir : Str) : List Str → Str × Nat → Str × Nat
  | [], r => r
  | di :: rest, (os, count) =>
    let tmp := clean_file_name curdir (c_str di)
    let delta := tmp.length + o.header_prefix.length
    let r1 : Str × Nat := if count + delta > 80 then (os ++ "\\\n    ".toList, 4)
      else (os, count)
    single_headers o curdir rest (r1.1 ++ o.header_prefix ++ tmp ++ "  ".toList, r1.2 + delta + 2)

/-- The targets of the object rule that `dump_single_deps` writes for the
file `i`, up to `": "`: the text written to `os` and `count`. -/
def single_targets (enum : Enumeration) (o : Options) (i : Source_file) (os : Str) :
    Str × Nat :=
  if o.object_dirs = [] then
    if i.name = "precompiled".toList then (os ++ "precompiled.hpp.gch ".toList ++ ": ".toList, 20)
    else
      let r := single_abis_plain o i.name (enum o.abis)
        (os ++ i.name ++ o.object_ext ++ [' '], i.name.length + o.object_ext.length + 1)
      (r.1 ++ ": ".toList, r.2)
  else
    let r := single_dirs enum o i.name (enum o.object_dirs) (os, 0, [])
    let r1 : Str × Nat := if o.precomp_headers then (r.1 ++ r.2.2, r.2.1 + r.2.2.length)
      else (r.1, r.2.1)
    (r1.1 ++ ": ".toList, r1.2 + 2)

/-- One iteration of the loop of `Project::dump_single_deps`, for the file
`i`: the text written to `os` and the variable `full_lib_headers`.  The file
`name-incls.hpp` written beside is left out. -/
def dump_single_file (enum : Enumeration) (o : Options) (curdir : Str)
    (st : Str × Str) (i : Source_file) : Str × Str :=
  let t := single_targets enum o i st.1
  let item_len := i.full_name.length + 1
  let r1 : Str × Nat := if t.2 + item_len > 80 then (t.1 ++ "\\\n    ".toList, 0) else t
  let h := single_headers o curdir (enum i.deps)
    (r1.1 ++ i.full_name ++ [' '], r1.2 + item_len)
  let os := h.1 ++ "\n\n".toList
  if i.target = Target_type.Lib_target then
    let tmp := clean_file_name curdir (c_str i.name)
    let h2 := single_headers o curdir (enum i.deps)
      (os ++ "DEPS_".toList ++ tmp ++ " = ".toList, 0)
    (h2.1 ++ "\n\n".toList, st.2 ++ "$(DEPS_".toList ++ tmp ++ ") ".toList)
  else (os, st.2)

/-- The method `Project::dump_single_deps`: the text written to `os` and the
variable `full_lib_headers`. -/
def dump_single_deps (enum : Enumeration) (o : Options) (p : Project) (st : Str × Str) :
    Str × Str :=
  p.files.foldl (dump_single_file enum o p.curdir) st

end Mkdeps

namespace Mkdeps

/-- The variables of `dump_main_progs` that its loops change: the text written
to `os`, `full_targets` and `objs`. -/
structure Emitted where
  os : Str
  full_targets : Str
  objs : Str
  deriving DecidableEq, Repr

/-- The loop over `abis` of `dump_main_progs` for a main program `i` and the
object directory `db`. -/
def main_abis (enum : Enumeration) (o : Options) (db pfx : Str) (i : Source_file) :
    List Str → Emitted → Emitted
  | [], e => e
  | abi :: rest, e =>
    let os1 := (if db ≠ ['.'] then e.os ++ db ++ ['/'] else e.os)
      ++ i.name ++ ['-'] ++ abi ++ o.exe_ext ++ ": \\\n   ".toList
    let abi_ext := ['-'] ++ abi ++ o.object_ext
    let objs := list_deps enum i.deps abi_ext pfx
    main_abis enum o db pfx i rest
      { e with os := os1 ++ objs ++ "\n\n".toList, objs := objs }

/-- The loop over `abis` of `dump_main_progs` for a library `i` and the object
directory `db`: the variables and `pic_found`. -/
def lib_abis (enum : Enumeration) (o : Options) (db pfx : Str) (i : Source_file) :
    List Str → Emitted × Bool → Emitted × Bool
  | [], r => r
  | abi :: rest, (e, pic_found) =>
    let abiext := ['-'] ++ (abi ++ o.object_ext)
    let objs := list_deps enum i.deps abiext pfx
    let tmp := if starts_with i.name o.lib_prefix then db ++ ['/']
      else db ++ ['/'] ++ o.lib_prefix
    let tmp := if abi = "pic".toList then tmp ++ (i.name ++ o.lib_suffix)
      else tmp ++ (i.name ++ ['-'] ++ abi ++ o.lib_suffix)
    lib_abis enum o db pfx i rest
      ({ os := e.os ++ tmp ++ ": \\\n   ".toList ++ objs ++ "\n\n".toList,
         full_targets := cat_and_wrap e.full_targets tmp, objs := objs },
        if abi = "pic".toList then true else pic_found)

/-- The body of the loop over `mains` of `dump_main_progs` for the entry `i`
and the object directory `db`. -/
def main_rules (enum : Enumeration) (o : Options) (db : Str) (e : Emitted)
    (i : Source_file) : Emitted :=
  if i.target = Target_type.Not_target then e
  else
    let pfx := if db ≠ ['.'] then db else []
    let objs := list_deps enum i.deps o.object_ext pfx
    if i.target = Target_type.Main_target then
      let tmp := (if db ≠ ['.'] then db ++ ['/'] else []) ++ (i.name ++ o.exe_ext)
      main_abis enum o db pfx i (enum o.abis)
        { os := e.os ++ tmp ++ ": \\\n   ".toList ++ objs ++ "\n\n".toList,
          full_targets := cat_and_wrap e.full_targets tmp, objs := objs }
    else
      let tmp := if db = ['.'] then [] else db ++ ['/']
      let tmp := if starts_with i.name o.lib_prefix then tmp ++ (i.name ++ o.ar_suffix)
        else tmp ++ (o.lib_prefix ++ i.name ++ o.ar_suffix)
      let r := lib_abis enum o db pfx i (enum o.abis)
        ({ os := e.os ++ tmp ++ ": \\\n   ".toList ++ objs ++ "\n\n".toList,
           full_targets := cat_and_wrap e.full_targets tmp, objs := objs }, false)
      if ¬ r.2 then
        let tmp := if db = ['.'] then [] else db ++ ['/']
        let tmp := if starts_with i.name o.lib_prefix then tmp ++ (i.name ++ o.lib_suffix)
          else tmp ++ (o.lib_prefix ++ i.name ++ o.lib_suffix)
        { os := r.1.os ++ tmp ++ ": \\\n   ".toList ++ r.1.objs ++ "\n\n".toList,
          full_targets := cat_and_wrap r.1.full_targets tmp, objs := r.1.objs }
      else r.1

/-- The loop of `dump_main_progs` that writes the rules of the `.pot` files. -/
def pot_rules (enum : Enumeration) : List Source_file → Emitted → Emitted
  | [], e => e
  | i :: rest, e =>
    if i.target = Target_type.Not_target then pot_rules enum rest e
    else
      let objs := list_pots enum i.deps_full_path
      pot_rules enum rest
        { e with os := e.os ++ "pot/".toList ++ i.name ++ ".pot: \\\n   ".toList ++ objs
            ++ "\n\n".toList, objs := objs }

/-- The variables of `dump_main_progs` after the loops over `object_dirs` and
`mains`; the directory `"."` stands in for an empty `object_dirs`. -/
def link_rules (enum : Enumeration) (o : Options) (mains : List Source_file) (os : Str) :
    Emitted :=
  let object_dirs := if o.object_dirs = [] then ['.'] :: o.object_dirs else o.object_dirs
  (enum object_dirs).foldl (fun e db => mains.foldl (main_rules enum o db) e)
    { os := os ++ "# Main programs\n".toList, full_targets := [], objs := [] }

/-- The method `Project::dump_main_progs`: the text written to `os`. -/
def dump_main_progs (enum : Enumeration) (o : Options) (p : Project)
    (full_lib_headers : Str) (os : Str) : Str :=
  let e := link_rules enum o p.mains os
  let e := if o.potdeps then pot_rules enum p.mains e else e
  e.os ++ "FULL_TARGETS = ".toList ++ e.full_targets ++ ['\n']
    ++ "full_targets: $(FULL_TARGETS)\n".toList
    ++ "FULL_LIB_HEADERS = ".toList ++ full_lib_headers ++ ['\n']

/-- The array `needle`: the marker line of a generated makefile. -/
def needle : Str := "# Generated automatically. Do not edit beyond here.".toList

/-- The loop `while (getline (is, ln))` of `transfer_header` over the lines
that `getline` delivers: the text written to `dest`. -/
def transfer_loop (append : Bool) : List Str → Str → Str
  | [], dest => dest
  | ln :: rest, dest =>
    if ¬ append ∧ ln = needle then dest
    else transfer_loop append rest (dest ++ ln ++ ['\n'])

/-- The function `transfer_header`: the text written to `dest`; `src` holds
the lines of the file, `none` when `is.good()` fails. -/
def transfer_header (append : Bool) (src : Option (List Str)) (dest : Str) : Str :=
  match src with
  | none => dest
  | some lines => transfer_loop append lines dest

/-- The text that `real_main` has written to `mkfile` when it calls
`dump_single_deps`: the header of the old makefile, the marker unless in
append mode, and the title of the object rules. -/
def makefile_head (o : Options) (old : Option (List Str)) : Str :=
  let mk := transfer_header o.append old []
  let mk := if ¬ o.append then mk ++ needle ++ "\n\n".toList else mk
  mk ++ "# Object dependencies.\n".toList

end Mkdeps

/-! ## Specification-side definitions -/

namespace Mkdeps

/-- "Absolute" in the words of the specification: the path starts with the
separator, or with a drive letter (an ASCII letter) followed by a colon. -/
def absolute_by_spec : Str → Bool
  | [] => false
  | c :: rest =>
    c = '/' || ((('a' ≤ c && c ≤ 'z') || ('A' ≤ c && c ≤ 'Z')) && rest.head? = some ':')

/-- A backslash read as a forward slash. -/
def slash_of (c : Char) : Char := if c = '\\' then '/' else c

/-- Number of files whose path is not in `seen`. -/
def unseen (fs : Files) (seen : List Str) : Nat :=
  fs.countP (fun e => decide (e.1 ∉ seen))

/-- The line `#include "n"`. -/
def include_line (n : String) : Str :=
  "#include ".toList ++ [Char.ofNat 34] ++ n.toList ++ [Char.ofNat 34]

/-- Two headers that include each other. -/
def cyclic_files : Files :=
  [("a.h".toList, [include_line "b.h", []]), ("b.h".toList, [include_line "a.h", []])]

/-- The globals after `real_main` has added the directory `"."`. -/
def default_globals : Globals := ⟨[".".toList], "/w".toList⟩

/-- The state built by the constructor of `State`. -/
def State.init : State := ⟨[], [], Target_type.Not_target, []⟩

/-- What a call of the scanner delivers: a final state that has forgotten no
visited file and holds the file of the call. -/
def returns_above (scan : State → List Str → Str → Option State) (st : State)
    (is : List Str) (name : Str) : Prop :=
  ∃ r, scan st is name = some r ∧ st.already_seen ⊆ r.already_seen ∧ name ∈ r.already_seen

/-- The characters from offset `cr` up to the next `'/'` or the end. -/
def component_at (buf : Str) (cr : Nat) : Str :=
  (buf.drop cr).takeWhile (fun c => !(c == '/'))

/-- The buffer after the copy loop has moved the component at `cr` to `cw`. -/
def copied (buf : Str) (cr cw : Nat) : Str :=
  buf.take cw ++ (component_at buf cr ++ buf.drop (cw + (component_at buf cr).length))

/-- Two consecutive separators occur in the path. -/
def has_double_slash : Str → Bool
  | [] => false
  | c :: rest => (c == '/' && rest.head? == some '/') || has_double_slash rest

/-- A plain name: not empty, without `'/'`, and neither `"."` nor `".."`. -/
def is_plain (c : Str) : Bool :=
  c ≠ [] && !c.contains '/' && c ≠ ['.'] && c ≠ ['.', '.']

/-- A component of a path: a plain name, `"."` or `".."`. -/
def is_component (c : Str) : Bool :=
  is_plain c || c = ['.'] || c = ['.', '.']

/-- The components joined by `'/'`. -/
def join_path : List Str → Str
  | [] => []
  | [c] => c
  | c :: d :: rest => c ++ '/' :: join_path (d :: rest)

/-- One step of the stack reduction; the stack has its top first.  A `"."` is
dropped; a `".."` removes the plain name on top when there is one and is kept
otherwise; any other component is put on top. -/
def push_component (st : List Str) (c : Str) : List Str :=
  if c = ['.'] then st
  else if c = ['.', '.'] then
    match st with
    | [] => [c]
    | t :: rest => if t = ['.', '.'] then c :: t :: rest else rest
  else c :: st

/-- The stack reduction of a list of components, bottom of the stack first. -/
def reduce_components (comps : List Str) : List Str :=
  (comps.foldl push_component []).reverse

/-- The components, each followed by `'/'`. -/
def slashed : List Str → Str
  | [] => []
  | c :: rest => c ++ '/' :: slashed rest

/-- The output for a stack (top first): its components from the bottom, each
followed by `'/'`. -/
def written (st : List Str) : Str := slashed st.reverse

/-- A stack (top first) as the reduction builds it: plain names on top of
`".."` components. -/
def stack_ok : List Str → Bool
  | [] => true
  | t :: rest => (t = ['.', '.'] && rest.all (fun c => c = ['.', '.'])) || (is_plain t && stack_ok rest)

/-- The loop run from a state of the cursors, bounded by the number of
characters left to read. -/
def loop_from (buf : Str) (cr cw : Nat) : Str × Nat :=
  normalize_loop (buf.length - cr) buf cr cw

/-- The state of the loop between two components of a relative path: the
output is the stack `st`, each component followed by `'/'`. -/
def rel_state (buf : Str) (cr cw : Nat) (st : List Str) : Prop :=
  cw ≤ cr ∧ cr ≤ buf.length ∧ buf.take cw = written st ∧ stack_ok st = true
    ∧ (cw = 0 → charAt buf 0 ≠ '/' ∨ strncmp_eq buf 0 ['/', '.', '.', '/'] = true)

/-- The end of `normalize_path`: one final `'/'` is removed. -/
def strip_slash (s : Str) : Str :=
  if s.getLast? = some '/' then s.dropLast else s

/-- One step of the reduction below the root directory; the stack has its top
first.  A `"."` is dropped, a `".."` removes the name on top when there is
one, any other component is put on top. -/
def push_absolute (st : List Str) (c : Str) : List Str :=
  if c = ['.'] then st
  else if c = ['.', '.'] then st.tail
  else c :: st

/-- The state of the loop between two components of an absolute path: the
output is `'/'` and then the stack `st` of plain names, each followed by
`'/'`; at the root the buffer does not start with `"/../"`. -/
def abs_state (buf : Str) (cr cw : Nat) (st : List Str) : Prop :=
  cw ≤ cr ∧ cr ≤ buf.length ∧ buf.take cw = '/' :: written st
    ∧ (∀ c ∈ st, is_plain c = true)
    ∧ (st = [] → strncmp_eq buf 0 ['/', '.', '.', '/'] = false)

end Mkdeps

namespace Mkdeps

/-- An enumeration hands out the members of the set and nothing else. -/
def enumerates (enum : Enumeration) : Prop := ∀ l x, x ∈ enum l ↔ x ∈ l

/-- The module that a path stands for: the base name of the path with its
extension stripped. -/
def module_of (path : Str) : Str :=
  get_base_name (c_str (replace_extension path []))

/-- The module `m` is a given file and is implied by a header of `f`: some
dependency path of `f`, with its extension stripped and reduced to its base
name, is `m`. -/
def implies_module (given : List Str) (f : Source_file) (m : Str) : Prop :=
  m ∈ given ∧ ∃ d ∈ f.deps, module_of d = m

/-- The initial set of the entry of `f`: the given modules implied by its
headers, and its own name when it is a main program. -/
def initial_set (given : List Str) (f : Source_file) (m : Str) : Prop :=
  implies_module given f m ∨ (f.target = Target_type.Main_target ∧ m = f.name)

/-- The modules reachable from `init`: a member of `init`, or a given module
implied by a header of a registered file whose name is reachable. -/
inductive Reach (files : List Source_file) (given : List Str) (init : Str → Prop) :
    Str → Prop
  | base (m : Str) : init m → Reach files given init m
  | step (m m2 : Str) (f : Source_file) : Reach files given init m → f ∈ files →
      f.name = m → implies_module given f m2 → Reach files given init m2

/-- The number of given files that are not in `deps`. -/
def missing (given deps : List Str) : Nat := (given.filter (fun g => g ∉ deps)).length

/-- The set `deps` is left as it is by a scan from the label `restart`. -/
def settled (enum : Enumeration) (files : List Source_file) (given deps : List Str) : Prop :=
  scan_deps enum files given (enum deps) deps = (false, deps)

/-- The set of an entry after the fixed-point loop, `deps` when the bound is
used up. -/
def closed_set (enum : Enumeration) (files : List Source_file) (given : List Str)
    (fuel : Nat) (deps : List Str) : List Str :=
  match close_entry enum files given fuel false deps with
  | some r => r.2
  | none => deps

/-- The entry of a file after `compute_mains`. -/
def closed_entry (enum : Enumeration) (p : Project) (fuel : Nat) (f : Source_file) :
    Source_file :=
  { main_entry enum p.given_files p.given_files_full f with
    deps := closed_set enum p.files p.given_files fuel
      (main_entry enum p.given_files p.given_files_full f).deps }

/-- The state of a project between the registrations and `compute_mains`: the
files are in the order of their names, every name is a base name, and no
entry has been computed. -/
def project_ok (p : Project) : Prop :=
  p.files.Pairwise (fun a b => str_lt a.name b.name = true) ∧
  (∀ f ∈ p.files, get_base_name (c_str f.name) = f.name) ∧ p.mains = []

instance (p : Project) : Decidable (project_ok p) := by
  unfold project_ok; infer_instance

/-- A call of `Project::add`. -/
structure Registration where
  name : Str
  cont : List Str
  target : Target_type
  deriving DecidableEq, Repr

/-- The file that a call of `Project::add` puts into the set of files. -/
def registered (enum : Enumeration) (r : Registration) : Source_file :=
  { name := get_base_name (c_str (replace_extension (c_str r.name) [])),
    full_name := c_str r.name,
    deps := (enum r.cont).foldl (fun acc d => acc.insert d) [],
    deps_full_path := [], target := r.target }

/-- The project with nothing registered. -/
def Project.empty (curdir : Str) : Project := ⟨[], [], [], [], curdir⟩

/-- The project after the calls `regs` of `Project::add` and the calls `given`
of `Project::add_given_file`, in this order. -/
def register_all (enum : Enumeration) (curdir : Str) (regs : List Registration)
    (given : List Str) : Project :=
  given.foldl Project.add_given_file
    (regs.foldl (fun p r => p.add enum r.name r.cont r.target) (Project.empty curdir))

end Mkdeps

namespace Mkdeps

/-- The registrations of a main program `a` that includes the header of `b`,
of `b` that includes the header of `c`, and of `c`. -/
def chain_regs : List Registration :=
  [⟨"a.c".toList, ["src/b.h".toList], Target_type.Main_target⟩,
   ⟨"src/b.c".toList, ["src/b.h".toList, "src/c.h".toList], Target_type.Not_target⟩,
   ⟨"src/c.c".toList, ["src/c.h".toList, "/usr/include/stdio.h".toList],
     Target_type.Lib_target⟩]

/-- The given files of the three registrations. -/
def chain_given : List Str := ["a.c".toList, "src/b.c".toList, "src/c.c".toList]

/-- The project of the three registrations, all of them given files. -/
def chain_project : Project := register_all id [] chain_regs chain_given

/-- The registrations of two given files each of which includes the header of
the other. -/
def cycle_project : Project :=
  register_all id []
    [⟨"a.c".toList, ["b.h".toList], Target_type.Main_target⟩,
     ⟨"b.c".toList, ["a.h".toList], Target_type.Not_target⟩]
    ["a.c".toList, "b.c".toList]

end Mkdeps

namespace Mkdeps

/-- The registration of a main program `x/a.c`. -/
def same_name_first : Registration :=
  ⟨"x/a.c".toList, ["b.h".toList], Target_type.Main_target⟩

/-- The registration of a library file `y/a.c`. -/
def same_name_second : Registration :=
  ⟨"y/a.c".toList, ["c.h".toList], Target_type.Lib_target⟩

end Mkdeps

namespace Mkdeps

/-- The headers `x.h` and `y.h`, each of one empty line. -/
def two_headers : Files := [("x.h".toList, [[]]), ("y.h".toList, [[]])]

/-- The classification of a line: after leading white space it begins with
`int main` or `main` (a main program), or with `/* LIBRARY */` (a library). -/
def classify (line : Str) : Option Target_type :=
  let i := (c_str line).dropWhile isspace
  if "int main".toList <+: i ∨ "main".toList <+: i then some Target_type.Main_target
  else if "/* LIBRARY */".toList <+: i then some Target_type.Lib_target
  else none

/-- The classification of the last of the lines that has one, `t` when none
has. -/
def last_target (t : Target_type) (lines : List Str) : Target_type :=
  ((lines.filterMap classify).getLast?).getD t

/-- A state of the scanner and the lines that the loop of `scan_source_file`
has read so far, in the order in which they were read. -/
abbrev Logged := State × List Str

/-- The method `State::process_include` with the lines read. -/
def process_include_log (fs : Files) (scan : Logged → List Str → Str → Option Logged)
    (st : Logged) (name : Str) : Option Logged :=
  match open_file fs name with
  | some is => scan st is name
  | none => some st

/-- The method `State::process_line` with the lines read: only an included
file adds to them. -/
def process_line_log (g : Globals) (fs : Files)
    (scan : Logged → List Str → Str → Option Logged)
    (st : Logged) (is : List Str) (d parent_dir : Str) : Option (Logged × List Str) :=
  if strncmp_eq d 0 "include".toList then
    let dep_name := skip_space (d.drop 7)
    match locate_file g fs dep_name [] parent_dir with
    | (true, expanded) =>
      (process_include_log fs scan (add_dependency st.1 expanded, st.2) (c_str expanded)).map
        (fun st1 => (st1, is))
    | (false, _) => some (st, is)
  else
    (process_line g fs (fun s _ _ => some s) st.1 is d parent_dir).map
      (fun r => ((r.1, st.2), r.2))

/-- The loop of `State::scan_source_file` with the lines read: every line that
`getline` delivers to this loop is added; the lines that `process_ifdef`
consumes are not. -/
def scan_loop_log (g : Globals) (fs : Files)
    (scan : Logged → List Str → Str → Option Logged) :
    Nat → Logged → Str → List Str → Option Logged
  | _, st, _, [] => some st
  | 0, _, _, _ :: _ => none
  | n + 1, st, ns, sb :: rest =>
    let i := skip_space (c_str sb)
    if charAt i 0 = '#' then
      match process_line_log g fs scan (st.1, st.2 ++ [sb]) rest (skip_space (i.drop 1)) ns with
      | some (st1, rest1) => scan_loop_log g fs scan n st1 ns rest1
      | none => none
    else if strncmp_eq i 0 "int main".toList ∨ strncmp_eq i 0 "main".toList then
      scan_loop_log g fs scan n
        ({ st.1 with target := Target_type.Main_target }, st.2 ++ [sb]) ns rest
    else if strncmp_eq i 0 "/* LIBRARY */".toList then
      scan_loop_log g fs scan n
        ({ st.1 with target := Target_type.Lib_target }, st.2 ++ [sb]) ns rest
    else scan_loop_log g fs scan n (st.1, st.2 ++ [sb]) ns rest

/-- The method `State::scan_source_file` with the lines read. -/
def scan_source_file_log (g : Globals) (fs : Files) :
    Nat → Logged → List Str → Str → Option Logged
  | 0, st, _, name => if name ∈ st.1.already_seen then some st else none
  | depth + 1, st, is, name =>
    if name ∈ st.1.already_seen then some st
    else
      let st1 : Logged := ({ st.1 with already_seen := st.1.already_seen.insert name }, st.2)
      let ns := shrink_to_dir name
      let ns := if ns = [] then ['.'] else ns
      scan_loop_log g fs (scan_source_file_log g fs depth) is.length st1 ns is

/-- A header with a line that begins with `main`. -/
def target_files : Files := [("m.h".toList, ["  main (void)".toList, []])]

/-- A file with a library mark, a main program in a region that is skipped,
and the include of a header. -/
def target_lines : List Str :=
  ["/* LIBRARY */".toList, "#ifdef X".toList, "int main (void)".toList, "#endif".toList,
   include_line "m.h", "int x;".toList, []]

end Mkdeps

namespace Mkdeps

/-- The text without its continuation markers: every occurrence of two
spaces, a backslash, a newline and three spaces is removed, from left to
right.  The first argument counts the characters of a marker still to drop. -/
def remove_continuations_from : Nat → Str → Str
  | _, [] => []
  | k + 1, _ :: cs => remove_continuations_from k cs
  | 0, c :: cs =>
    if continuation <+: c :: cs then remove_continuations_from 6 cs
    else c :: remove_continuations_from 0 cs

/-- The text without its continuation markers. -/
def remove_continuations (s : Str) : Str := remove_continuations_from 0 s

/-- The unwrapped line: a space and the token, for every token in order. -/
def unwrapped (tokens : List Str) : Str := (tokens.map (fun t => ' ' :: t)).flatten

/-- A token in the wrapped text: the token after a space, with a continuation
marker in front when `b` holds. -/
def wrapped_token (b : Bool) (t : Str) : Str :=
  (if b then continuation else []) ++ ' ' :: t

/-- The physical lines of a text: the text between two newlines. -/
def lines_of : Str → List Str
  | [] => [[]]
  | c :: cs =>
    if c = '\n' then [] :: lines_of cs
    else
      match lines_of cs with
      | [] => [[c]]
      | l :: ls => (c :: l) :: ls

/-- No physical line is longer than `w`, for a text that starts in column
`col`. -/
def width_ok (w : Nat) : Str → Nat → Bool
  | [], col => decide (col ≤ w)
  | c :: cs, col =>
    if c = '\n' then decide (col ≤ w) && width_ok w cs 0 else width_ok w cs (col + 1)

/-- The column after a text that starts in column `col`. -/
def end_col : Str → Nat → Nat
  | [], col => col
  | c :: cs, col => if c = '\n' then end_col cs 0 else end_col cs (col + 1)

end Mkdeps

namespace Mkdeps

/-- Two short tokens around a token of 73 characters. -/
def long_tokens : List Str :=
  ["dir/a.o".toList,
   "dir/a_very_long_directory_name/with_another_long_directory/and_a_file_x.o".toList,
   "b.o".toList, "c.o".toList]

end Mkdeps

namespace Mkdeps

/-- The lines of the old makefile that precede its first marker line. -/
def before_marker (lines : List Str) : List Str := lines.takeWhile (fun l => l ≠ needle)

/-- The lines of the old makefile from its first marker line on. -/
def from_marker (lines : List Str) : List Str := lines.dropWhile (fun l => l ≠ needle)

/-- An old makefile with two lines of its own, the marker, and generated
lines with a second marker. -/
def old_makefile : List Str :=
  ["CC = gcc".toList, [], needle, "a.o : a.c".toList, needle, "b.o : b.c".toList]

end Mkdeps

namespace Mkdeps

/-- A write of `c` at the offset `i` that is checked: it is inside the buffer
and below `lim`, the offset up to which the input has been read. -/
def write_checked (buf : Str) (lim i : Nat) (c : Char) : Option Str :=
  if i < lim ∧ lim ≤ buf.length then some (buf.set i c) else none

/-- The loop `copy_component` with every write checked. -/
def copy_component_checked : Nat → Str → Nat → Nat → Option (Str × Nat × Nat)
  | 0, buf, cr, cw => some (buf, cr, cw)
  | n + 1, buf, cr, cw =>
    if charAt buf cr ≠ dirsep then
      match write_checked buf (cr + 1) cw (charAt buf cr) with
      | some buf1 => copy_component_checked n buf1 (cr + 1) (cw + 1)
      | none => none
    else some (buf, cr, cw)

/-- The branch `dotdot_step` with every write checked. -/
def dotdot_step_checked (buf : Str) (cr cw : Nat) : Option (Str × Nat × Nat) :=
  let sep := last_sep_before buf 0 ((cw : Int) - 1)
  if charAt buf sep = dirsep ∧ strncmp_eq buf sep ['/', '.', '.', '/'] = false then
    some (buf, cr + 3, sep + 1)
  else if cw ≠ 0 ∧ charAt buf (cw - 1) = dirsep
      ∧ strncmp_eq buf 0 ['.', '.', '/'] = false then
    some (buf, cr + 3, 0)
  else
    match write_checked buf (cr + 3) cw '.' with
    | none => none
    | some b1 =>
      match write_checked b1 (cr + 3) (cw + 1) '.' with
      | none => none
      | some b2 =>
        match write_checked b2 (cr + 3) (cw + 2) dirsep with
        | none => none
        | some b3 => some (b3, cr + 3, cw + 3)

/-- The tail `copy_step` of an iteration with every write checked. -/
def copy_step_checked (buf : Str) (cr cw : Nat) : Option (Str × Nat × Nat) :=
  match copy_component_checked (buf.length - cr) buf cr cw with
  | none => none
  | some (buf1, cr1, cw1) =>
    if cr1 ≠ buf1.length then
      match write_checked buf1 (cr1 + 1) cw1 (charAt buf1 cr1) with
      | none => none
      | some buf2 =>
        if charAt buf2 (cr1 + 1) = dirsep then some (buf2, cr1 + 2, cw1 + 1)
        else some (buf2, cr1 + 1, cw1 + 1)
    else some (buf1, cr1, cw1)

/-- One iteration of the loop of `normalize_path` with every write checked. -/
def normalize_step_checked (buf : Str) (cr cw : Nat) : Option (Str × Nat × Nat) :=
  if charAt buf cr = '.' ∧ cr + 1 ≠ buf.length ∧ charAt buf (cr + 1) = dirsep then
    some (buf, cr + 2, cw)
  else if charAt buf cr = '.' ∧ cr + 1 ≠ buf.length ∧ charAt buf (cr + 1) = '.'
      ∧ cr + 2 ≠ buf.length ∧ charAt buf (cr + 2) = dirsep then
    dotdot_step_checked buf cr cw
  else copy_step_checked buf cr cw

/-- The loop of `normalize_path` with every write checked and with the check,
at the head of every iteration and at the end, that the write cursor has not
passed the read cursor. -/
def normalize_loop_checked : Nat → Str → Nat → Nat → Option (Str × Nat)
  | 0, buf, cr, cw => if cw ≤ cr then some (buf, cw) else none
  | fuel + 1, buf, cr, cw =>
    if ¬ cw ≤ cr then none
    else if cr = buf.length then some (buf, cw)
    else
      match normalize_step_checked buf cr cw with
      | none => none
      | some (buf1, cr1, cw1) => normalize_loop_checked fuel buf1 cr1 cw1

end Mkdeps

namespace Mkdeps

/-- A project with the file `src/parser.c` and one header, in the directory
`/w`. -/
def parser_project : Project :=
  { files := [⟨"parser".toList, "src/parser.c".toList,
      ["/usr/local/include/project/generated/grammar/parser_tabs.h".toList], [],
      Target_type.Not_target⟩],
    mains := [], given_files := ["parser".toList], given_files_full := ["src/parser.c".toList],
    curdir := "/w".toList }

/-- The rule of `parser_project` on a single line. -/
def parser_rule : Str :=
  ("parser.o : src/parser.c "
    ++ "/usr/local/include/project/generated/grammar/parser_tabs.h").toList

/-- A project after `compute_mains` with the main program `prog`, whose closed
set is `prog` and `util`. -/
def prog_project : Project :=
  { files := [], mains := [⟨"prog".toList, [], ["prog".toList, "util".toList], [],
      Target_type.Main_target⟩],
    given_files := [], given_files_full := [], curdir := "/w".toList }

/-- A project after `compute_mains` with the library `foo`, whose closed set
is `foo`. -/
def foo_project : Project :=
  { files := [], mains := [⟨"foo".toList, [], ["foo".toList], [], Target_type.Lib_target⟩],
    given_files := [], given_files_full := [], curdir := "/w".toList }

/-- The lines of a conditional on `U` with a conditional on `V` nested in its
first branch. -/
def nested_lines : List Str :=
  ["#ifdef U".toList, "#ifdef V".toList, "#else".toList, include_line "x.h",
   "#endif".toList, "#else".toList, include_line "y.h", "#endif".toList, []]

end Mkdeps

namespace Mkdeps

/-- An identifier: letters, digits and `'_'`, not empty and not starting with
a digit. -/
def is_identifier (s : Str) : Bool :=
  match s with
  | [] => false
  | c :: cs => isword c && !('0' ≤ c && c ≤ '9') && cs.all isword

/-- The lines that define the macro `foo` and then test it, with an include in
each branch. -/
def held_lines (foo : Str) : List Str :=
  ["#define ".toList ++ foo, "#ifdef ".toList ++ foo, include_line "x.h", "#else".toList,
   include_line "y.h", "#endif".toList, []]

end Mkdeps

namespace Mkdeps

/-! ### Streams that never reach the end of file -/

/-- What `std::ifstream` opens.  A regular file is an entry of `files`.  A
path in `dirs` names a directory: the stream opens with `good()`, the first
call of `getline` fails without setting `eofbit`, every later call leaves the
stream and `sb` as they are, and `eof()` stays false. -/
structure Disk where
  files : Files
  dirs : List Str
  deriving DecidableEq, Repr

/-- The paths of a disk that open with `is.good()`; a directory delivers no
line. -/
def Disk.opens (d : Disk) : Files :=
  d.dirs.map (fun p => (p, [])) ++ d.files

/-- The loop `while (!is.eof())` of `State::scan_source_file` on the stream of
a directory: `getline` leaves `sb` empty, the body of the loop runs on the
empty line, and the test of `eof()` is made again.  The first argument bounds
the number of iterations; `none` when the bound is used up. -/
def scan_endless (g : Globals) (fs : Files) (scan : State → List Str → Str → Option State) :
    Nat → State → Str → Option State
  | 0, _, _ => none
  | n + 1, st, ns =>
    match scan_loop g fs scan 1 st ns [[]] with
    | some st1 => scan_endless g fs scan n st1 ns
    | none => none

/-- The method `State::scan_source_file` on a disk with directories.  The
first argument bounds the depth of nested includes and the number of
iterations of the loop on a stream that never reaches the end of file; the
result is `none` when the bound is used up. -/
def scan_source_file_on (d : Disk) (g : Globals) : Nat → State → List Str → Str → Option State
  | 0, st, _, name => if name ∈ st.already_seen then some st else none
  | fuel + 1, st, is, name =>
    if name ∈ st.already_seen then some st
    else
      let st1 := { st with already_seen := st.already_seen.insert name }
      let ns := shrink_to_dir name
      let ns := if ns = [] then ['.'] else ns
      if name ∈ d.dirs then
        scan_endless g d.opens (scan_source_file_on d g fuel) (fuel + 1) st1 ns
      else scan_loop g d.opens (scan_source_file_on d g fuel) is.length st1 ns is

/-- A source file that includes the directory `sub`. -/
def dir_disk : Disk :=
  ⟨[("t.c".toList, [include_line "sub", "int main()".toList, []])], ["sub".toList]⟩

/-- The same source file when `sub` is a header. -/
def header_disk : Disk :=
  ⟨[("t.c".toList, [include_line "sub", "int main()".toList, []]), ("sub".toList, [[]])], []⟩

end Mkdeps

namespace Mkdeps

/-! ### The module of a path, in the words of the specification -/

/-- The file name of a path: what follows its last `'/'` or `'\\'`, the whole
path when it has neither. -/
def file_name_of (path : Str) : Str :=
  (path.reverse.takeWhile (fun c => !(c == '/' || c == '\\'))).reverse

/-- A file name with its extension stripped: what stands before its last
`'.'`, the whole name when it has none. -/
def without_extension (n : Str) : Str :=
  if '.' ∈ n then ((n.reverse.dropWhile (fun c => c != '.')).drop 1).reverse else n

/-- The base name of a path with its extension stripped. -/
def stated_module (path : Str) : Str :=
  without_extension (file_name_of path)

/-- The set that a registered file has before the fixed-point loop, in the
words of the specification: the base names of its dependencies, with the
extension stripped, that are given files, and its own name when it is a main
program. -/
def stated_initial_set (given : List Str) (f : Source_file) : List Str :=
  (f.deps.map stated_module).filter (fun m => decide (m ∈ given)) ++
    (if f.target = Target_type.Main_target then [f.name] else [])

/-- The registrations of a main program that includes the header `util` of
the directory `v1.2`, of `util`, which includes the header of `tools`, and of
`tools`. -/
def dotted_regs : List Registration :=
  [⟨"main.c".toList, ["v1.2/util".toList], Target_type.Main_target⟩,
   ⟨"util.c".toList, ["tools.h".toList], Target_type.Not_target⟩,
   ⟨"tools.c".toList, [], Target_type.Not_target⟩]

/-- The project of the three registrations, all of them given files. -/
def dotted_project : Project :=
  register_all id [] dotted_regs ["main.c".toList, "util.c".toList, "tools.c".toList]

/-- Two files of the name `a.c` and the files `b.c` and `c.c`. -/
def same_name_regs : List Registration :=
  [same_name_first, same_name_second, ⟨"b.c".toList, [], Target_type.Not_target⟩,
   ⟨"c.c".toList, [], Target_type.Not_target⟩]

/-- The same registrations with the two files of the name `a.c` in the other
order. -/
def same_name_swapped : List Registration :=
  [same_name_second, same_name_first, ⟨"b.c".toList, [], Target_type.Not_target⟩,
   ⟨"c.c".toList, [], Target_type.Not_target⟩]

/-- The given files of the four registrations. -/
def same_name_given : List Str :=
  ["x/a.c".toList, "y/a.c".toList, "b.c".toList, "c.c".toList]

end Mkdeps

/-! ## Theorems -/

namespace Mkdeps

/-! ### Characters and buffers -/

theorem char_le_iff (a b : Char) : a ≤ b ↔ a.toNat ≤ b.toNat := Iff.rfl

theorem toNat_ofNat_small (n : Nat) (h : n < 55296) : (Char.ofNat n).toNat = n := by
  unfold Char.ofNat
  have hv : n.isValidChar := Or.inl h
  simp only [hv, dite_true]
  unfold Char.ofNatAux Char.toNat
  simp [UInt32.toNat]

theorem charAt_nil (i : Nat) : charAt [] i = NUL := by
  simp [charAt]

theorem charAt_cons_zero (c : Char) (s : Str) : charAt (c :: s) 0 = c := by
  simp [charAt]

theorem charAt_cons_succ (c : Char) (s : Str) (i : Nat) :
    charAt (c :: s) (i + 1) = charAt s i := by
  simp [charAt]

theorem charAt_append_left (a b : Str) (i : Nat) (h : i < a.length) :
    charAt (a ++ b) i = charAt a i := by
  simp [charAt, List.getD_eq_getElem?_getD, List.getElem?_append_left h]

theorem charAt_append_right (a b : Str) (i : Nat) (h : a.length ≤ i) :
    charAt (a ++ b) i = charAt b (i - a.length) := by
  simp [charAt, List.getD_eq_getElem?_getD, List.getElem?_append_right h]

theorem charAt_append_length (a b : Str) (c : Char) :
    charAt (a ++ c :: b) a.length = c := by
  rw [charAt_append_right a _ _ (Nat.le_refl _)]
  simp [charAt]

theorem set_append_length (a b : Str) (c d : Char) :
    (a ++ c :: b).set a.length d = a ++ d :: b := by
  induction a with
  | nil => rfl
  | cons x a ih => simp [ih]

/-! ### `tolower` and `path_is_absolute` -/

theorem tolower_range (c : Char) :
    (('a' ≤ tolower c ∧ tolower c ≤ 'z') ↔
      (('a' ≤ c ∧ c ≤ 'z') ∨ ('A' ≤ c ∧ c ≤ 'Z'))) := by
  unfold tolower
  by_cases h : 'A' ≤ c ∧ c ≤ 'Z'
  · rw [if_pos h]
    have h1 : 65 ≤ c.toNat := (char_le_iff 'A' c).1 h.1
    have h2 : c.toNat ≤ 90 := (char_le_iff c 'Z').1 h.2
    have h3 : (Char.ofNat (c.toNat + 32)).toNat = c.toNat + 32 :=
      toNat_ofNat_small _ (by omega)
    constructor
    · intro _
      exact Or.inr h
    · intro _
      constructor
      · rw [char_le_iff, h3]
        show 97 ≤ c.toNat + 32
        omega
      · rw [char_le_iff, h3]
        show c.toNat + 32 ≤ 122
        omega
  · rw [if_neg h]
    constructor
    · intro h'
      exact Or.inl h'
    · intro h'
      rcases h' with h' | h'
      · exact h'
      · exact absurd h' h

theorem path_is_absolute_eq (s : Str) : path_is_absolute s = absolute_by_spec s := by
  cases s with
  | nil => decide
  | cons c rest =>
    have hr := tolower_range c
    have h1 : charAt (c :: rest) 1 = ':' ↔ rest.head? = some ':' := by
      cases rest with
      | nil => simp [charAt, NUL]
      | cons d r => simp [charAt]
    rw [Bool.eq_iff_iff]
    simp only [path_is_absolute, absolute_by_spec, charAt_cons_zero, dirsep, Bool.or_eq_true,
      Bool.and_eq_true, decide_eq_true_eq]
    rw [hr, h1]

end Mkdeps

namespace Mkdeps

/-! ### `convert_to_fwd_slash` -/

theorem fwd_slash_loop_no_backslash (s : Str) : '\\' ∉ fwd_slash_loop s := by
  induction s with
  | nil => simp [fwd_slash_loop]
  | cons c cs ih =>
    simp only [fwd_slash_loop, List.mem_cons, not_or]
    refine ⟨?_, ih⟩
    by_cases h : c = '\\'
    · rw [if_pos h]
      decide
    · rw [if_neg h]
      exact fun h' => h h'.symm

theorem tolower_upper (c : Char) (hA : 'A' ≤ c) (hZ : c ≤ 'Z') :
    tolower c = Char.ofNat (c.toNat + 32) ∧ (tolower c).toNat = c.toNat + 32 := by
  have h1 : 65 ≤ c.toNat := (char_le_iff 'A' c).1 hA
  have h2 : c.toNat ≤ 90 := (char_le_iff c 'Z').1 hZ
  unfold tolower
  rw [if_pos ⟨hA, hZ⟩]
  exact ⟨rfl, toNat_ofNat_small _ (by omega)⟩

/-- C5, as amended: `convert_to_fwd_slash` leaves no backslash in any path, and
turns a path that starts with an upper-case letter and a colon into one that
starts with the matching lower-case letter (code + 32) and the colon. -/
theorem convert_to_fwd_slash_spec (p : Str) :
    '\\' ∉ convert_to_fwd_slash p ∧
    ∀ (c : Char) (rest : Str), 'A' ≤ c → c ≤ 'Z' → p = c :: ':' :: rest →
      convert_to_fwd_slash p = Char.ofNat (c.toNat + 32) :: ':' :: fwd_slash_loop rest := by
  refine ⟨fwd_slash_loop_no_backslash _, ?_⟩
  intro c rest hA hZ hp
  subst hp
  have ht := tolower_upper c hA hZ
  have hne : ¬ tolower c = '\\' := by
    intro h
    have h3 : (tolower c).toNat = 92 := by rw [h]; rfl
    have h1 : 65 ≤ c.toNat := (char_le_iff 'A' c).1 hA
    omega
  have hcolon : charAt (c :: ':' :: rest) 1 = ':' := by simp [charAt]
  simp only [convert_to_fwd_slash, List.length_cons, hcolon, charAt_cons_zero]
  simp only [ne_eq, Nat.add_one_ne_zero, not_false_eq_true, true_and, and_true]
  rw [if_pos (by omega)]
  simp only [List.set_cons_zero, fwd_slash_loop, if_neg hne]
  rw [ht.1]
  simp

/-- Witness of C5: `"C:\x"` becomes `"c:/x"`. -/
theorem convert_to_fwd_slash_spec_witness :
    convert_to_fwd_slash ['C', ':', '\\', 'x'] = ['c', ':', '/', 'x'] :=
  (convert_to_fwd_slash_spec ['C', ':', '\\', 'x']).2 'C' ['\\', 'x'] (by decide) (by decide) rfl

/-- C5, as stated, fails: `normalize_path` keeps the backslash of `"C:\x"` and
its upper-case drive letter. -/
theorem normalize_path_keeps_backslash :
    normalize_path ['C', ':', '\\', 'x'] = ['C', ':', '\\', 'x'] := by
  decide

/-! ### `try_merge_paths` -/

/-- C6: `try_merge_paths` returns -1 and leaves `dest` as it is exactly when
`tail` is absolute in the words of the specification; otherwise it returns 0
and `dest` is `normalize_path (head + "/" + tail)`. -/
theorem try_merge_paths_spec (dest head tail : Str) :
    try_merge_paths dest head tail =
      if absolute_by_spec tail then ((-1 : Int), dest)
      else ((0 : Int), normalize_path (head ++ ['/'] ++ tail)) := by
  unfold try_merge_paths
  rw [path_is_absolute_eq]
  rfl

/-! ### `shrink_to_dir` -/

theorem shrink_loop_no_sep (post done : Str) (ls : Nat)
    (h1 : '/' ∉ post) (h2 : '\\' ∉ post) :
    shrink_loop post.length (done ++ post) done.length ls = (done ++ post, ls) := by
  induction post generalizing done with
  | nil => simp [shrink_loop]
  | cons c cs ih =>
    simp only [List.mem_cons, not_or] at h1 h2
    have hc1 : ¬ c = '/' := fun h => h1.1 h.symm
    have hc2 : ¬ c = '\\' := fun h => h2.1 h.symm
    simp only [List.length_cons, shrink_loop, charAt_append_length, if_neg hc1, if_neg hc2]
    have := ih (done ++ [c]) h1.2 h2.2
    simp only [List.append_assoc, List.singleton_append, List.length_append, List.length_singleton]
      at this
    exact this

theorem shrink_loop_succ (n : Nat) (buf : Str) (cp ls : Nat) :
    shrink_loop (n + 1) buf cp ls =
      if charAt buf cp = '/' then shrink_loop n buf (cp + 1) cp
      else if charAt buf cp = '\\' then shrink_loop n (buf.set cp '/') (cp + 1) cp
      else shrink_loop n buf (cp + 1) ls := rfl

theorem shrink_loop_sep (pre post done : Str) (c : Char) (ls n : Nat)
    (hn : n = pre.length + (post.length + 1))
    (hc : c = '/' ∨ c = '\\') (h1 : '/' ∉ post) (h2 : '\\' ∉ post) :
    shrink_loop n (done ++ (pre ++ c :: post)) done.length ls =
      (done ++ (pre.map slash_of ++ '/' :: post), done.length + pre.length) := by
  induction pre generalizing done ls n with
  | nil =>
    have hp := shrink_loop_no_sep post (done ++ ['/']) done.length h1 h2
    simp only [List.append_assoc, List.singleton_append, List.length_append,
      List.length_singleton] at hp
    simp only [List.length_nil, Nat.zero_add] at hn
    subst hn
    rw [shrink_loop_succ]
    rcases hc with hc | hc
    · subst hc
      simp only [List.nil_append, charAt_append_length, if_true,
        List.map_nil, List.length_nil, Nat.add_zero]
      exact hp
    · subst hc
      have hne : ¬ ('\\' : Char) = '/' := by decide
      simp only [List.nil_append, charAt_append_length, if_neg hne,
        if_true, List.map_nil, List.length_nil, Nat.add_zero, set_append_length]
      exact hp
  | cons x xs ih =>
    obtain ⟨m, rfl⟩ : ∃ m, n = m + 1 := ⟨xs.length + (post.length + 1), by
      simp only [List.length_cons] at hn
      omega⟩
    have hm : m = xs.length + (post.length + 1) := by
      simp only [List.length_cons] at hn
      omega
    rw [shrink_loop_succ]
    simp only [List.cons_append, charAt_append_length, List.map_cons, List.length_cons]
    by_cases hx1 : x = '/'
    · rw [if_pos hx1]
      have := ih (done ++ [x]) done.length m hm
      simp only [List.append_assoc, List.singleton_append, List.length_append,
        List.length_singleton] at this
      rw [this]
      subst hx1
      simp [slash_of]
      omega
    · rw [if_neg hx1]
      by_cases hx2 : x = '\\'
      · rw [if_pos hx2, set_append_length]
        have := ih (done ++ ['/']) done.length m hm
        simp only [List.append_assoc, List.singleton_append, List.length_append,
          List.length_singleton] at this
        rw [this]
        subst hx2
        simp [slash_of]
        omega
      · rw [if_neg hx2]
        have := ih (done ++ [x]) ls m hm
        simp only [List.append_assoc, List.singleton_append, List.length_append,
          List.length_singleton] at this
        rw [this]
        simp [slash_of, hx2]
        omega

/-- C7, as amended: with `'/'` and the backslash both taken as separators,
`shrink_to_dir` returns the part before the last separator, each backslash
of it replaced by `'/'`; a path with neither character gives the empty
string. -/
theorem shrink_to_dir_spec (pre post : Str) (c : Char)
    (hc : c = '/' ∨ c = '\\') (h1 : '/' ∉ post) (h2 : '\\' ∉ post) :
    shrink_to_dir (pre ++ c :: post) = pre.map slash_of ∧ shrink_to_dir post = [] := by
  constructor
  · have h := shrink_loop_sep pre post [] c (pre ++ c :: post).length
      (pre ++ c :: post).length (by simp) hc h1 h2
    simp only [List.nil_append, List.length_nil, Nat.zero_add] at h
    unfold shrink_to_dir
    rw [h]
    have hlen : ¬ pre.length = (pre ++ c :: post).length := by
      simp only [List.length_append, List.length_cons]
      omega
    simp only [if_neg hlen]
    have h3 : (pre.map slash_of ++ '/' :: post).set pre.length NUL
        = pre.map slash_of ++ NUL :: post := by
      have := set_append_length (pre.map slash_of) post '/' NUL
      simp at this
      simp [this]
    rw [h3]
    have h4 : pre.length = (pre.map slash_of).length := by simp
    rw [h4, List.take_left]
  · have h := shrink_loop_no_sep post [] post.length h1 h2
    simp only [List.nil_append, List.length_nil] at h
    unfold shrink_to_dir
    rw [h]
    simp

/-- Witness of C7: `"a\b/c.h"` gives `"a/b"` and `"c.h"` gives `""`. -/
theorem shrink_to_dir_spec_witness :
    shrink_to_dir ['a', '\\', 'b', '/', 'c', '.', 'h'] = ['a', '/', 'b']
      ∧ shrink_to_dir ['c', '.', 'h'] = [] :=
  shrink_to_dir_spec ['a', '\\', 'b'] ['c', '.', 'h'] '/' (Or.inl rfl) (by decide) (by decide)

/-- C7, as stated, fails: the part of `"a\b/c.h"` before its last separator is
`"a\b"`, and `shrink_to_dir` returns `"a/b"`; and `"a\b"`, which has no `'/'`,
gives `"a"`, not the empty string. -/
theorem shrink_to_dir_rewrites_backslash :
    shrink_to_dir ['a', '\\', 'b', '/', 'c', '.', 'h'] ≠ ['a', '\\', 'b']
      ∧ shrink_to_dir ['a', '\\', 'b'] ≠ [] := by
  decide

/-! ### `normalize_to_cwd` -/

/-- C8, evaluated at its failing input: in the directory `/home/ab` the path
`../abc/x` merges to `/home/abc/x`, which is outside `/home/ab`, yet the
result is `/x` and not the normalized path `../abc/x`. -/
theorem normalize_to_cwd_sibling_directory :
    normalize_path "../abc/x".toList = "../abc/x".toList
      ∧ try_merge_paths [] "/home/ab".toList "../abc/x".toList = (0, "/home/abc/x".toList)
      ∧ normalize_to_cwd "/home/ab".toList "../abc/x".toList = "/x".toList := by
  decide

/-! ### `State::locate_file` -/

/-- C9, evaluated at its failing input: for `#include "n.h"` in a file of the
directory `sub`, with the search path `["."]` and `n.h` the only file, the
candidates tried are `sub/n.h` and `sub/n.hn.h`, and the call fails although
the bare name `n.h` exists. -/
theorem locate_file_stale_expanded :
    locate_file ⟨[".".toList], "/w".toList⟩ [("n.h".toList, [])]
        [Char.ofNat 34, 'n', '.', 'h', Char.ofNat 34] [] "sub".toList
      = (false, "sub/n.hn.h".toList)
    ∧ open_file [("n.h".toList, [])] "n.h".toList = some [] := by
  decide

end Mkdeps

namespace Mkdeps

/-! ### `State::scan_source_file` -/

theorem open_file_mem (fs : Files) (name : Str) (ls : List Str)
    (h : open_file fs name = some ls) : ∃ e ∈ fs, e.1 = name := by
  induction fs with
  | nil => simp [open_file] at h
  | cons e fs ih =>
    obtain ⟨p, l⟩ := e
    by_cases hp : p = name
    · exact ⟨(p, l), List.mem_cons_self _ _, hp⟩
    · simp only [open_file, if_neg hp] at h
      obtain ⟨e, he, hn⟩ := ih h
      exact ⟨e, List.mem_cons_of_mem _ he, hn⟩

theorem unseen_mono (fs : Files) (s1 s2 : List Str) (h : s1 ⊆ s2) :
    unseen fs s2 ≤ unseen fs s1 := by
  unfold unseen
  apply List.countP_mono_left
  intro e _ he
  simp only [decide_eq_true_eq] at he ⊢
  exact fun hm => he (h hm)

theorem unseen_cons_lt (fs : Files) (seen : List Str) (name : Str)
    (hfs : ∃ e ∈ fs, e.1 = name) (hn : name ∉ seen) :
    unseen fs (name :: seen) < unseen fs seen := by
  induction fs with
  | nil =>
    obtain ⟨e, he, _⟩ := hfs
    simp at he
  | cons e fs ih =>
    have hle : unseen fs (name :: seen) ≤ unseen fs seen :=
      unseen_mono fs seen (name :: seen) (List.subset_cons_self _ _)
    unfold unseen at ih hle ⊢
    rw [List.countP_cons, List.countP_cons]
    by_cases hen : e.1 = name
    · have e1 : decide (e.1 ∉ name :: seen) = false := by simp [hen]
      have e2 : decide (e.1 ∉ seen) = true := by
        rw [hen]
        simp [hn]
      rw [e1, e2]
      simp only [Bool.false_eq_true, if_false, if_true]
      omega
    · have hfs2 : ∃ e ∈ fs, e.1 = name := by
        obtain ⟨e2, he2, hn2⟩ := hfs
        rcases List.mem_cons.1 he2 with h | h
        · subst h
          exact absurd hn2 hen
        · exact ⟨e2, h, hn2⟩
      have hlt := ih hfs2
      have e1 : decide (e.1 ∉ name :: seen) = decide (e.1 ∉ seen) := by
        simp [hen]
      rw [e1]
      omega

theorem unseen_le_length (fs : Files) (seen : List Str) : unseen fs seen ≤ fs.length :=
  List.countP_le_length _

theorem skip_ifdef_length (nesting : Int) (is : List Str) :
    (skip_ifdef nesting is).length ≤ is.length := by
  induction is generalizing nesting with
  | nil => simp [skip_ifdef]
  | cons sb rest ih =>
    simp only [skip_ifdef, List.length_cons]
    split
    · exact Nat.le_succ_of_le (ih _)
    · split
      · exact Nat.le_succ _
      · split
        · split
          · exact Nat.le_succ _
          · exact Nat.le_succ_of_le (ih _)
        · exact Nat.le_succ_of_le (ih _)

theorem process_ifdef_length (st : State) (is : List Str) (line : Str) (pos : Bool) :
    (process_ifdef st is line pos).length ≤ is.length := by
  unfold process_ifdef
  simp only
  split
  · exact Nat.le_refl _
  · exact skip_ifdef_length _ _

theorem process_line_returns (g : Globals) (fs : Files)
    (scan : State → List Str → Str → Option State) (base : List Str)
    (hscan : ∀ st is name, (∃ e ∈ fs, e.1 = name) → base ⊆ st.already_seen →
      returns_above scan st is name)
    (st : State) (is : List Str) (d parent_dir : Str) (hb : base ⊆ st.already_seen) :
    ∃ st1 rest1, process_line g fs scan st is d parent_dir = some (st1, rest1)
      ∧ rest1.length ≤ is.length ∧ st.already_seen ⊆ st1.already_seen := by
  unfold process_line
  split
  · simp only
    split
    · rename_i expanded _
      unfold process_include
      split
      · rename_i is2 hopen
        obtain ⟨r, hr, hsub, _⟩ := hscan (add_dependency st expanded) is2 (c_str expanded)
          (open_file_mem fs _ _ hopen) hb
        rw [hr]
        exact ⟨r, is, rfl, Nat.le_refl _, hsub⟩
      · exact ⟨_, is, rfl, Nat.le_refl _, fun _ h => h⟩
    · exact ⟨st, is, rfl, Nat.le_refl _, fun _ h => h⟩
  · split
    · exact ⟨_, is, rfl, Nat.le_refl _, fun _ h => h⟩
    · split
      · exact ⟨st, _, rfl, process_ifdef_length _ _ _ _, fun _ h => h⟩
      · split
        · exact ⟨st, _, rfl, process_ifdef_length _ _ _ _, fun _ h => h⟩
        · split
          · exact ⟨st, _, rfl, process_ifdef_length _ _ _ _, fun _ h => h⟩
          · split
            · exact ⟨st, _, rfl, process_ifdef_length _ _ _ _, fun _ h => h⟩
            · exact ⟨st, is, rfl, Nat.le_refl _, fun _ h => h⟩

theorem scan_loop_returns (g : Globals) (fs : Files)
    (scan : State → List Str → Str → Option State) (base : List Str)
    (hscan : ∀ st is name, (∃ e ∈ fs, e.1 = name) → base ⊆ st.already_seen →
      returns_above scan st is name)
    (n : Nat) (st : State) (ns : Str) (is : List Str)
    (hn : is.length ≤ n) (hb : base ⊆ st.already_seen) :
    ∃ r, scan_loop g fs scan n st ns is = some r ∧ st.already_seen ⊆ r.already_seen := by
  induction n generalizing st is with
  | zero =>
    cases is with
    | nil => exact ⟨st, by simp [scan_loop], fun _ h => h⟩
    | cons sb rest => simp at hn
  | succ n ih =>
    cases is with
    | nil => exact ⟨st, by simp [scan_loop], fun _ h => h⟩
    | cons sb rest =>
      simp only [List.length_cons, Nat.add_le_add_iff_right] at hn
      simp only [scan_loop]
      split
      · obtain ⟨st1, rest1, hpl, hlen, hsub⟩ :=
          process_line_returns g fs scan base hscan st rest
            (skip_space ((skip_space (c_str sb)).drop 1)) ns hb
        rw [hpl]
        obtain ⟨r, hr, hsub2⟩ := ih st1 rest1 (Nat.le_trans hlen hn)
          (fun _ h => hsub (hb h))
        exact ⟨r, hr, fun _ h => hsub2 (hsub h)⟩
      · split
        · exact ih _ rest hn hb
        · split
          · exact ih _ rest hn hb
          · exact ih _ rest hn hb

theorem scan_source_file_returns (g : Globals) (fs : Files) (depth : Nat) :
    ∀ (st : State) (is : List Str) (name : Str),
      (name ∈ st.already_seen ∨ unseen fs (name :: st.already_seen) < depth) →
      returns_above (scan_source_file g fs depth) st is name := by
  induction depth with
  | zero =>
    intro st is name h
    rcases h with h | h
    · exact ⟨st, by simp [scan_source_file, h], fun _ h => h, h⟩
    · omega
  | succ depth ih =>
    intro st is name h
    by_cases hs : name ∈ st.already_seen
    · exact ⟨st, by simp [scan_source_file, hs], fun _ h => h, hs⟩
    · have hd : unseen fs (name :: st.already_seen) ≤ depth := by
        rcases h with h | h
        · exact absurd h hs
        · omega
      simp only [returns_above, scan_source_file, if_neg hs]
      have hins : st.already_seen.insert name = name :: st.already_seen :=
        List.insert_of_not_mem hs
      rw [hins]
      have hscan : ∀ st2 is2 name2, (∃ e ∈ fs, e.1 = name2) →
          (name :: st.already_seen) ⊆ st2.already_seen →
          returns_above (scan_source_file g fs depth) st2 is2 name2 := by
        intro st2 is2 name2 hfs hb
        apply ih
        by_cases hs2 : name2 ∈ st2.already_seen
        · exact Or.inl hs2
        · right
          have h1 := unseen_cons_lt fs st2.already_seen name2 hfs hs2
          have h2 := unseen_mono fs _ _ hb
          omega
      obtain ⟨r, hr, hsub⟩ := scan_loop_returns g fs (scan_source_file g fs depth)
        (name :: st.already_seen) hscan is.length
        { st with already_seen := name :: st.already_seen } _ is (Nat.le_refl _)
        (fun _ h => h)
      exact ⟨r, hr, fun _ h => hsub (List.mem_cons_of_mem _ h), hsub (List.mem_cons_self _ _)⟩

end Mkdeps

namespace Mkdeps

theorem process_line_mono (g : Globals) (fs : Files)
    (f f2 : State → List Str → Str → Option State)
    (hf : ∀ st is name r, f st is name = some r → f2 st is name = some r)
    (st : State) (is : List Str) (d parent_dir : Str) (r : State × List Str)
    (h : process_line g fs f st is d parent_dir = some r) :
    process_line g fs f2 st is d parent_dir = some r := by
  unfold process_line at h ⊢
  split
  · rw [if_pos (by assumption)] at h
    simp only at h ⊢
    split
    · rename_i expanded heq
      rw [heq] at h
      simp only [process_include] at h ⊢
      split
      · rename_i is2 hopen
        rw [hopen] at h
        simp only [Option.map_eq_some'] at h ⊢
        obtain ⟨a, ha, hr⟩ := h
        exact ⟨a, hf _ _ _ _ ha, hr⟩
      · rename_i hopen
        rw [hopen] at h
        exact h
    · rename_i x heq
      rw [heq] at h
      exact h
  · rw [if_neg (by assumption)] at h
    exact h

theorem scan_loop_cons (g : Globals) (fs : Files)
    (scan : State → List Str → Str → Option State) (n : Nat) (st : State) (ns sb : Str)
    (rest : List Str) :
    scan_loop g fs scan (n + 1) st ns (sb :: rest) =
      if charAt (skip_space (c_str sb)) 0 = '#' then
        match process_line g fs scan st rest
            (skip_space ((skip_space (c_str sb)).drop 1)) ns with
        | some (st1, rest1) => scan_loop g fs scan n st1 ns rest1
        | none => none
      else if strncmp_eq (skip_space (c_str sb)) 0 "int main".toList
          ∨ strncmp_eq (skip_space (c_str sb)) 0 "main".toList then
        scan_loop g fs scan n { st with target := Target_type.Main_target } ns rest
      else if strncmp_eq (skip_space (c_str sb)) 0 "/* LIBRARY */".toList then
        scan_loop g fs scan n { st with target := Target_type.Lib_target } ns rest
      else scan_loop g fs scan n st ns rest := rfl

theorem scan_loop_mono (g : Globals) (fs : Files)
    (f f2 : State → List Str → Str → Option State)
    (hf : ∀ st is name r, f st is name = some r → f2 st is name = some r)
    (n : Nat) (st : State) (ns : Str) (is : List Str) (r : State)
    (h : scan_loop g fs f n st ns is = some r) :
    scan_loop g fs f2 n st ns is = some r := by
  induction n generalizing st is with
  | zero =>
    cases is with
    | nil => simpa [scan_loop] using h
    | cons sb rest => simp [scan_loop] at h
  | succ n ih =>
    cases is with
    | nil => simpa [scan_loop] using h
    | cons sb rest =>
      rw [scan_loop_cons] at h ⊢
      split
      · rw [if_pos (by assumption)] at h
        cases hpl : process_line g fs f st rest
            (skip_space ((skip_space (c_str sb)).drop 1)) ns with
        | none =>
          rw [hpl] at h
          cases h
        | some p =>
          rw [hpl] at h
          rw [process_line_mono g fs f f2 hf _ _ _ _ p hpl]
          exact ih _ _ h
      · rw [if_neg (by assumption)] at h
        split
        · rw [if_pos (by assumption)] at h
          exact ih _ _ h
        · rw [if_neg (by assumption)] at h
          split
          · rw [if_pos (by assumption)] at h
            exact ih _ _ h
          · rw [if_neg (by assumption)] at h
            exact ih _ _ h

theorem scan_source_file_succ (g : Globals) (fs : Files) (depth : Nat) :
    ∀ (st : State) (is : List Str) (name : Str) (r : State),
      scan_source_file g fs depth st is name = some r →
      scan_source_file g fs (depth + 1) st is name = some r := by
  induction depth with
  | zero =>
    intro st is name r h
    by_cases hs : name ∈ st.already_seen
    · simpa [scan_source_file, hs] using h
    · simp [scan_source_file, hs] at h
  | succ depth ih =>
    intro st is name r h
    by_cases hs : name ∈ st.already_seen
    · simpa [scan_source_file, hs] using h
    · rw [scan_source_file, if_neg hs] at h ⊢
      exact scan_loop_mono g fs _ _ ih _ _ _ _ r h

theorem scan_source_file_le (g : Globals) (fs : Files) (d1 d2 : Nat) (hd : d1 ≤ d2)
    (st : State) (is : List Str) (name : Str) (r : State)
    (h : scan_source_file g fs d1 st is name = some r) :
    scan_source_file g fs d2 st is name = some r := by
  induction d2 with
  | zero =>
    have : d1 = 0 := by omega
    subst this
    exact h
  | succ d2 ih =>
    by_cases hd2 : d1 = d2 + 1
    · subst hd2
      exact h
    · exact scan_source_file_succ g fs d2 _ _ _ _ (ih (by omega))

/-- Regular files: for every finite list of them `scan_source_file` returns a
state, the same for every depth bound above the number of files, and the file
scanned is then in `already_seen`; a file that is in `already_seen` is not
scanned again; and scanning `a.h`, where `a.h` includes `b.h` and `b.h`
includes `a.h`, ends with the dependencies `a.h` and `b.h`, each once. -/
theorem scan_source_file_terminates (g : Globals) (fs : Files) (st : State)
    (is : List Str) (name : Str) :
    (∃ r, (∀ depth, fs.length + 1 ≤ depth →
        scan_source_file g fs depth st is name = some r) ∧ name ∈ r.already_seen)
    ∧ (∀ depth, name ∈ st.already_seen →
        scan_source_file g fs depth st is name = some st)
    ∧ (∀ depth, cyclic_files.length + 1 ≤ depth →
        (scan_source_file default_globals cyclic_files depth State.init
          [include_line "b.h", []] "a.h".toList).map State.deps
          = some ["a.h".toList, "b.h".toList]) := by
  refine ⟨?_, ?_, ?_⟩
  · obtain ⟨r, hr, _, hin⟩ := scan_source_file_returns g fs (fs.length + 1) st is name
      (Or.inr (Nat.lt_succ_of_le (unseen_le_length fs _)))
    exact ⟨r, fun depth hd => scan_source_file_le g fs _ _ hd _ _ _ _ hr, hin⟩
  · intro depth hs
    cases depth with
    | zero => simp [scan_source_file, hs]
    | succ d => simp [scan_source_file, hs]
  · intro depth hd
    have h3 : ∃ r, scan_source_file default_globals cyclic_files 3 State.init
        [include_line "b.h", []] "a.h".toList = some r
        ∧ r.deps = ["a.h".toList, "b.h".toList] := by
      decide
    obtain ⟨r, hr, hdeps⟩ := h3
    rw [scan_source_file_le default_globals cyclic_files 3 depth hd _ _ _ r hr]
    simp [hdeps]

/-- The scan of `a.h` in the cyclic pair returns at depth 3. -/
theorem scan_source_file_terminates_witness :
    ∃ r, scan_source_file default_globals cyclic_files 3 State.init
      [include_line "b.h", []] "a.h".toList = some r :=
  match (scan_source_file_terminates default_globals cyclic_files State.init
      [include_line "b.h", []] "a.h".toList).1 with
  | ⟨r, h, _⟩ => ⟨r, h 3 (by decide)⟩

end Mkdeps

namespace Mkdeps

/-! ### Reading and writing the buffer -/

theorem charAt_of_lt (buf : Str) (i : Nat) (h : i < buf.length) : charAt buf i = buf[i] := by
  simp [charAt, List.getD_eq_getElem?_getD, List.getElem?_eq_getElem h]

theorem charAt_of_le (buf : Str) (i : Nat) (h : buf.length ≤ i) : charAt buf i = NUL := by
  simp [charAt, List.getD_eq_getElem?_getD, List.getElem?_eq_none h]

theorem NUL_ne_slash : NUL ≠ '/' := by decide

theorem NUL_ne_dot : NUL ≠ '.' := by decide

theorem lt_of_charAt_slash (buf : Str) (i : Nat) (h : charAt buf i = '/') : i < buf.length := by
  by_contra hlt
  rw [charAt_of_le buf i (Nat.le_of_not_lt hlt)] at h
  exact NUL_ne_slash h

theorem lt_of_charAt_dot (buf : Str) (i : Nat) (h : charAt buf i = '.') : i < buf.length := by
  by_contra hlt
  rw [charAt_of_le buf i (Nat.le_of_not_lt hlt)] at h
  exact NUL_ne_dot h

theorem charAt_take (buf : Str) (k i : Nat) (h : i < k) :
    charAt (buf.take k) i = charAt buf i := by
  simp [charAt, List.getD_eq_getElem?_getD, List.getElem?_take_of_lt h]

theorem charAt_drop (buf : Str) (k i : Nat) :
    charAt (buf.drop k) i = charAt buf (k + i) := by
  simp [charAt, List.getD_eq_getElem?_getD, List.getElem?_drop]

theorem charAt_set_ne (buf : Str) (i j : Nat) (c : Char) (h : i ≠ j) :
    charAt (buf.set i c) j = charAt buf j := by
  simp [charAt, List.getD_eq_getElem?_getD, List.getElem?_set_ne h]

theorem charAt_set_self (buf : Str) (i : Nat) (c : Char) (h : i < buf.length) :
    charAt (buf.set i c) i = c := by
  simp [charAt, List.getD_eq_getElem?_getD, List.getElem?_set_self h]

theorem take_set_of_le (buf : Str) (i k : Nat) (c : Char) (h : k ≤ i) :
    (buf.set i c).take k = buf.take k := by
  apply List.ext_getElem?
  intro j
  rw [List.getElem?_take, List.getElem?_take]
  split
  · rw [List.getElem?_set_ne (by omega)]
  · rfl

theorem drop_set_of_lt (buf : Str) (i k : Nat) (c : Char) (h : i < k) :
    (buf.set i c).drop k = buf.drop k :=
  List.drop_set_of_lt c buf h

theorem take_succ_set (buf : Str) (i : Nat) (c : Char) (h : i < buf.length) :
    (buf.set i c).take (i + 1) = buf.take i ++ [c] := by
  rw [List.take_succ, take_set_of_le buf i i c (Nat.le_refl _), List.getElem?_set_self h]
  rfl

theorem drop_eq_charAt_cons (buf : Str) (i : Nat) (h : i < buf.length) :
    buf.drop i = charAt buf i :: buf.drop (i + 1) := by
  rw [charAt_of_lt buf i h]
  exact List.drop_eq_getElem_cons h

theorem take_succ_charAt (buf : Str) (i : Nat) (h : i < buf.length) :
    buf.take (i + 1) = buf.take i ++ [charAt buf i] := by
  rw [List.take_succ, charAt_of_lt buf i h, List.getElem?_eq_getElem h]
  rfl

/-! ### `strncmp` and `last_sep_before` -/

theorem strncmp_eq_four (buf : Str) (off : Nat) (a b c d : Char) :
    strncmp_eq buf off [a, b, c, d] = true ↔
      charAt buf off = a ∧ charAt buf (off + 1) = b ∧ charAt buf (off + 2) = c
        ∧ charAt buf (off + 3) = d := by
  simp [strncmp_eq, and_assoc]

theorem strncmp_eq_three (buf : Str) (off : Nat) (a b c : Char) :
    strncmp_eq buf off [a, b, c] = true ↔
      charAt buf off = a ∧ charAt buf (off + 1) = b ∧ charAt buf (off + 2) = c := by
  simp [strncmp_eq, and_assoc]

theorem last_sep_scan_le (buf : Str) (start k : Nat) :
    last_sep_scan buf start k ≤ start + k := by
  induction k with
  | zero => simp [last_sep_scan]
  | succ k ih =>
    simp only [last_sep_scan]
    split
    · omega
    · omega

theorem last_sep_scan_ge (buf : Str) (start k : Nat) :
    start ≤ last_sep_scan buf start k := by
  induction k with
  | zero => simp [last_sep_scan]
  | succ k ih =>
    simp only [last_sep_scan]
    split
    · exact ih
    · omega

theorem last_sep_scan_sep (buf : Str) (start k : Nat) :
    last_sep_scan buf start k = start ∨ charAt buf (last_sep_scan buf start k) = '/' := by
  induction k with
  | zero => simp [last_sep_scan]
  | succ k ih =>
    simp only [last_sep_scan]
    split
    · exact ih
    · rename_i h
      right
      simpa [dirsep] using h

theorem last_sep_scan_above (buf : Str) (start k j : Nat)
    (h1 : last_sep_scan buf start k < j) (h2 : j ≤ start + k) : charAt buf j ≠ '/' := by
  induction k with
  | zero =>
    simp only [last_sep_scan] at h1
    omega
  | succ k ih =>
    simp only [last_sep_scan] at h1
    split at h1
    · rename_i h
      by_cases hj : j = start + (k + 1)
      · rw [hj]
        simpa [dirsep] using h
      · exact ih h1 (by omega)
    · omega

/-- The value of `last_sep_scan` is the only offset with its three properties. -/
theorem last_sep_scan_unique (buf : Str) (start k r : Nat)
    (h0 : start ≤ r) (h1 : r ≤ start + k) (h2 : r = start ∨ charAt buf r = '/')
    (h3 : ∀ j, r < j → j ≤ start + k → charAt buf j ≠ '/') :
    last_sep_scan buf start k = r := by
  have a1 := last_sep_scan_le buf start k
  have a0 := last_sep_scan_ge buf start k
  have a2 := last_sep_scan_sep buf start k
  have a3 := last_sep_scan_above buf start k
  by_contra hne
  rcases Nat.lt_or_gt_of_ne hne with hlt | hgt
  · rcases h2 with h2 | h2
    · omega
    · exact a3 r hlt h1 h2
  · rcases a2 with a2 | a2
    · omega
    · exact h3 _ hgt a1 a2

theorem last_sep_before_small (buf : Str) (cw : Nat) (h : cw ≤ 2) :
    last_sep_before buf 0 ((cw : Int) - 1) = 0 := by
  unfold last_sep_before
  simp only
  split
  · rfl
  · rename_i hl
    have : ((cw : Int) - 1 - 1).toNat - 0 = 0 := by omega
    rw [this]
    rfl

theorem last_sep_before_eq (buf : Str) (cw : Nat) (h : 2 ≤ cw) :
    last_sep_before buf 0 ((cw : Int) - 1) = last_sep_scan buf 0 (cw - 2) := by
  unfold last_sep_before
  simp only
  have hl : ¬ ((cw : Int) - 1 - 1 < ((0 : Nat) : Int)) := by omega
  rw [if_neg hl]
  have : ((cw : Int) - 1 - 1).toNat - 0 = cw - 2 := by omega
  rw [this]

theorem last_sep_before_le (buf : Str) (cw : Nat) :
    last_sep_before buf 0 ((cw : Int) - 1) ≤ cw - 2 := by
  by_cases h : 2 ≤ cw
  · rw [last_sep_before_eq buf cw h]
    have := last_sep_scan_le buf 0 (cw - 2)
    omega
  · rw [last_sep_before_small buf cw (by omega)]
    omega

/-! ### The copy loop -/

theorem component_at_length_le (buf : Str) (cr : Nat) :
    cr + (component_at buf cr).length ≤ max cr buf.length := by
  unfold component_at
  have h := (List.takeWhile_sublist (l := buf.drop cr) (fun c => !(c == '/'))).length_le
  rw [List.length_drop] at h
  omega

theorem component_at_no_slash (buf : Str) (cr : Nat) : '/' ∉ component_at buf cr := by
  unfold component_at
  intro h
  have := List.mem_takeWhile_imp h
  simp at this

theorem component_at_set (buf : Str) (cr i : Nat) (c : Char) (h : i < cr) :
    component_at (buf.set i c) cr = component_at buf cr := by
  unfold component_at
  rw [drop_set_of_lt buf i cr c h]

theorem component_at_end (buf : Str) (cr : Nat) (h : buf.length ≤ cr) :
    component_at buf cr = [] := by
  unfold component_at
  rw [List.drop_eq_nil_of_le h]
  rfl

theorem component_at_slash (buf : Str) (cr : Nat) (h : charAt buf cr = '/') :
    component_at buf cr = [] := by
  have hlt := lt_of_charAt_slash buf cr h
  unfold component_at
  rw [drop_eq_charAt_cons buf cr hlt, h]
  rfl

theorem component_at_cons (buf : Str) (cr : Nat) (hlt : cr < buf.length)
    (h : charAt buf cr ≠ '/') :
    component_at buf cr = charAt buf cr :: component_at buf (cr + 1) := by
  unfold component_at
  rw [drop_eq_charAt_cons buf cr hlt]
  rw [List.takeWhile_cons_of_pos]
  simpa using h

/-- The copy loop moves the component at `cr` to `cw` and leaves the rest of
the buffer as it is. -/
theorem copy_component_spec (n : Nat) :
    ∀ (buf : Str) (cr cw : Nat), cw ≤ cr → cr + n = buf.length →
      copy_component n buf cr cw =
        (buf.take cw ++ (component_at buf cr ++ buf.drop (cw + (component_at buf cr).length)),
          cr + (component_at buf cr).length, cw + (component_at buf cr).length) := by
  induction n with
  | zero =>
    intro buf cr cw _ hlen
    rw [component_at_end buf cr (by omega)]
    simp [copy_component]
  | succ n ih =>
    intro buf cr cw hle hlen
    have hlt : cr < buf.length := by omega
    simp only [copy_component]
    by_cases hc : charAt buf cr = '/'
    · have hd : ¬ charAt buf cr ≠ dirsep := by simpa [dirsep] using hc
      rw [if_neg hd, component_at_slash buf cr hc]
      simp
    · have hd : charAt buf cr ≠ dirsep := by simpa [dirsep] using hc
      rw [if_pos hd]
      rw [ih (buf.set cw (charAt buf cr)) (cr + 1) (cw + 1) (by omega) (by simp; omega)]
      rw [component_at_set buf (cr + 1) cw _ (by omega), component_at_cons buf cr hlt hc]
      rw [take_succ_set buf cw _ (by omega), drop_set_of_lt buf cw _ _ (by omega)]
      simp only [List.length_cons, List.append_assoc, List.singleton_append, List.cons_append,
        Prod.mk.injEq]
      refine ⟨?_, by omega, by omega⟩
      have : cw + 1 + (component_at buf (cr + 1)).length
          = cw + ((component_at buf (cr + 1)).length + 1) := by omega
      rw [this]
      simp

end Mkdeps

namespace Mkdeps

theorem component_at_stop (buf : Str) (cr : Nat)
    (h : cr + (component_at buf cr).length < buf.length) :
    charAt buf (cr + (component_at buf cr).length) = '/' := by
  have hsplit := List.takeWhile_append_dropWhile (fun c => !(c == '/')) (buf.drop cr)
  have hlen : (component_at buf cr).length + ((buf.drop cr).dropWhile (fun c => !(c == '/'))).length
      = buf.length - cr := by
    have := congrArg List.length hsplit
    rw [List.length_append, List.length_drop] at this
    exact this
  rw [← charAt_drop, ← hsplit]
  have h2 : (component_at buf cr).length
      = ((buf.drop cr).takeWhile (fun c => !(c == '/'))).length := rfl
  rw [h2, charAt_append_right _ _ _ (Nat.le_refl _), Nat.sub_self]
  cases hd : (buf.drop cr).dropWhile (fun c => !(c == '/')) with
  | nil =>
    rw [hd] at hlen
    simp at hlen
    omega
  | cons x xs =>
    have := List.head_dropWhile_not (fun c => !(c == '/')) (buf.drop cr) (by rw [hd]; simp)
    simp only [hd, List.head_cons] at this
    rw [charAt_cons_zero]
    simpa using this

/-- The buffer after the copy loop. -/
theorem copied_facts (buf : Str) (cr cw : Nat) (h1 : cw ≤ cr) (h2 : cr ≤ buf.length) :
    (copied buf cr cw).length = buf.length
    ∧ (copied buf cr cw).take (cw + (component_at buf cr).length)
        = buf.take cw ++ component_at buf cr
    ∧ (copied buf cr cw).drop (cw + (component_at buf cr).length)
        = buf.drop (cw + (component_at buf cr).length) := by
  have hk := component_at_length_le buf cr
  have hk2 : cr + (component_at buf cr).length ≤ buf.length := by
    rw [Nat.max_eq_right h2] at hk
    exact hk
  have hl : (buf.take cw ++ component_at buf cr).length = cw + (component_at buf cr).length := by
    rw [List.length_append, List.length_take]
    omega
  unfold copied
  refine ⟨?_, ?_, ?_⟩
  · simp only [List.length_append, List.length_take, List.length_drop]
    omega
  · rw [← List.append_assoc, ← hl, List.take_left]
  · rw [← List.append_assoc, ← hl, List.drop_left]

theorem copied_drop (buf : Str) (cr cw k : Nat) (h1 : cw ≤ cr) (h2 : cr ≤ buf.length)
    (hk : cw + (component_at buf cr).length ≤ k) :
    (copied buf cr cw).drop k = buf.drop k := by
  obtain ⟨_, _, h⟩ := copied_facts buf cr cw h1 h2
  have e : (cw + (component_at buf cr).length) + (k - (cw + (component_at buf cr).length)) = k := by
    omega
  calc (copied buf cr cw).drop k
      = ((copied buf cr cw).drop (cw + (component_at buf cr).length)).drop
          (k - (cw + (component_at buf cr).length)) := by rw [List.drop_drop, e]
    _ = (buf.drop (cw + (component_at buf cr).length)).drop
          (k - (cw + (component_at buf cr).length)) := by rw [h]
    _ = buf.drop k := by rw [List.drop_drop, e]

theorem copied_charAt (buf : Str) (cr cw j : Nat) (h1 : cw ≤ cr) (h2 : cr ≤ buf.length)
    (hk : cw + (component_at buf cr).length ≤ j) :
    charAt (copied buf cr cw) j = charAt buf j := by
  have := copied_drop buf cr cw j h1 h2 hk
  have h0 := charAt_drop (copied buf cr cw) j 0
  rw [this, charAt_drop] at h0
  simpa using h0.symm

theorem copied_take (buf : Str) (cr cw k : Nat) (h1 : cw ≤ cr) (h2 : cr ≤ buf.length)
    (hk : k ≤ cw) : (copied buf cr cw).take k = buf.take k := by
  unfold copied
  have hl : k ≤ (buf.take cw).length := by
    rw [List.length_take]
    omega
  rw [List.take_append_of_le_length hl, List.take_take, Nat.min_eq_left hk]

/-- The three outcomes of `copy_step`, in terms of the component at `cr`. -/
theorem copy_step_eq (buf : Str) (cr cw : Nat) (h1 : cw ≤ cr) (h2 : cr ≤ buf.length) :
    copy_step buf cr cw =
      if cr + (component_at buf cr).length ≠ buf.length then
        if charAt buf (cr + (component_at buf cr).length + 1) = '/' then
          ((copied buf cr cw).set (cw + (component_at buf cr).length) '/',
            cr + (component_at buf cr).length + 2, cw + (component_at buf cr).length + 1)
        else
          ((copied buf cr cw).set (cw + (component_at buf cr).length) '/',
            cr + (component_at buf cr).length + 1, cw + (component_at buf cr).length + 1)
      else (copied buf cr cw, cr + (component_at buf cr).length,
        cw + (component_at buf cr).length) := by
  have hk := component_at_length_le buf cr
  rw [Nat.max_eq_right h2] at hk
  obtain ⟨hlen, _, _⟩ := copied_facts buf cr cw h1 h2
  have hfold : buf.take cw ++ (component_at buf cr
      ++ buf.drop (cw + (component_at buf cr).length)) = copied buf cr cw := rfl
  unfold copy_step
  rw [copy_component_spec (buf.length - cr) buf cr cw h1 (by omega)]
  simp only [hfold, hlen, dirsep]
  by_cases hend : cr + (component_at buf cr).length = buf.length
  · simp only [hend, ne_eq, not_true_eq_false, if_false]
  · have hstop := component_at_stop buf cr (by omega)
    have hc : charAt (copied buf cr cw) (cr + (component_at buf cr).length) = '/' := by
      rw [copied_charAt buf cr cw _ h1 h2 (by omega), hstop]
    simp only [ne_eq, hend, not_false_eq_true, if_true]
    rw [hc, charAt_set_ne _ _ _ _ (by omega), copied_charAt buf cr cw _ h1 h2 (by omega)]

end Mkdeps

namespace Mkdeps

/-! ### One iteration, and the loop -/

theorem dotdot_step_fst (buf : Str) (cr cw : Nat) :
    (dotdot_step buf cr cw).2.1 = cr + 3 := by
  unfold dotdot_step
  simp only
  split
  · rfl
  · split <;> rfl

/-- Every iteration keeps the length of the buffer, advances `cr` inside the
buffer, keeps `cw` at or below `cr`, and leaves the unread part as it is. -/
theorem normalize_step_bounds (buf : Str) (cr cw : Nat) (h1 : cw ≤ cr) (h2 : cr < buf.length) :
    (normalize_step buf cr cw).1.length = buf.length
    ∧ cr < (normalize_step buf cr cw).2.1
    ∧ (normalize_step buf cr cw).2.1 ≤ buf.length
    ∧ (normalize_step buf cr cw).2.2 ≤ (normalize_step buf cr cw).2.1
    ∧ (normalize_step buf cr cw).1.drop (normalize_step buf cr cw).2.1
        = buf.drop (normalize_step buf cr cw).2.1 := by
  unfold normalize_step
  split
  · rename_i h
    simp only
    refine ⟨(by first | rfl | trivial), by omega, by omega, by omega, (by first | rfl | trivial)⟩
  · split
    · rename_i h
      have h3 : cr + 3 ≤ buf.length := by omega
      unfold dotdot_step
      simp only
      have hsep := last_sep_before_le buf cw
      split
      · simp only
        refine ⟨(by first | rfl | trivial), by omega, h3, by omega, (by first | rfl | trivial)⟩
      · split
        · simp only
          refine ⟨(by first | rfl | trivial), by omega, h3, by omega, (by first | rfl | trivial)⟩
        · simp only [List.length_set]
          refine ⟨(by first | rfl | trivial), by omega, h3, by omega, ?_⟩
          rw [drop_set_of_lt _ _ _ _ (by omega), drop_set_of_lt _ _ _ _ (by omega),
            drop_set_of_lt _ _ _ _ (by omega)]
    · have hcr : cr ≤ buf.length := Nat.le_of_lt h2
      have hk := component_at_length_le buf cr
      rw [Nat.max_eq_right hcr] at hk
      obtain ⟨hlen, _, _⟩ := copied_facts buf cr cw h1 hcr
      rw [copy_step_eq buf cr cw h1 hcr]
      split
      · rename_i hne
        split
        · rename_i hs
          have := lt_of_charAt_slash _ _ hs
          simp only [List.length_set]
          refine ⟨hlen, by omega, by omega, by omega, ?_⟩
          rw [drop_set_of_lt _ _ _ _ (by omega), copied_drop buf cr cw _ h1 hcr (by omega)]
        · simp only [List.length_set]
          refine ⟨hlen, by omega, by omega, by omega, ?_⟩
          rw [drop_set_of_lt _ _ _ _ (by omega), copied_drop buf cr cw _ h1 hcr (by omega)]
      · rename_i he
        simp only
        refine ⟨hlen, by omega, by omega, by omega, ?_⟩
        rw [copied_drop buf cr cw _ h1 hcr (by omega)]

theorem normalize_loop_end (fuel : Nat) (buf : Str) (cr cw : Nat) (h : cr = buf.length) :
    normalize_loop fuel buf cr cw = (buf, cw) := by
  cases fuel with
  | zero => rfl
  | succ n => simp [normalize_loop, h]

theorem normalize_loop_succ (fuel : Nat) (buf : Str) (cr cw : Nat) (h : cr ≠ buf.length) :
    normalize_loop (fuel + 1) buf cr cw =
      normalize_loop fuel (normalize_step buf cr cw).1 (normalize_step buf cr cw).2.1
        (normalize_step buf cr cw).2.2 := by
  simp [normalize_loop, h]

/-- A property that an iteration keeps holds when the loop is left. -/
theorem normalize_loop_invariant (P : Str → Nat → Nat → Prop)
    (hstep : ∀ buf cr cw, cw ≤ cr → cr < buf.length → P buf cr cw →
      P (normalize_step buf cr cw).1 (normalize_step buf cr cw).2.1
        (normalize_step buf cr cw).2.2) :
    ∀ (fuel : Nat) (buf : Str) (cr cw : Nat), cw ≤ cr → cr ≤ buf.length →
      buf.length - cr ≤ fuel → P buf cr cw →
      P (normalize_loop fuel buf cr cw).1 (normalize_loop fuel buf cr cw).1.length
          (normalize_loop fuel buf cr cw).2
        ∧ (normalize_loop fuel buf cr cw).2 ≤ (normalize_loop fuel buf cr cw).1.length
        ∧ (normalize_loop fuel buf cr cw).1.length = buf.length := by
  intro fuel
  induction fuel with
  | zero =>
    intro buf cr cw h1 h2 h3 hP
    have hcr : cr = buf.length := by omega
    rw [normalize_loop_end 0 buf cr cw hcr]
    simp only
    rw [← hcr]
    exact ⟨hP, h1, (by first | rfl | trivial)⟩
  | succ fuel ih =>
    intro buf cr cw h1 h2 h3 hP
    by_cases hcr : cr = buf.length
    · rw [normalize_loop_end _ buf cr cw hcr]
      simp only
      rw [← hcr]
      exact ⟨hP, h1, (by first | rfl | trivial)⟩
    · have hlt : cr < buf.length := by omega
      obtain ⟨b1, b2, b3, b4, _⟩ := normalize_step_bounds buf cr cw h1 hlt
      rw [normalize_loop_succ fuel buf cr cw hcr]
      have := ih _ _ _ b4 (by omega) (by omega) (hstep buf cr cw h1 hlt hP)
      rw [b1] at this
      exact this

/-- The result of the loop does not depend on the bound once it is at least
the number of characters left to read. -/
theorem normalize_loop_fuel (f1 : Nat) :
    ∀ (f2 : Nat) (buf : Str) (cr cw : Nat), cw ≤ cr → cr ≤ buf.length →
      buf.length - cr ≤ f1 → buf.length - cr ≤ f2 →
      normalize_loop f1 buf cr cw = normalize_loop f2 buf cr cw := by
  induction f1 with
  | zero =>
    intro f2 buf cr cw _ _ h3 _
    have hcr : cr = buf.length := by omega
    rw [normalize_loop_end _ buf cr cw hcr, normalize_loop_end _ buf cr cw hcr]
  | succ f1 ih =>
    intro f2 buf cr cw h1 h2 h3 h4
    by_cases hcr : cr = buf.length
    · rw [normalize_loop_end _ buf cr cw hcr, normalize_loop_end _ buf cr cw hcr]
    · have hlt : cr < buf.length := by omega
      obtain ⟨b1, b2, b3, b4, _⟩ := normalize_step_bounds buf cr cw h1 hlt
      obtain ⟨m, hm⟩ : ∃ m, f2 = m + 1 := ⟨f2 - 1, by omega⟩
      rw [hm, normalize_loop_succ f1 buf cr cw hcr, normalize_loop_succ m buf cr cw hcr]
      exact ih m _ _ _ b4 (by omega) (by omega) (by omega)

end Mkdeps

namespace Mkdeps

/-! ### A leading `"../"` is kept -/

theorem take_three_chars (buf : Str) (a b c : Char) (h : buf.take 3 = [a, b, c]) :
    charAt buf 0 = a ∧ charAt buf 1 = b ∧ charAt buf 2 = c := by
  refine ⟨?_, ?_, ?_⟩
  · rw [← charAt_take buf 3 0 (by omega), h]
    rfl
  · rw [← charAt_take buf 3 1 (by omega), h]
    rfl
  · rw [← charAt_take buf 3 2 (by omega), h]
    rfl

theorem normalize_step_keeps_parent (buf : Str) (cr cw : Nat) (h1 : cw ≤ cr)
    (h2 : cr < buf.length) (hP : 3 ≤ cw ∧ buf.take 3 = ['.', '.', '/']) :
    3 ≤ (normalize_step buf cr cw).2.2
      ∧ (normalize_step buf cr cw).1.take 3 = ['.', '.', '/'] := by
  obtain ⟨hcw, htake⟩ := hP
  obtain ⟨c0, c1, c2⟩ := take_three_chars buf _ _ _ htake
  unfold normalize_step
  split
  · exact ⟨hcw, htake⟩
  · split
    · unfold dotdot_step
      simp only
      split
      · rename_i hsep
        simp only
        refine ⟨?_, htake⟩
        have hs := hsep.1
        simp only [dirsep] at hs
        by_contra hlt
        have : last_sep_before buf 0 ((cw : Int) - 1) = 0
            ∨ last_sep_before buf 0 ((cw : Int) - 1) = 1 := by omega
        rcases this with h | h
        · rw [h, c0] at hs
          exact absurd hs (by decide)
        · rw [h, c1] at hs
          exact absurd hs (by decide)
      · split
        · rename_i hreset
          have ht : strncmp_eq buf 0 ['.', '.', '/'] = true :=
            (strncmp_eq_three buf 0 _ _ _).2 ⟨c0, c1, c2⟩
          rw [ht] at hreset
          exact absurd hreset.2.2 (by decide)
        · simp only
          refine ⟨by omega, ?_⟩
          rw [take_set_of_le _ _ _ _ (by omega), take_set_of_le _ _ _ _ (by omega),
            take_set_of_le _ _ _ _ (by omega)]
          exact htake
    · have hcr : cr ≤ buf.length := Nat.le_of_lt h2
      rw [copy_step_eq buf cr cw h1 hcr]
      split
      · split
        · simp only
          refine ⟨by omega, ?_⟩
          rw [take_set_of_le _ _ _ _ (by omega), copied_take buf cr cw 3 h1 hcr hcw]
          exact htake
        · simp only
          refine ⟨by omega, ?_⟩
          rw [take_set_of_le _ _ _ _ (by omega), copied_take buf cr cw 3 h1 hcr hcw]
          exact htake
      · simp only
        refine ⟨by omega, ?_⟩
        rw [copied_take buf cr cw 3 h1 hcr hcw]
        exact htake

theorem normalize_step_parent_start (rest : Str) :
    (normalize_step ('.' :: '.' :: '/' :: rest) 0 0).2.1 = 3
      ∧ (normalize_step ('.' :: '.' :: '/' :: rest) 0 0).2.2 = 3
      ∧ (normalize_step ('.' :: '.' :: '/' :: rest) 0 0).1 = '.' :: '.' :: '/' :: rest := by
  have hsep : last_sep_before ('.' :: '.' :: '/' :: rest) 0 (-1) = 0 := by
    simpa using last_sep_before_small ('.' :: '.' :: '/' :: rest) 0 (by omega)
  simp [normalize_step, dotdot_step, hsep, charAt, dirsep]

/-- C2: a path that starts with `"../"` normalizes to `".."` or to a path
that starts with `"../"`; and `"../a/../b"` normalizes to `"../b"`. -/
theorem normalize_path_keeps_leading_parent (rest : Str) :
    (normalize_path ('.' :: '.' :: '/' :: rest) = ['.', '.']
      ∨ ∃ r, normalize_path ('.' :: '.' :: '/' :: rest) = '.' :: '.' :: '/' :: r)
    ∧ normalize_path "../a/../b".toList = "../b".toList := by
  refine ⟨?_, by decide⟩
  obtain ⟨s1, s2, s3⟩ := normalize_step_parent_start rest
  have hinv := normalize_loop_invariant (fun buf _ cw => 3 ≤ cw ∧ buf.take 3 = ['.', '.', '/'])
    (fun buf cr cw h1 h2 hP => normalize_step_keeps_parent buf cr cw h1 h2 hP)
    (rest.length + 2) ('.' :: '.' :: '/' :: rest) 3 3 (Nat.le_refl _)
    (by simp) (by simp) ⟨Nat.le_refl _, rfl⟩
  have hloop : normalize_loop ('.' :: '.' :: '/' :: rest).length ('.' :: '.' :: '/' :: rest) 0 0
      = normalize_loop (rest.length + 2) ('.' :: '.' :: '/' :: rest) 3 3 := by
    have : ('.' :: '.' :: '/' :: rest).length = (rest.length + 2) + 1 := by simp
    rw [this, normalize_loop_succ _ _ _ _ (by simp), s1, s2, s3]
  unfold normalize_path
  simp only
  rw [hloop]
  generalize normalize_loop (rest.length + 2) ('.' :: '.' :: '/' :: rest) 3 3 = r at hinv
  obtain ⟨⟨h3, htake⟩, hle, _⟩ := hinv
  have hs : r.1.take r.2 = '.' :: '.' :: '/' :: (r.1.take r.2).drop 3 := by
    have h := (List.take_append_drop 3 (r.1.take r.2)).symm
    rw [List.take_take, Nat.min_eq_left h3, htake] at h
    exact h
  rw [hs]
  cases hd : (r.1.take r.2).drop 3 with
  | nil =>
    left
    simp
  | cons x xs =>
    right
    split
    · exact ⟨(x :: xs).dropLast, by simp [List.dropLast]⟩
    · exact ⟨x :: xs, rfl⟩

end Mkdeps

namespace Mkdeps

/-! ### Paths without a double separator -/

theorem has_double_slash_append (a b : Str) :
    has_double_slash (a ++ b) =
      (has_double_slash a || has_double_slash b
        || (a.getLast? == some '/' && b.head? == some '/')) := by
  induction a with
  | nil => simp [has_double_slash]
  | cons x xs ih =>
    cases xs with
    | nil =>
      cases b with
      | nil => simp [has_double_slash]
      | cons y ys =>
        simp only [List.singleton_append, has_double_slash, List.head?_cons, List.head?_nil,
          List.getLast?_singleton]
        cases hx : (x == '/') <;> cases hy : (some y == some '/') <;>
          cases has_double_slash ys <;> simp_all
    | cons z zs =>
      simp only [List.cons_append] at ih ⊢
      rw [has_double_slash, ih]
      simp only [has_double_slash, List.head?_cons, List.getLast?_cons_cons]
      cases (x == '/' && some z == some '/') <;> simp [Bool.or_assoc]

theorem has_double_slash_of_no_slash (a : Str) (h : '/' ∉ a) : has_double_slash a = false := by
  induction a with
  | nil => rfl
  | cons x xs ih =>
    simp only [List.mem_cons, not_or] at h
    have hx : (x == '/') = false := by
      simp only [beq_eq_false_iff_ne, ne_eq]
      exact fun e => h.1 e.symm
    simp [has_double_slash, hx, ih h.2]

theorem has_double_slash_charAt (p : Str) (h : has_double_slash p = false) (i : Nat)
    (h1 : charAt p i = '/') : charAt p (i + 1) ≠ '/' := by
  induction p generalizing i with
  | nil =>
    rw [charAt_nil] at h1
    exact absurd h1 NUL_ne_slash
  | cons x xs ih =>
    simp only [has_double_slash, Bool.or_eq_false_iff, Bool.and_eq_false_iff] at h
    cases i with
    | zero =>
      rw [charAt_cons_zero] at h1
      rw [charAt_cons_succ]
      intro h2
      cases xs with
      | nil =>
        rw [charAt_nil] at h2
        exact NUL_ne_slash h2
      | cons y ys =>
        rw [charAt_cons_zero] at h2
        subst h1 h2
        simp at h
    | succ i =>
      rw [charAt_cons_succ] at h1 ⊢
      exact ih h.2 i h1

theorem has_double_slash_take (w : Str) (k : Nat) (h : has_double_slash w = false) :
    has_double_slash (w.take k) = false := by
  have := has_double_slash_append (w.take k) (w.drop k)
  rw [List.take_append_drop, h] at this
  simp only [Bool.false_eq, Bool.or_eq_false_iff] at this
  exact this.1.1

theorem has_double_slash_short (w : Str) (h : w.length ≤ 1) : has_double_slash w = false := by
  cases w with
  | nil => rfl
  | cons x xs =>
    cases xs with
    | nil => simp [has_double_slash]
    | cons y ys => simp at h

theorem getLast?_append_no_slash (w comp : Str) (h1 : comp ≠ []) (h2 : '/' ∉ comp) :
    ((w ++ comp).getLast? == some '/') = false := by
  rw [List.getLast?_append_of_ne_nil w h1]
  cases hl : comp.getLast? with
  | none => rfl
  | some c =>
    have hm : c ∈ comp := List.mem_of_getLast?_eq_some hl
    simp only [beq_eq_false_iff_ne, ne_eq, Option.some.injEq]
    intro e
    exact h2 (e ▸ hm)

theorem head?_no_slash (comp : Str) (h2 : '/' ∉ comp) : (comp.head? == some '/') = false := by
  cases comp with
  | nil => rfl
  | cons c cs =>
    simp only [List.mem_cons, not_or] at h2
    simp only [List.head?_cons, beq_eq_false_iff_ne, ne_eq, Option.some.injEq]
    exact fun e => h2.1 e.symm

/-- Appending a component with no separator keeps a path free of double
separators. -/
theorem has_double_slash_append_component (w comp : Str) (hw : has_double_slash w = false)
    (h2 : '/' ∉ comp) : has_double_slash (w ++ comp) = false := by
  rw [has_double_slash_append, hw, has_double_slash_of_no_slash comp h2, head?_no_slash comp h2]
  simp

theorem has_double_slash_append_slash (w comp : Str) (hw : has_double_slash w = false)
    (h2 : '/' ∉ comp) (h3 : comp ≠ [] ∨ w = []) :
    has_double_slash ((w ++ comp) ++ ['/']) = false := by
  rw [has_double_slash_append, has_double_slash_append_component w comp hw h2]
  rcases h3 with h3 | h3
  · rw [getLast?_append_no_slash w comp h3 h2]
    simp [has_double_slash]
  · subst h3
    cases comp with
    | nil => simp [has_double_slash]
    | cons c cs =>
      rw [getLast?_append_no_slash [] (c :: cs) (by simp) h2]
      simp [has_double_slash]

theorem has_double_slash_append_parent (w : Str) (hw : has_double_slash w = false) :
    has_double_slash (w ++ ['.', '.', '/']) = false := by
  rw [has_double_slash_append, hw]
  simp [has_double_slash]

end Mkdeps

namespace Mkdeps

theorem charAt_of_drop_eq (buf p : Str) (cr j : Nat) (h : buf.drop cr = p.drop cr)
    (hj : cr ≤ j) : charAt buf j = charAt p j := by
  have e : cr + (j - cr) = j := by omega
  rw [← e, ← charAt_drop, ← charAt_drop, h]

theorem drop_eq_of_drop_eq (buf p : Str) (cr k : Nat) (h : buf.drop cr = p.drop cr)
    (hk : cr ≤ k) : buf.drop k = p.drop k := by
  have e : cr + (k - cr) = k := by omega
  rw [← e, ← List.drop_drop, ← List.drop_drop, h]

theorem take_three_sets (buf : Str) (cw : Nat) (a b c : Char) (h : cw + 2 < buf.length) :
    (((buf.set cw a).set (cw + 1) b).set (cw + 2) c).take (cw + 3) = buf.take cw ++ [a, b, c] := by
  rw [show cw + 3 = (cw + 2) + 1 from rfl, take_succ_set _ _ _ (by simp; omega)]
  rw [show cw + 2 = (cw + 1) + 1 from rfl, take_succ_set _ _ _ (by simp; omega)]
  rw [take_succ_set _ _ _ (by omega)]
  simp

theorem take_copied_slash (buf : Str) (cr cw : Nat) (h1 : cw ≤ cr) (h2 : cr ≤ buf.length)
    (h3 : cr + (component_at buf cr).length < buf.length) :
    ((copied buf cr cw).set (cw + (component_at buf cr).length) '/').take
        (cw + (component_at buf cr).length + 1)
      = (buf.take cw ++ component_at buf cr) ++ ['/'] := by
  obtain ⟨hlen, htake, _⟩ := copied_facts buf cr cw h1 h2
  rw [take_succ_set _ _ _ (by omega), htake]

/-- The invariant of the loop on a path `p` without double separator: the
unread part of the buffer is that of `p`, the read cursor is at the start, at
the end or just after a separator, and the output has no double separator. -/
theorem normalize_step_no_double (p : Str) (hp : has_double_slash p = false)
    (buf : Str) (cr cw : Nat) (h1 : cw ≤ cr) (h2 : cr < buf.length)
    (hP : buf.length = p.length ∧ buf.drop cr = p.drop cr
      ∧ (cr = 0 ∨ cr = p.length ∨ charAt p (cr - 1) = '/')
      ∧ has_double_slash (buf.take cw) = false) :
    (normalize_step buf cr cw).1.length = p.length
    ∧ (normalize_step buf cr cw).1.drop (normalize_step buf cr cw).2.1
        = p.drop (normalize_step buf cr cw).2.1
    ∧ ((normalize_step buf cr cw).2.1 = 0 ∨ (normalize_step buf cr cw).2.1 = p.length
        ∨ charAt p ((normalize_step buf cr cw).2.1 - 1) = '/')
    ∧ has_double_slash ((normalize_step buf cr cw).1.take (normalize_step buf cr cw).2.2)
        = false := by
  obtain ⟨hlen, hdrop, hpos, hw⟩ := hP
  obtain ⟨b1, b2, b3, b4, b5⟩ := normalize_step_bounds buf cr cw h1 h2
  refine ⟨b1.trans hlen, b5.trans (drop_eq_of_drop_eq buf p cr _ hdrop (Nat.le_of_lt b2)), ?_⟩
  have hch : ∀ j, cr ≤ j → charAt buf j = charAt p j :=
    fun j hj => charAt_of_drop_eq buf p cr j hdrop hj
  clear b1 b2 b3 b4 b5
  unfold normalize_step
  split
  · rename_i h
    simp only
    refine ⟨Or.inr (Or.inr ?_), hw⟩
    rw [show cr + 2 - 1 = cr + 1 from rfl, ← hch _ (by omega)]
    simpa [dirsep] using h.2.2
  · split
    · rename_i h
      have hpos2 : charAt p (cr + 3 - 1) = '/' := by
        rw [show cr + 3 - 1 = cr + 2 from rfl, ← hch _ (by omega)]
        simpa [dirsep] using h.2.2.2.2
      unfold dotdot_step
      simp only
      split
      · simp only
        refine ⟨Or.inr (Or.inr hpos2), ?_⟩
        have hsep := last_sep_before_le buf cw
        by_cases hc : 2 ≤ cw
        · have : buf.take (last_sep_before buf 0 ((cw : Int) - 1) + 1)
              = (buf.take cw).take (last_sep_before buf 0 ((cw : Int) - 1) + 1) := by
            rw [List.take_take, Nat.min_eq_left (by omega)]
          rw [this]
          exact has_double_slash_take _ _ hw
        · apply has_double_slash_short
          rw [List.length_take]
          omega
      · split
        · simp only
          exact ⟨Or.inr (Or.inr hpos2), rfl⟩
        · simp only
          refine ⟨Or.inr (Or.inr hpos2), ?_⟩
          rw [take_three_sets buf cw _ _ _ (by omega)]
          exact has_double_slash_append_parent _ hw
    · rename_i hn1 hn2
      have hcr : cr ≤ buf.length := Nat.le_of_lt h2
      have hk := component_at_length_le buf cr
      rw [Nat.max_eq_right hcr] at hk
      have hns := component_at_no_slash buf cr
      obtain ⟨_, htake, _⟩ := copied_facts buf cr cw h1 hcr
      rw [copy_step_eq buf cr cw h1 hcr]
      have hcomp : component_at buf cr ≠ [] ∨ buf.take cw = [] := by
        by_cases hs : charAt buf cr = '/'
        · right
          have hps : charAt p cr = '/' := by rw [← hch cr (Nat.le_refl _)]; exact hs
          by_cases hcr0 : cr = 0
          · have : cw = 0 := by omega
            rw [this]
            rfl
          · rcases hpos with h0 | h0 | h0
            · exact absurd h0 hcr0
            · omega
            · have := has_double_slash_charAt p hp (cr - 1) h0
              rw [show cr - 1 + 1 = cr by omega] at this
              exact absurd hps this
        · left
          rw [component_at_cons buf cr h2 hs]
          simp
      split
      · rename_i hne
        have hlt : cr + (component_at buf cr).length < buf.length := by omega
        have hstop := component_at_stop buf cr hlt
        have hpstop : charAt p (cr + (component_at buf cr).length) = '/' := by
          rw [← hch _ (by omega)]
          exact hstop
        split
        · rename_i hs
          rw [hch _ (by omega)] at hs
          exact absurd hs (has_double_slash_charAt p hp _ hpstop)
        · simp only
          refine ⟨Or.inr (Or.inr ?_), ?_⟩
          · rw [show cr + (component_at buf cr).length + 1 - 1
              = cr + (component_at buf cr).length from rfl]
            exact hpstop
          · rw [take_copied_slash buf cr cw h1 hcr hlt]
            exact has_double_slash_append_slash _ _ hw hns hcomp
      · rename_i he
        simp only
        refine ⟨Or.inr (Or.inl (by omega)), ?_⟩
        rw [htake]
        exact has_double_slash_append_component _ _ hw hns

end Mkdeps

namespace Mkdeps

/-- C4, as amended: when the path has no two consecutive separators, the
result of `normalize_path` does not end with `'/'`. -/
theorem normalize_path_no_trailing_slash (p : Str) (hp : has_double_slash p = false) :
    (normalize_path p).getLast? ≠ some '/' := by
  have hinv := normalize_loop_invariant
    (fun buf cr cw => buf.length = p.length ∧ buf.drop cr = p.drop cr
      ∧ (cr = 0 ∨ cr = p.length ∨ charAt p (cr - 1) = '/')
      ∧ has_double_slash (buf.take cw) = false)
    (fun buf cr cw h1 h2 hP => normalize_step_no_double p hp buf cr cw h1 h2 hP)
    p.length p 0 0 (Nat.le_refl _) (Nat.zero_le _) (by omega)
    ⟨rfl, rfl, Or.inl rfl, rfl⟩
  obtain ⟨⟨_, _, _, hw⟩, _, _⟩ := hinv
  unfold normalize_path
  simp only
  generalize (normalize_loop p.length p 0 0).1.take (normalize_loop p.length p 0 0).2 = s at hw
  split
  · rename_i hlast
    have hs : s.dropLast ++ ['/'] = s := List.dropLast_append_getLast? '/' hlast
    rw [← hs, has_double_slash_append] at hw
    simp only [Bool.or_eq_false_iff, Bool.and_eq_false_iff] at hw
    rcases hw.2 with h | h
    · intro e
      rw [e] at h
      simp at h
    · simp at h
  · rename_i hlast
    exact hlast

/-- Witness of C4: `"a/b/"`, which has no double separator. -/
theorem normalize_path_no_trailing_slash_witness :
    (normalize_path "a/b/".toList).getLast? ≠ some '/' :=
  normalize_path_no_trailing_slash "a/b/".toList (by decide)

/-- C4, as stated, fails: of the three separators that end `"a///"` one is
skipped and one is stripped, and the result `"a/"` ends with `'/'`. -/
theorem normalize_path_trailing_slash_left :
    normalize_path "a///".toList = "a/".toList
      ∧ (normalize_path "a///".toList).getLast? = some '/' := by
  decide

end Mkdeps

namespace Mkdeps

/-! ### Components and the stack reduction -/

theorem is_plain_iff (c : Str) :
    is_plain c = true ↔ c ≠ [] ∧ '/' ∉ c ∧ c ≠ ['.'] ∧ c ≠ ['.', '.'] := by
  simp [is_plain, and_assoc]

theorem is_component_cases (c : Str) (h : is_component c = true) :
    is_plain c = true ∨ c = ['.'] ∨ c = ['.', '.'] := by
  simpa [is_component, or_assoc] using h

theorem is_component_ne_nil (c : Str) (h : is_component c = true) : c ≠ [] := by
  rcases is_component_cases c h with h | h | h
  · exact ((is_plain_iff c).1 h).1
  · rw [h]; simp
  · rw [h]; simp

theorem is_component_no_slash (c : Str) (h : is_component c = true) : '/' ∉ c := by
  rcases is_component_cases c h with h | h | h
  · exact ((is_plain_iff c).1 h).2.1
  · rw [h]; decide
  · rw [h]; decide

theorem slashed_append (a b : List Str) : slashed (a ++ b) = slashed a ++ slashed b := by
  induction a with
  | nil => rfl
  | cons c cs ih => simp [slashed, ih]

theorem written_nil : written [] = [] := rfl

theorem written_cons (t : Str) (rest : List Str) :
    written (t :: rest) = written rest ++ (t ++ ['/']) := by
  simp [written, slashed_append, slashed]

theorem join_path_snoc (init : List Str) (last : Str) :
    join_path (init ++ [last]) = slashed init ++ last := by
  induction init with
  | nil => rfl
  | cons c cs ih =>
    cases cs with
    | nil => simp [join_path, slashed]
    | cons d ds =>
      simp only [List.cons_append] at ih ⊢
      simp only [join_path, slashed, ih]
      simp

theorem written_ne_nil (t : Str) (rest : List Str) : written (t :: rest) ≠ [] := by
  rw [written_cons]
  simp

theorem written_getLast (t : Str) (rest : List Str) :
    (written (t :: rest)).getLast? = some '/' := by
  rw [written_cons, ← List.append_assoc]
  simp

theorem written_dropLast (t : Str) (rest : List Str) :
    (written (t :: rest)).dropLast = join_path (t :: rest).reverse := by
  rw [written_cons, ← List.append_assoc, List.dropLast_concat, List.reverse_cons,
    join_path_snoc]
  rfl

theorem stack_ok_push (st : List Str) (c : Str) (hs : stack_ok st = true)
    (hc : is_component c = true) : stack_ok (push_component st c) = true := by
  unfold push_component
  rcases is_component_cases c hc with h | h | h
  · have hp := (is_plain_iff c).1 h
    rw [if_neg hp.2.2.1, if_neg hp.2.2.2]
    simp [stack_ok, h, hs]
  · rw [if_pos h]
    exact hs
  · have h1 : ¬ c = ['.'] := by rw [h]; decide
    rw [if_neg h1, if_pos h]
    cases st with
    | nil =>
      subst h
      rfl
    | cons t rest =>
      simp only
      by_cases ht : t = ['.', '.']
      · rw [if_pos ht]
        subst h ht
        simp only [stack_ok, Bool.or_eq_true, Bool.and_eq_true, decide_eq_true_eq,
          List.all_eq_true] at hs ⊢
        left
        refine ⟨trivial, ?_⟩
        intro x hx
        rcases List.mem_cons.1 hx with e | e
        · exact e
        · rcases hs with hs | hs
          · exact hs.2 x e
          · exact absurd hs.1 (by decide)
      · rw [if_neg ht]
        simp only [stack_ok, Bool.or_eq_true, Bool.and_eq_true, decide_eq_true_eq] at hs
        rcases hs with hs | hs
        · exact absurd hs.1 ht
        · exact hs.2

end Mkdeps

namespace Mkdeps

/-! ### The output seen by the `".."` branch -/

theorem length_of_take_eq (buf w : Str) (cw : Nat) (h : buf.take cw = w)
    (hle : cw ≤ buf.length) : w.length = cw := by
  rw [← h, List.length_take]
  omega

theorem charAt_of_take_eq (buf w : Str) (cw i : Nat) (h : buf.take cw = w) (hi : i < cw) :
    charAt buf i = charAt w i := by
  rw [← h, charAt_take buf cw i hi]

theorem take_of_take_eq_append (buf a b : Str) (cw : Nat) (h : buf.take cw = a ++ b)
    (hle : cw ≤ buf.length) : buf.take a.length = a := by
  have hl := length_of_take_eq buf _ cw h hle
  rw [List.length_append] at hl
  have : buf.take a.length = (buf.take cw).take a.length := by
    rw [List.take_take, Nat.min_eq_left (by omega)]
  rw [this, h, List.take_left]

theorem charAt_last_of_getLast (a : Str) (h : a.getLast? = some '/') :
    1 ≤ a.length ∧ charAt a (a.length - 1) = '/' := by
  obtain ⟨b, rfl⟩ : ∃ b, a = b ++ ['/'] :=
    ⟨a.dropLast, (List.dropLast_append_getLast? '/' h).symm⟩
  refine ⟨by simp, ?_⟩
  have : (b ++ ['/']).length - 1 = b.length := by simp
  rw [this]
  exact charAt_append_length _ _ _

/-- Where `last_sep_before (beg, cw - 1)` points when the output ends with a
component `t` and its separator: at the separator before `t`, or at the
start of the buffer when `t` is the first component. -/
theorem last_sep_before_written (buf a t : Str) (cw : Nat)
    (hW : buf.take cw = a ++ (t ++ ['/'])) (hle : cw ≤ buf.length)
    (ht : t ≠ []) (hns : '/' ∉ t) (ha : a = [] ∨ a.getLast? = some '/') :
    last_sep_before buf 0 ((cw : Int) - 1) = a.length - 1 := by
  have hl := length_of_take_eq buf _ cw hW hle
  simp only [List.length_append, List.length_singleton] at hl
  have htl : 1 ≤ t.length := List.length_pos.2 ht
  rw [last_sep_before_eq buf cw (by omega)]
  apply last_sep_scan_unique
  · omega
  · omega
  · rcases ha with ha | ha
    · left
      rw [ha]
      rfl
    · right
      obtain ⟨h1, h2⟩ := charAt_last_of_getLast a ha
      rw [charAt_of_take_eq buf _ cw (a.length - 1) hW (by omega),
        charAt_append_left _ _ _ (by omega)]
      exact h2
  · intro j hj1 hj2
    have hja : a.length ≤ j := by omega
    rw [charAt_of_take_eq buf _ cw j hW (by omega), charAt_append_right _ _ _ hja,
      charAt_append_left _ _ _ (by omega), charAt_of_lt t _ (by omega)]
    intro e
    exact hns (e ▸ List.getElem_mem _)

/-- The character `i` places after the prefix `a` of the output. -/
theorem charAt_written_top (buf a t : Str) (cw i : Nat)
    (hW : buf.take cw = a ++ (t ++ ['/'])) (hle : cw ≤ buf.length) (hi : i ≤ t.length) :
    charAt buf (a.length + i) = charAt (t ++ ['/']) i := by
  have hl := length_of_take_eq buf _ cw hW hle
  simp only [List.length_append, List.length_singleton] at hl
  rw [charAt_of_take_eq buf _ cw _ hW (by omega), charAt_append_right _ _ _ (by omega)]
  congr 1
  omega

/-- The three characters after a separator spell `"../"` only when the
component there is `".."`. -/
theorem top_is_parent (buf a t : Str) (cw : Nat)
    (hW : buf.take cw = a ++ (t ++ ['/'])) (hle : cw ≤ buf.length)
    (ht : t ≠ []) (hns : '/' ∉ t)
    (h : charAt buf a.length = '.' ∧ charAt buf (a.length + 1) = '.'
      ∧ charAt buf (a.length + 2) = '/') : t = ['.', '.'] := by
  obtain ⟨h0, h1, h2⟩ := h
  cases t with
  | nil => exact absurd rfl ht
  | cons x t1 =>
    have e0 := charAt_written_top buf a (x :: t1) cw 0 hW hle (by simp)
    rw [Nat.add_zero, h0] at e0
    cases t1 with
    | nil =>
      have e1 := charAt_written_top buf a [x] cw 1 hW hle (by simp)
      rw [h1] at e1
      simp only [List.cons_append, List.nil_append, charAt_cons_zero, charAt_cons_succ] at e1
      exact absurd e1 (by decide)
    | cons y t2 =>
      have e1 := charAt_written_top buf a (x :: y :: t2) cw 1 hW hle (by simp)
      rw [h1] at e1
      cases t2 with
      | nil =>
        simp only [List.cons_append, charAt_cons_zero, charAt_cons_succ] at e0 e1
        rw [← e0, ← e1]
      | cons z t3 =>
        have e2 := charAt_written_top buf a (x :: y :: z :: t3) cw 2 hW hle (by simp)
        rw [h2] at e2
        simp only [List.cons_append, charAt_cons_zero, charAt_cons_succ] at e2
        simp only [List.mem_cons, not_or] at hns
        exact absurd e2 hns.2.2.1

theorem parent_is_top (buf a : Str) (cw : Nat)
    (hW : buf.take cw = a ++ (['.', '.'] ++ ['/'])) (hle : cw ≤ buf.length) :
    charAt buf a.length = '.' ∧ charAt buf (a.length + 1) = '.'
      ∧ charAt buf (a.length + 2) = '/' := by
  refine ⟨?_, ?_, ?_⟩
  · have := charAt_written_top buf a ['.', '.'] cw 0 hW hle (by simp)
    simpa using this
  · exact charAt_written_top buf a ['.', '.'] cw 1 hW hle (by simp)
  · exact charAt_written_top buf a ['.', '.'] cw 2 hW hle (by simp)

theorem written_all_parent (st : List Str) (hne : st ≠ [])
    (h : st.all (fun c => c = ['.', '.']) = true) :
    ∃ r, written st = ['.', '.', '/'] ++ r := by
  unfold written
  have h2 : ∀ c ∈ st.reverse, c = ['.', '.'] := by
    intro c hc
    have := List.all_eq_true.1 h c (List.mem_reverse.1 hc)
    simpa using this
  cases hr : st.reverse with
  | nil =>
    have := List.reverse_eq_nil_iff.1 hr
    exact absurd this hne
  | cons b bs =>
    rw [hr] at h2
    have hb := h2 b (List.mem_cons_self _ _)
    subst hb
    exact ⟨slashed bs, rfl⟩

theorem written_getLast_or (st : List Str) :
    written st = [] ∨ (written st).getLast? = some '/' := by
  cases st with
  | nil => exact Or.inl rfl
  | cons t rest => exact Or.inr (written_getLast t rest)

end Mkdeps

namespace Mkdeps

/-! ### The loop, one component at a time -/

theorem loop_from_end (buf : Str) (cr cw : Nat) (h : cr = buf.length) :
    loop_from buf cr cw = (buf, cw) :=
  normalize_loop_end _ buf cr cw h

theorem loop_from_step (buf : Str) (cr cw : Nat) (h1 : cw ≤ cr) (h2 : cr < buf.length) :
    loop_from buf cr cw =
      loop_from (normalize_step buf cr cw).1 (normalize_step buf cr cw).2.1
        (normalize_step buf cr cw).2.2 := by
  obtain ⟨b1, b2, b3, b4, _⟩ := normalize_step_bounds buf cr cw h1 h2
  obtain ⟨m, hm⟩ : ∃ m, buf.length - cr = m + 1 := ⟨buf.length - cr - 1, by omega⟩
  unfold loop_from
  rw [hm, normalize_loop_succ m buf cr cw (by omega)]
  exact normalize_loop_fuel m _ _ _ _ b4 (by omega) (by omega) (Nat.le_refl _)

theorem loop_from_step_eq (buf : Str) (cr cw : Nat) (h1 : cw ≤ cr) (h2 : cr < buf.length)
    (b : Str) (r w : Nat) (h : normalize_step buf cr cw = (b, r, w)) :
    loop_from buf cr cw = loop_from b r w := by
  rw [loop_from_step buf cr cw h1 h2, h]

theorem normalize_path_eq (p : Str) :
    normalize_path p =
      if ((loop_from p 0 0).1.take (loop_from p 0 0).2).getLast? = some '/' then
        ((loop_from p 0 0).1.take (loop_from p 0 0).2).dropLast
      else (loop_from p 0 0).1.take (loop_from p 0 0).2 := rfl

theorem length_of_drop_eq (buf r : Str) (cr : Nat) (h : buf.drop cr = r)
    (hle : cr ≤ buf.length) : cr + r.length = buf.length := by
  rw [← h, List.length_drop]
  omega

theorem charAt_of_drop (buf r : Str) (cr i : Nat) (h : buf.drop cr = r) :
    charAt buf (cr + i) = charAt r i := by
  rw [← h, charAt_drop]

theorem charAt_no_slash (c : Str) (i : Nat) (h : '/' ∉ c) : charAt c i ≠ '/' := by
  intro e
  have hlt := lt_of_charAt_slash c i e
  rw [charAt_of_lt c i hlt] at e
  exact h (e ▸ List.getElem_mem _)

theorem component_at_of_drop (buf c x : Str) (cr : Nat) (h : buf.drop cr = c ++ x)
    (hns : '/' ∉ c) (hx : x = [] ∨ x.head? = some '/') : component_at buf cr = c := by
  unfold component_at
  rw [h]
  have h1 : ∀ a ∈ c, (fun ch : Char => !(ch == '/')) a = true := by
    intro a ha
    simp only [Bool.not_eq_true', beq_eq_false_iff_ne, ne_eq]
    exact fun e => hns (e ▸ ha)
  rw [List.takeWhile_append_of_pos h1]
  rcases hx with hx | hx
  · rw [hx]
    simp
  · cases x with
    | nil => simp
    | cons y ys =>
      simp only [List.head?_cons, Option.some.injEq] at hx
      subst hx
      simp

/-- The test for `"./"` succeeds on a component only when it is `"."`. -/
theorem dot_test (buf c x : Str) (cr : Nat) (h : buf.drop cr = c ++ x)
    (hc : c ≠ []) (hns : '/' ∉ c)
    (ht : charAt buf cr = '.' ∧ cr + 1 ≠ buf.length ∧ charAt buf (cr + 1) = dirsep) :
    c = ['.'] := by
  cases c with
  | nil => exact absurd rfl hc
  | cons a c1 =>
    have e0 := charAt_of_drop buf _ cr 0 h
    simp only [Nat.add_zero, List.cons_append, charAt_cons_zero] at e0
    rw [ht.1] at e0
    cases c1 with
    | nil => rw [← e0]
    | cons b c2 =>
      have e1 := charAt_of_drop buf _ cr 1 h
      simp only [List.cons_append, charAt_cons_succ, charAt_cons_zero] at e1
      rw [ht.2.2] at e1
      simp only [List.mem_cons, not_or] at hns
      exact absurd e1 hns.2.1

/-- The test for `"../"` succeeds on a component only when it is `".."`. -/
theorem dotdot_test (buf c x : Str) (cr : Nat) (h : buf.drop cr = c ++ x)
    (hc : c ≠ []) (hns : '/' ∉ c) (hx : x = [] ∨ x.head? = some '/')
    (ht : charAt buf cr = '.' ∧ cr + 1 ≠ buf.length ∧ charAt buf (cr + 1) = '.'
      ∧ cr + 2 ≠ buf.length ∧ charAt buf (cr + 2) = dirsep) :
    c = ['.', '.'] ∧ x ≠ [] := by
  obtain ⟨t0, _, t1, _, t2⟩ := ht
  cases c with
  | nil => exact absurd rfl hc
  | cons a c1 =>
    have e0 := charAt_of_drop buf _ cr 0 h
    simp only [Nat.add_zero, List.cons_append, charAt_cons_zero] at e0
    rw [t0] at e0
    cases c1 with
    | nil =>
      have e1 := charAt_of_drop buf _ cr 1 h
      simp only [List.cons_append, List.nil_append, charAt_cons_succ] at e1
      have e2 := charAt_of_drop buf _ cr 2 h
      simp only [List.cons_append, List.nil_append, charAt_cons_succ] at e2
      rw [t2] at e2
      rw [t1] at e1
      cases x with
      | nil =>
        rw [charAt_nil] at e1
        exact absurd e1.symm NUL_ne_dot
      | cons y ys =>
        rw [charAt_cons_zero] at e1
        rcases hx with hx | hx
        · cases hx
        · simp only [List.head?_cons, Option.some.injEq] at hx
          rw [hx] at e1
          exact absurd e1 (by decide)
    | cons b c2 =>
      have e1 := charAt_of_drop buf _ cr 1 h
      simp only [List.cons_append, charAt_cons_succ, charAt_cons_zero] at e1
      rw [t1] at e1
      cases c2 with
      | nil =>
        refine ⟨by rw [← e0, ← e1], ?_⟩
        intro hx
        subst hx
        have e2 := charAt_of_drop buf _ cr 2 h
        simp only [List.cons_append, List.nil_append, charAt_cons_succ, charAt_nil] at e2
        rw [t2] at e2
        exact NUL_ne_slash e2.symm
      | cons d c3 =>
        have e2 := charAt_of_drop buf _ cr 2 h
        simp only [List.cons_append, charAt_cons_succ, charAt_cons_zero] at e2
        rw [t2] at e2
        simp only [List.mem_cons, not_or] at hns
        exact absurd e2 hns.2.2.1

end Mkdeps

namespace Mkdeps

theorem stack_ok_mem (st : List Str) (h : stack_ok st = true) :
    ∀ c ∈ st, c ≠ [] ∧ '/' ∉ c := by
  induction st with
  | nil => simp
  | cons t rest ih =>
    simp only [stack_ok, Bool.or_eq_true, Bool.and_eq_true, decide_eq_true_eq,
      List.all_eq_true] at h
    intro c hc
    rcases h with h | h
    · have : c = ['.', '.'] := by
        rcases List.mem_cons.1 hc with e | e
        · rw [e]; exact h.1
        · exact h.2 c e
      rw [this]
      exact ⟨by simp, by decide⟩
    · rcases List.mem_cons.1 hc with e | e
      · rw [e]
        have := (is_plain_iff t).1 h.1
        exact ⟨this.1, this.2.1⟩
      · exact ih h.2 c e

theorem stack_ok_tail (t : Str) (rest : List Str) (h : stack_ok (t :: rest) = true) :
    stack_ok rest = true := by
  have h0 := h
  simp only [stack_ok, Bool.or_eq_true, Bool.and_eq_true, decide_eq_true_eq,
    List.all_eq_true] at h
  rcases h with h | h
  · have hp := stack_ok_push (t :: rest) ['.', '.'] h0 (by decide)
    cases rest with
    | nil => rfl
    | cons u rest2 =>
      have hu : u = ['.', '.'] := h.2 u (List.mem_cons_self _ _)
      simp only [stack_ok, Bool.or_eq_true, Bool.and_eq_true, decide_eq_true_eq,
        List.all_eq_true]
      left
      exact ⟨hu, fun x hx => h.2 x (List.mem_cons_of_mem _ hx)⟩
  · exact h.2

/-- A `"."` component is skipped. -/
theorem rel_step_dot (buf : Str) (cr cw : Nat) (st : List Str) (r : Str)
    (hs : rel_state buf cr cw st) (hd : buf.drop cr = ['.'] ++ '/' :: r) :
    loop_from buf cr cw = loop_from buf (cr + 2) cw
      ∧ rel_state buf (cr + 2) cw st ∧ buf.drop (cr + 2) = r := by
  obtain ⟨s1, s2, s3, s4, s5⟩ := hs
  have hlen := length_of_drop_eq buf _ cr hd s2
  simp only [List.length_append, List.length_cons, List.length_nil] at hlen
  have c0 := charAt_of_drop buf _ cr 0 hd
  have c1 := charAt_of_drop buf _ cr 1 hd
  simp only [Nat.add_zero, List.singleton_append, charAt_cons_zero, charAt_cons_succ] at c0 c1
  have hstep : normalize_step buf cr cw = (buf, cr + 2, cw) := by
    unfold normalize_step
    rw [if_pos ⟨c0, by omega, by rw [c1]; rfl⟩]
  have hdrop : buf.drop (cr + 2) = r := by
    rw [← List.drop_drop, hd]
    rfl
  exact ⟨loop_from_step_eq buf cr cw s1 (by omega) _ _ _ hstep,
    ⟨by omega, by omega, s3, s4, s5⟩, hdrop⟩

/-- A plain name is copied with the separator after it. -/
theorem rel_step_plain (buf : Str) (cr cw : Nat) (st : List Str) (c r : Str)
    (hs : rel_state buf cr cw st) (hc : is_plain c = true)
    (hd : buf.drop cr = c ++ '/' :: r) (hr : r.head? ≠ some '/') :
    ∃ b, loop_from buf cr cw = loop_from b (cr + c.length + 1) (cw + c.length + 1)
      ∧ rel_state b (cr + c.length + 1) (cw + c.length + 1) (c :: st)
      ∧ b.drop (cr + c.length + 1) = r := by
  obtain ⟨s1, s2, s3, s4, s5⟩ := hs
  obtain ⟨p1, p2, p3, p4⟩ := (is_plain_iff c).1 hc
  have hlen := length_of_drop_eq buf _ cr hd s2
  simp only [List.length_append, List.length_cons] at hlen
  have hcomp : component_at buf cr = c :=
    component_at_of_drop buf c _ cr hd p2 (Or.inr rfl)
  have hnext : charAt buf (cr + c.length + 1) ≠ '/' := by
    have := charAt_of_drop buf _ cr (c.length + 1) hd
    rw [charAt_append_right _ _ _ (by omega)] at this
    rw [show cr + c.length + 1 = cr + (c.length + 1) by omega, this,
      show c.length + 1 - c.length = 1 by omega, charAt_cons_succ]
    cases r with
    | nil =>
      rw [charAt_nil]
      exact NUL_ne_slash
    | cons y ys =>
      rw [charAt_cons_zero]
      intro e
      exact hr (by rw [e]; rfl)
  have hstep : normalize_step buf cr cw =
      ((copied buf cr cw).set (cw + c.length) '/', cr + c.length + 1, cw + c.length + 1) := by
    unfold normalize_step
    have n1 : ¬ (charAt buf cr = '.' ∧ cr + 1 ≠ buf.length ∧ charAt buf (cr + 1) = dirsep) :=
      fun ht => p3 (dot_test buf c _ cr hd p1 p2 ht)
    have n2 : ¬ (charAt buf cr = '.' ∧ cr + 1 ≠ buf.length ∧ charAt buf (cr + 1) = '.'
        ∧ cr + 2 ≠ buf.length ∧ charAt buf (cr + 2) = dirsep) :=
      fun ht => p4 (dotdot_test buf c _ cr hd p1 p2 (Or.inr rfl) ht).1
    rw [if_neg n1, if_neg n2, copy_step_eq buf cr cw s1 s2, hcomp,
      if_pos (by omega), if_neg hnext]
  have htake := take_copied_slash buf cr cw s1 s2 (by rw [hcomp]; omega)
  rw [hcomp] at htake
  obtain ⟨hclen, _, _⟩ := copied_facts buf cr cw s1 s2
  refine ⟨_, loop_from_step_eq buf cr cw s1 (by omega) _ _ _ hstep, ?_, ?_⟩
  · refine ⟨by omega, ?_, ?_, ?_, ?_⟩
    · rw [List.length_set, hclen]
      omega
    · rw [htake, s3, written_cons, List.append_assoc]
    · simp [stack_ok, hc, s4]
    · intro h0
      omega
  · rw [drop_set_of_lt _ _ _ _ (by omega), copied_drop buf cr cw _ s1 s2 (by rw [hcomp]; omega)]
    rw [show cr + c.length + 1 = cr + (c.length + 1) by omega, ← List.drop_drop, hd]
    rw [show c.length + 1 = (c ++ ['/']).length by simp]
    rw [show c ++ '/' :: r = (c ++ ['/']) ++ r by simp, List.drop_left]

/-- The last component is copied and the loop is left. -/
theorem rel_step_last (buf : Str) (cr cw : Nat) (st : List Str) (c : Str)
    (hs : rel_state buf cr cw st) (hc : c ≠ []) (hns : '/' ∉ c) (hd : buf.drop cr = c) :
    (loop_from buf cr cw).1.take (loop_from buf cr cw).2 = written st ++ c := by
  obtain ⟨s1, s2, s3, s4, s5⟩ := hs
  have hlen := length_of_drop_eq buf _ cr hd s2
  have hcl : 1 ≤ c.length := List.length_pos.2 hc
  have hd2 : buf.drop cr = c ++ [] := by rw [hd, List.append_nil]
  have hcomp : component_at buf cr = c := component_at_of_drop buf c [] cr hd2 hns (Or.inl rfl)
  have hstep : normalize_step buf cr cw = (copied buf cr cw, cr + c.length, cw + c.length) := by
    unfold normalize_step
    have n1 : ¬ (charAt buf cr = '.' ∧ cr + 1 ≠ buf.length ∧ charAt buf (cr + 1) = dirsep) := by
      intro ht
      have := lt_of_charAt_slash buf (cr + 1) (by simpa [dirsep] using ht.2.2)
      have e := dot_test buf c [] cr hd2 hc hns ht
      rw [e] at hlen
      simp at hlen
      omega
    have n2 : ¬ (charAt buf cr = '.' ∧ cr + 1 ≠ buf.length ∧ charAt buf (cr + 1) = '.'
        ∧ cr + 2 ≠ buf.length ∧ charAt buf (cr + 2) = dirsep) :=
      fun ht => (dotdot_test buf c [] cr hd2 hc hns (Or.inl rfl) ht).2 rfl
    rw [if_neg n1, if_neg n2, copy_step_eq buf cr cw s1 s2, hcomp]
    rw [if_neg (by omega)]
  obtain ⟨hclen, htake, _⟩ := copied_facts buf cr cw s1 s2
  rw [loop_from_step_eq buf cr cw s1 (by omega) _ _ _ hstep,
    loop_from_end _ _ _ (by rw [hclen]; omega)]
  simp only
  rw [← hcomp, htake, s3]

end Mkdeps

namespace Mkdeps

theorem dotdot_step_eq (buf : Str) (cr cw sep : Nat)
    (h : last_sep_before buf 0 ((cw : Int) - 1) = sep) :
    dotdot_step buf cr cw =
      if charAt buf sep = '/' ∧ strncmp_eq buf sep ['/', '.', '.', '/'] = false then
        (buf, cr + 3, sep + 1)
      else if cw ≠ 0 ∧ charAt buf (cw - 1) = '/'
          ∧ strncmp_eq buf 0 ['.', '.', '/'] = false then
        (buf, cr + 3, 0)
      else
        (((buf.set cw '.').set (cw + 1) '.').set (cw + 2) '/', cr + 3, cw + 3) := by
  subst h
  rfl

theorem normalize_step_dotdot (buf : Str) (cr cw : Nat) (r : Str)
    (hd : buf.drop cr = ['.', '.'] ++ '/' :: r) (hcr : cr ≤ buf.length) :
    normalize_step buf cr cw = dotdot_step buf cr cw
      ∧ cr + 3 ≤ buf.length ∧ buf.drop (cr + 3) = r := by
  have hlen := length_of_drop_eq buf _ cr hd hcr
  simp only [List.length_append, List.length_cons, List.length_nil] at hlen
  have c0 := charAt_of_drop buf _ cr 0 hd
  have c1 := charAt_of_drop buf _ cr 1 hd
  have c2 := charAt_of_drop buf _ cr 2 hd
  simp only [Nat.add_zero, List.cons_append, List.nil_append, charAt_cons_zero,
    charAt_cons_succ] at c0 c1 c2
  refine ⟨?_, by omega, ?_⟩
  · unfold normalize_step
    have n1 : ¬ (charAt buf cr = '.' ∧ cr + 1 ≠ buf.length ∧ charAt buf (cr + 1) = dirsep) := by
      rw [c1]
      intro h
      exact absurd h.2.2 (by decide)
    rw [if_neg n1, if_pos ⟨c0, by omega, c1, by omega, by rw [c2]; rfl⟩]
  · rw [← List.drop_drop, hd]
    rfl

/-- A `".."` component on an empty output is written. -/
theorem rel_step_dotdot_nil (buf : Str) (cr cw : Nat) (r : Str)
    (hs : rel_state buf cr cw []) (hd : buf.drop cr = ['.', '.'] ++ '/' :: r) :
    ∃ b w, loop_from buf cr cw = loop_from b (cr + 3) w
      ∧ rel_state b (cr + 3) w [['.', '.']] ∧ b.drop (cr + 3) = r := by
  obtain ⟨s1, s2, s3, s4, s5⟩ := hs
  obtain ⟨hns, hlen, hdrop⟩ := normalize_step_dotdot buf cr cw r hd s2
  have hcw : cw = 0 := by
    have := length_of_take_eq buf _ cw s3 (by omega)
    rw [written_nil] at this
    exact this.symm
  subst hcw
  have hsep := last_sep_before_small buf 0 (by omega)
  have n1 : ¬ (charAt buf 0 = '/' ∧ strncmp_eq buf 0 ['/', '.', '.', '/'] = false) := by
    intro h
    rcases s5 rfl with e | e
    · exact e h.1
    · rw [e] at h
      exact absurd h.2 (by decide)
  have hstep : normalize_step buf cr 0 =
      (((buf.set 0 '.').set 1 '.').set 2 '/', cr + 3, 3) := by
    rw [hns, dotdot_step_eq buf cr 0 0 hsep, if_neg n1, if_neg (by simp)]
  refine ⟨_, _, loop_from_step_eq buf cr 0 s1 (by omega) _ _ _ hstep, ?_, ?_⟩
  · refine ⟨by omega, by simp; omega, ?_, by decide, by omega⟩
    have := take_three_sets buf 0 '.' '.' '/' (by omega)
    simpa [written, slashed] using this
  · rw [drop_set_of_lt _ _ _ _ (by omega), drop_set_of_lt _ _ _ _ (by omega),
      drop_set_of_lt _ _ _ _ (by omega)]
    exact hdrop

/-- A `".."` component after a `".."` is written. -/
theorem rel_step_dotdot_parent (buf : Str) (cr cw : Nat) (rest : List Str) (r : Str)
    (hs : rel_state buf cr cw (['.', '.'] :: rest))
    (hd : buf.drop cr = ['.', '.'] ++ '/' :: r) :
    ∃ b w, loop_from buf cr cw = loop_from b (cr + 3) w
      ∧ rel_state b (cr + 3) w (['.', '.'] :: ['.', '.'] :: rest) ∧ b.drop (cr + 3) = r := by
  obtain ⟨s1, s2, s3, s4, s5⟩ := hs
  obtain ⟨hns, hlen, hdrop⟩ := normalize_step_dotdot buf cr cw r hd s2
  have hW : buf.take cw = written rest ++ (['.', '.'] ++ ['/']) := by
    rw [s3, written_cons]
  have hcwl := length_of_take_eq buf _ cw hW (by omega)
  simp only [List.length_append, List.length_cons, List.length_nil] at hcwl
  have hsep := last_sep_before_written buf (written rest) ['.', '.'] cw hW (by omega)
    (by simp) (by decide) (written_getLast_or rest)
  obtain ⟨q0, q1, q2⟩ := parent_is_top buf (written rest) cw hW (by omega)
  have hall : (['.', '.'] :: rest).all (fun c => c = ['.', '.']) = true := by
    simp only [stack_ok, Bool.or_eq_true, Bool.and_eq_true, decide_eq_true_eq] at s4
    rcases s4 with h | h
    · simp only [List.all_cons, decide_True, Bool.true_and]
      exact h.2
    · exact absurd h.1 (by decide)
  have n1 : ¬ (charAt buf ((written rest).length - 1) = '/'
      ∧ strncmp_eq buf ((written rest).length - 1) ['/', '.', '.', '/'] = false) := by
    intro h
    rcases written_getLast_or rest with ha | ha
    · rw [ha] at h q0
      simp only [List.length_nil] at h q0
      rw [q0] at h
      exact absurd h.1 (by decide)
    · obtain ⟨a1, _⟩ := charAt_last_of_getLast _ ha
      have : strncmp_eq buf ((written rest).length - 1) ['/', '.', '.', '/'] = true := by
        rw [strncmp_eq_four]
        refine ⟨h.1, ?_, ?_, ?_⟩
        · rw [show (written rest).length - 1 + 1 = (written rest).length by omega]
          exact q0
        · rw [show (written rest).length - 1 + 2 = (written rest).length + 1 by omega]
          exact q1
        · rw [show (written rest).length - 1 + 3 = (written rest).length + 2 by omega]
          exact q2
      rw [this] at h
      exact absurd h.2 (by decide)
  have n2 : ¬ (cw ≠ 0 ∧ charAt buf (cw - 1) = '/'
      ∧ strncmp_eq buf 0 ['.', '.', '/'] = false) := by
    intro h
    obtain ⟨w, hw⟩ := written_all_parent (['.', '.'] :: rest) (by simp) hall
    rw [hw] at s3
    have : strncmp_eq buf 0 ['.', '.', '/'] = true := by
      rw [strncmp_eq_three]
      refine ⟨?_, ?_, ?_⟩
      · rw [charAt_of_take_eq buf _ cw 0 s3 (by omega)]
        rfl
      · rw [charAt_of_take_eq buf _ cw 1 s3 (by omega)]
        rfl
      · rw [charAt_of_take_eq buf _ cw 2 s3 (by omega)]
        rfl
    rw [this] at h
    exact absurd h.2.2 (by decide)
  have hstep : normalize_step buf cr cw =
      (((buf.set cw '.').set (cw + 1) '.').set (cw + 2) '/', cr + 3, cw + 3) := by
    rw [hns, dotdot_step_eq buf cr cw _ hsep, if_neg n1, if_neg n2]
  refine ⟨_, _, loop_from_step_eq buf cr cw s1 (by omega) _ _ _ hstep, ?_, ?_⟩
  · refine ⟨by omega, by simp; omega, ?_, ?_, by omega⟩
    · rw [take_three_sets buf cw _ _ _ (by omega),
        written_cons ['.', '.'] (['.', '.'] :: rest), s3]
      rfl
    · have := stack_ok_push (['.', '.'] :: rest) ['.', '.'] s4 (by decide)
      simpa [push_component] using this
  · rw [drop_set_of_lt _ _ _ _ (by omega), drop_set_of_lt _ _ _ _ (by omega),
      drop_set_of_lt _ _ _ _ (by omega)]
    exact hdrop

/-- A `".."` component after a plain name removes the name. -/
theorem rel_step_dotdot_plain (buf : Str) (cr cw : Nat) (t : Str) (rest : List Str) (r : Str)
    (hs : rel_state buf cr cw (t :: rest)) (ht : t ≠ ['.', '.'])
    (hd : buf.drop cr = ['.', '.'] ++ '/' :: r) :
    ∃ b w, loop_from buf cr cw = loop_from b (cr + 3) w
      ∧ rel_state b (cr + 3) w rest ∧ b.drop (cr + 3) = r := by
  obtain ⟨s1, s2, s3, s4, s5⟩ := hs
  obtain ⟨hns, hlen, hdrop⟩ := normalize_step_dotdot buf cr cw r hd s2
  obtain ⟨t1, t2⟩ := stack_ok_mem _ s4 t (List.mem_cons_self _ _)
  have hrest := stack_ok_tail t rest s4
  have hW : buf.take cw = written rest ++ (t ++ ['/']) := by
    rw [s3, written_cons]
  have hcwl := length_of_take_eq buf _ cw hW (by omega)
  simp only [List.length_append, List.length_cons, List.length_nil] at hcwl
  have hsep := last_sep_before_written buf (written rest) t cw hW (by omega) t1 t2
    (written_getLast_or rest)
  have hlast : charAt buf (cw - 1) = '/' := by
    have := charAt_written_top buf (written rest) t cw 0 hW (by omega) (Nat.zero_le _)
    have h2 := charAt_written_top buf (written rest) t cw t.length hW (by omega) (Nat.le_refl _)
    rw [charAt_append_length] at h2
    rw [show cw - 1 = (written rest).length + t.length by omega]
    exact h2
  rcases written_getLast_or rest with ha | ha
  · -- the name is the only component of the output
    have ha0 : (written rest).length = 0 := by rw [ha]; rfl
    have hfirst : charAt buf 0 ≠ '/' := by
      have := charAt_written_top buf (written rest) t cw 0 hW (by omega) (Nat.zero_le _)
      rw [ha0] at this
      rw [this, charAt_append_left _ _ _ (List.length_pos.2 t1)]
      exact charAt_no_slash t 0 t2
    have n1 : ¬ (charAt buf ((written rest).length - 1) = '/'
        ∧ strncmp_eq buf ((written rest).length - 1) ['/', '.', '.', '/'] = false) := by
      rw [ha0]
      exact fun h => hfirst h.1
    have p2 : cw ≠ 0 ∧ charAt buf (cw - 1) = '/'
        ∧ strncmp_eq buf 0 ['.', '.', '/'] = false := by
      refine ⟨by omega, hlast, ?_⟩
      cases hq : strncmp_eq buf 0 ['.', '.', '/'] with
      | false => rfl
      | true =>
        rw [strncmp_eq_three] at hq
        have := top_is_parent buf (written rest) t cw hW (by omega) t1 t2
          (by rw [ha0]; exact hq)
        exact absurd this ht
    have hstep : normalize_step buf cr cw = (buf, cr + 3, 0) := by
      rw [hns, dotdot_step_eq buf cr cw _ hsep, if_neg n1, if_pos p2]
    refine ⟨_, _, loop_from_step_eq buf cr cw s1 (by omega) _ _ _ hstep, ?_, hdrop⟩
    exact ⟨by omega, by omega, by rw [ha]; rfl, hrest, fun _ => Or.inl hfirst⟩
  · obtain ⟨a1, a2⟩ := charAt_last_of_getLast _ ha
    have hsl : charAt buf ((written rest).length - 1) = '/' := by
      rw [charAt_of_take_eq buf _ cw _ hW (by omega), charAt_append_left _ _ _ (by omega)]
      exact a2
    have p1 : charAt buf ((written rest).length - 1) = '/'
        ∧ strncmp_eq buf ((written rest).length - 1) ['/', '.', '.', '/'] = false := by
      refine ⟨hsl, ?_⟩
      cases hq : strncmp_eq buf ((written rest).length - 1) ['/', '.', '.', '/'] with
      | false => rfl
      | true =>
        rw [strncmp_eq_four] at hq
        obtain ⟨_, q0, q1, q2⟩ := hq
        rw [show (written rest).length - 1 + 1 = (written rest).length by omega] at q0
        rw [show (written rest).length - 1 + 2 = (written rest).length + 1 by omega] at q1
        rw [show (written rest).length - 1 + 3 = (written rest).length + 2 by omega] at q2
        exact absurd (top_is_parent buf (written rest) t cw hW (by omega) t1 t2 ⟨q0, q1, q2⟩) ht
    have hstep : normalize_step buf cr cw = (buf, cr + 3, (written rest).length - 1 + 1) := by
      rw [hns, dotdot_step_eq buf cr cw _ hsep, if_pos p1]
    rw [show (written rest).length - 1 + 1 = (written rest).length by omega] at hstep
    refine ⟨_, _, loop_from_step_eq buf cr cw s1 (by omega) _ _ _ hstep, ?_, hdrop⟩
    exact ⟨by omega, by omega, take_of_take_eq_append buf _ _ cw hW (by omega), hrest,
      fun h0 => by omega⟩

end Mkdeps

namespace Mkdeps

theorem push_component_plain (st : List Str) (c : Str) (hc : is_plain c = true) :
    push_component st c = c :: st := by
  obtain ⟨_, _, p3, p4⟩ := (is_plain_iff c).1 hc
  simp [push_component, p3, p4]

/-- One component and the separator after it: the output becomes the one of
the stack with the component pushed. -/
theorem rel_step_component (buf : Str) (cr cw : Nat) (st : List Str) (c r : Str)
    (hs : rel_state buf cr cw st) (hc : is_component c = true)
    (hd : buf.drop cr = c ++ '/' :: r) (hr : r.head? ≠ some '/') :
    ∃ b cr1 w, loop_from buf cr cw = loop_from b cr1 w
      ∧ rel_state b cr1 w (push_component st c) ∧ b.drop cr1 = r := by
  rcases is_component_cases c hc with h | h | h
  · obtain ⟨b, h1, h2, h3⟩ := rel_step_plain buf cr cw st c r hs h hd hr
    rw [push_component_plain st c h]
    exact ⟨b, _, _, h1, h2, h3⟩
  · subst h
    obtain ⟨h1, h2, h3⟩ := rel_step_dot buf cr cw st r hs hd
    exact ⟨buf, _, _, h1, by simpa [push_component] using h2, h3⟩
  · subst h
    cases st with
    | nil =>
      obtain ⟨b, w, h1, h2, h3⟩ := rel_step_dotdot_nil buf cr cw r hs hd
      exact ⟨b, _, w, h1, by simpa [push_component] using h2, h3⟩
    | cons t rest =>
      by_cases ht : t = ['.', '.']
      · subst ht
        obtain ⟨b, w, h1, h2, h3⟩ := rel_step_dotdot_parent buf cr cw rest r hs hd
        exact ⟨b, _, w, h1, by simpa [push_component] using h2, h3⟩
      · obtain ⟨b, w, h1, h2, h3⟩ := rel_step_dotdot_plain buf cr cw t rest r hs ht hd
        exact ⟨b, _, w, h1, by simpa [push_component, ht] using h2, h3⟩

theorem head?_component_append (c x : Str) (hc : is_component c = true) :
    (c ++ x).head? ≠ some '/' := by
  have h1 := is_component_ne_nil c hc
  have h2 := is_component_no_slash c hc
  cases c with
  | nil => exact absurd rfl h1
  | cons a c1 =>
    simp only [List.mem_cons, not_or] at h2
    simp only [List.cons_append, List.head?_cons, ne_eq, Option.some.injEq]
    exact fun e => h2.1 e.symm

theorem head?_slashed_append (comps : List Str) (r : Str)
    (hc : ∀ c ∈ comps, is_component c = true) (hr : r.head? ≠ some '/') :
    (slashed comps ++ r).head? ≠ some '/' := by
  cases comps with
  | nil => exact hr
  | cons d ds =>
    rw [slashed, List.append_assoc]
    exact head?_component_append d _ (hc d (List.mem_cons_self _ _))

/-- A run of components, each followed by a separator. -/
theorem rel_run (comps : List Str) :
    ∀ (buf : Str) (cr cw : Nat) (st : List Str) (r : Str),
      (∀ c ∈ comps, is_component c = true) → rel_state buf cr cw st →
      buf.drop cr = slashed comps ++ r → r.head? ≠ some '/' →
      ∃ b cr1 w, loop_from buf cr cw = loop_from b cr1 w
        ∧ rel_state b cr1 w (comps.foldl push_component st) ∧ b.drop cr1 = r := by
  induction comps with
  | nil =>
    intro buf cr cw st r _ hs hd _
    exact ⟨buf, cr, cw, rfl, hs, hd⟩
  | cons c cs ih =>
    intro buf cr cw st r hc hs hd hr
    have hd2 : buf.drop cr = c ++ '/' :: (slashed cs ++ r) := by
      rw [hd, slashed]
      simp
    obtain ⟨b1, cr1, w1, e1, s1, d1⟩ := rel_step_component buf cr cw st c _ hs
      (hc c (List.mem_cons_self _ _)) hd2
      (head?_slashed_append cs r (fun x hx => hc x (List.mem_cons_of_mem _ hx)) hr)
    obtain ⟨b2, cr2, w2, e2, s2, d2⟩ := ih b1 cr1 w1 (push_component st c) r
      (fun x hx => hc x (List.mem_cons_of_mem _ hx)) s1 d1 hr
    exact ⟨b2, cr2, w2, e1.trans e2, s2, d2⟩

theorem rel_state_start (p : Str) (h : p.head? ≠ some '/') : rel_state p 0 0 [] := by
  refine ⟨Nat.le_refl _, Nat.zero_le _, rfl, rfl, fun _ => Or.inl ?_⟩
  cases p with
  | nil =>
    rw [charAt_nil]
    exact NUL_ne_slash
  | cons a p1 =>
    rw [charAt_cons_zero]
    intro e
    exact h (by rw [e]; rfl)

/-- The loop on a relative path that ends with a component. -/
theorem normalize_rel_last (init : List Str) (last : Str)
    (hinit : ∀ c ∈ init, is_component c = true) (h1 : last ≠ []) (h2 : '/' ∉ last) :
    normalize_path (slashed init ++ last)
      = written (init.foldl push_component []) ++ last := by
  have hhead : last.head? ≠ some '/' := by
    have := head?_no_slash last h2
    intro e
    rw [e] at this
    simp at this
  obtain ⟨b, cr1, w, e, s, d⟩ := rel_run init (slashed init ++ last) 0 0 [] last hinit
    (rel_state_start _ (head?_slashed_append init last hinit hhead)) rfl hhead
  have hfin := rel_step_last b cr1 w _ last s h1 h2 d
  rw [normalize_path_eq, e, hfin]
  have hl := getLast?_append_no_slash (written (init.foldl push_component [])) last h1 h2
  rw [if_neg]
  intro e2
  rw [e2] at hl
  simp at hl

/-- The loop on a relative path that ends with a separator, or is empty. -/
theorem normalize_rel_slash (comps : List Str)
    (hc : ∀ c ∈ comps, is_component c = true) :
    normalize_path (slashed comps)
      = join_path (comps.foldl push_component []).reverse := by
  have hhead : ([] : Str).head? ≠ some '/' := by simp
  obtain ⟨b, cr1, w, e, s, d⟩ := rel_run comps (slashed comps) 0 0 [] [] hc
    (rel_state_start _ (by simpa using head?_slashed_append comps [] hc hhead))
    (by simp) hhead
  obtain ⟨s1, s2, s3, s4, s5⟩ := s
  have hend : cr1 = b.length := by
    have := length_of_drop_eq b _ cr1 d s2
    simpa using this
  rw [normalize_path_eq, e, loop_from_end b cr1 w hend]
  simp only
  rw [s3]
  cases hst : comps.foldl push_component [] with
  | nil => rfl
  | cons t rest =>
    rw [if_pos (written_getLast t rest), written_dropLast]

end Mkdeps

namespace Mkdeps

/-- C1: for a relative path of components separated by single separators, the
last one a plain name, `normalize_path` returns the stack reduction of the
components joined by `'/'`; in particular `"a/./b/../c"` gives `"a/c"` and
`"x/../y"` gives `"y"`. -/
theorem normalize_path_reduces (init : List Str) (last : Str)
    (hinit : ∀ c ∈ init, is_component c = true) (hlast : is_plain last = true) :
    normalize_path (join_path (init ++ [last])) = join_path (reduce_components (init ++ [last]))
    ∧ normalize_path "a/./b/../c".toList = "a/c".toList
    ∧ normalize_path "x/../y".toList = "y".toList := by
  refine ⟨?_, by decide, by decide⟩
  obtain ⟨p1, p2, _, _⟩ := (is_plain_iff last).1 hlast
  rw [join_path_snoc, normalize_rel_last init last hinit p1 p2]
  unfold reduce_components
  rw [List.foldl_append, List.foldl_cons, List.foldl_nil, push_component_plain _ _ hlast,
    List.reverse_cons, join_path_snoc]
  rfl

/-- Witness of C1: the components `a`, `.`, `b`, `..` and the plain name `c`. -/
theorem normalize_path_reduces_witness :
    normalize_path (join_path ([['a'], ['.'], ['b'], ['.', '.']] ++ [['c']]))
      = join_path (reduce_components ([['a'], ['.'], ['b'], ['.', '.']] ++ [['c']])) :=
  (normalize_path_reduces [['a'], ['.'], ['b'], ['.', '.']] ['c'] (by decide) (by decide)).1

/-! ### Idempotence -/

theorem is_component_iff (c : Str) : is_component c = true ↔ c ≠ [] ∧ '/' ∉ c := by
  constructor
  · intro h
    exact ⟨is_component_ne_nil c h, is_component_no_slash c h⟩
  · intro h
    by_cases h1 : c = ['.']
    · rw [h1]; rfl
    · by_cases h2 : c = ['.', '.']
      · rw [h2]; rfl
      · have : is_plain c = true := (is_plain_iff c).2 ⟨h.1, h.2, h1, h2⟩
        simp [is_component, this]

theorem stack_ok_foldl (comps : List Str) (st : List Str) (hs : stack_ok st = true)
    (hc : ∀ c ∈ comps, is_component c = true) :
    stack_ok (comps.foldl push_component st) = true := by
  induction comps generalizing st with
  | nil => exact hs
  | cons c cs ih =>
    rw [List.foldl_cons]
    exact ih _ (stack_ok_push st c hs (hc c (List.mem_cons_self _ _)))
      (fun x hx => hc x (List.mem_cons_of_mem _ hx))

/-- Reducing a reduced stack again changes nothing. -/
theorem foldl_push_reverse (st : List Str) (h : stack_ok st = true) :
    st.reverse.foldl push_component [] = st := by
  induction st with
  | nil => rfl
  | cons t rest ih =>
    have hrest := stack_ok_tail t rest h
    rw [List.reverse_cons, List.foldl_append, List.foldl_cons, List.foldl_nil, ih hrest]
    simp only [stack_ok, Bool.or_eq_true, Bool.and_eq_true, decide_eq_true_eq,
      List.all_eq_true] at h
    rcases h with h | h
    · obtain ⟨ht, hall⟩ := h
      subst ht
      cases rest with
      | nil => rfl
      | cons u rest2 =>
        have hu : u = ['.', '.'] := hall u (List.mem_cons_self _ _)
        subst hu
        simp [push_component]
    · exact push_component_plain rest t h.1

theorem stack_components (st : List Str) (h : stack_ok st = true) :
    ∀ c ∈ st.reverse, is_component c = true := by
  intro c hc
  have := stack_ok_mem st h c (List.mem_reverse.1 hc)
  exact (is_component_iff c).2 this

/-- A path without double separator is a run of components, each followed by
a separator, then a last part without separator; after a leading separator
the rest of the path is of that form. -/
theorem path_components (p : Str) (h : has_double_slash p = false) :
    (p.head? ≠ some '/' → ∃ init last, (∀ c ∈ init, is_component c = true) ∧ '/' ∉ last
        ∧ p = slashed init ++ last)
    ∧ (∀ q, p = '/' :: q → ∃ init last, (∀ c ∈ init, is_component c = true) ∧ '/' ∉ last
        ∧ q = slashed init ++ last) := by
  induction p with
  | nil =>
    refine ⟨fun _ => ⟨[], [], by simp, by simp, rfl⟩, ?_⟩
    intro q hq
    cases hq
  | cons c rest ih =>
    simp only [has_double_slash, Bool.or_eq_false_iff, Bool.and_eq_false_iff,
      beq_eq_false_iff_ne, ne_eq] at h
    obtain ⟨h1, h2⟩ := h
    obtain ⟨ih1, ih2⟩ := ih h2
    constructor
    · intro hc
      have hc2 : c ≠ '/' := by
        intro e
        exact hc (by rw [e]; rfl)
      by_cases hr : rest.head? = some '/'
      · cases rest with
        | nil => simp at hr
        | cons d q =>
          simp only [List.head?_cons, Option.some.injEq] at hr
          subst hr
          obtain ⟨init, last, a1, a2, a3⟩ := ih2 q rfl
          refine ⟨[c] :: init, last, ?_, a2, ?_⟩
          · intro x hx
            rcases List.mem_cons.1 hx with e | e
            · rw [e]
              exact (is_component_iff [c]).2 ⟨by simp, by simpa using hc2.symm⟩
            · exact a1 x e
          · rw [a3]
            simp [slashed]
      · obtain ⟨init, last, a1, a2, a3⟩ := ih1 hr
        cases init with
        | nil =>
          refine ⟨[], c :: last, by simp, ?_, ?_⟩
          · simp only [List.mem_cons, not_or]
            exact ⟨hc2.symm, a2⟩
          · rw [a3]
            rfl
        | cons d ds =>
          have hd := (is_component_iff d).1 (a1 d (List.mem_cons_self _ _))
          refine ⟨(c :: d) :: ds, last, ?_, a2, ?_⟩
          · intro x hx
            rcases List.mem_cons.1 hx with e | e
            · rw [e]
              refine (is_component_iff (c :: d)).2 ⟨by simp, ?_⟩
              simp only [List.mem_cons, not_or]
              exact ⟨hc2.symm, hd.2⟩
            · exact a1 x (List.mem_cons_of_mem _ e)
          · rw [a3]
            simp [slashed]
    · intro q hq
      simp only [List.cons.injEq] at hq
      obtain ⟨e1, e2⟩ := hq
      subst e1 e2
      apply ih1
      intro e
      rcases h1 with h1 | h1
      · exact h1 rfl
      · exact h1 (by rw [e])

/-- A second pass leaves the result for a relative stack and last part as it
is. -/
theorem normalize_rel_fixed (st : List Str) (last : Str) (hs : stack_ok st = true)
    (h1 : last ≠ []) (h2 : '/' ∉ last) :
    normalize_path (written st ++ last) = written st ++ last := by
  have := normalize_rel_last st.reverse last (stack_components st hs) h1 h2
  rw [foldl_push_reverse st hs] at this
  exact this

/-- `normalize_path` is idempotent on relative paths without double separator. -/
theorem normalize_rel_idempotent (p : Str) (h1 : has_double_slash p = false)
    (h2 : p.head? ≠ some '/') :
    normalize_path (normalize_path p) = normalize_path p := by
  obtain ⟨init, last, a1, a2, a3⟩ := (path_components p h1).1 h2
  subst a3
  have hs := stack_ok_foldl init [] rfl a1
  by_cases hl : last = []
  · subst hl
    rw [List.append_nil, normalize_rel_slash init a1]
    cases hst : init.foldl push_component [] with
    | nil => decide
    | cons t rest =>
      rw [hst] at hs
      obtain ⟨t1, t2⟩ := stack_ok_mem _ hs t (List.mem_cons_self _ _)
      rw [List.reverse_cons, join_path_snoc]
      exact normalize_rel_fixed rest t (stack_ok_tail t rest hs) t1 t2
  · rw [normalize_rel_last init last a1 hl a2]
    exact normalize_rel_fixed _ last hs hl a2

end Mkdeps

namespace Mkdeps

/-! ### Results on relative paths -/

theorem normalize_path_strip (p : Str) :
    normalize_path p = strip_slash ((loop_from p 0 0).1.take (loop_from p 0 0).2) := rfl

theorem strip_slash_append_last (w last : Str) (h1 : last ≠ []) (h2 : '/' ∉ last) :
    strip_slash (w ++ last) = w ++ last := by
  have hl := getLast?_append_no_slash w last h1 h2
  unfold strip_slash
  rw [if_neg]
  intro e
  rw [e] at hl
  simp at hl

theorem strip_slash_written (st : List Str) :
    strip_slash (written st) = join_path st.reverse := by
  cases st with
  | nil => rfl
  | cons t rest =>
    unfold strip_slash
    rw [if_pos (written_getLast t rest), written_dropLast]

/-- The result of the loop run from a state between components of a relative
path, whatever the buffer before the read cursor holds. -/
theorem rel_result (buf : Str) (cr cw : Nat) (st : List Str) (init : List Str) (last : Str)
    (hs : rel_state buf cr cw st) (hinit : ∀ c ∈ init, is_component c = true)
    (hl : '/' ∉ last) (hd : buf.drop cr = slashed init ++ last) :
    strip_slash ((loop_from buf cr cw).1.take (loop_from buf cr cw).2)
      = strip_slash (written (init.foldl push_component st) ++ last) := by
  have hhead : last.head? ≠ some '/' := by
    have := head?_no_slash last hl
    intro e
    rw [e] at this
    simp at this
  obtain ⟨b, cr1, w, e, s, d⟩ := rel_run init buf cr cw st last hinit hs hd hhead
  rw [e]
  by_cases hne : last = []
  · subst hne
    obtain ⟨s1, s2, s3, s4, s5⟩ := s
    have hend : cr1 = b.length := by
      have := length_of_drop_eq b _ cr1 d s2
      simpa using this
    rw [loop_from_end b cr1 w hend]
    simp only [List.append_nil]
    rw [s3]
  · rw [rel_step_last b cr1 w _ last s hne hl d]

/-- A second pass leaves the result on a relative path as it is. -/
theorem rel_fixed (st : List Str) (last : Str) (hs : stack_ok st = true) (hl : '/' ∉ last) :
    normalize_path (strip_slash (written st ++ last)) = strip_slash (written st ++ last) := by
  by_cases hne : last = []
  · subst hne
    rw [List.append_nil, strip_slash_written]
    cases st with
    | nil => decide
    | cons t rest =>
      obtain ⟨t1, t2⟩ := stack_ok_mem _ hs t (List.mem_cons_self _ _)
      rw [List.reverse_cons, join_path_snoc]
      exact normalize_rel_fixed rest t (stack_ok_tail t rest hs) t1 t2
  · rw [strip_slash_append_last _ _ hne hl]
    exact normalize_rel_fixed st last hs hne hl

end Mkdeps

namespace Mkdeps

/-! ### The loop on an absolute path -/

theorem root_written_getLast (rest : List Str) :
    ('/' :: written rest).getLast? = some '/' := by
  cases rest with
  | nil => rfl
  | cons t r =>
    have h : '/' :: written (t :: r) = ('/' :: written r ++ t) ++ ['/'] := by
      rw [written_cons]
      simp
    rw [h, List.getLast?_concat]

theorem abs_step_dot (buf : Str) (cr cw : Nat) (st : List Str) (r : Str)
    (hs : abs_state buf cr cw st) (hd : buf.drop cr = ['.'] ++ '/' :: r) :
    loop_from buf cr cw = loop_from buf (cr + 2) cw
      ∧ abs_state buf (cr + 2) cw st ∧ buf.drop (cr + 2) = r := by
  obtain ⟨s1, s2, s3, s4, s5⟩ := hs
  have hlen := length_of_drop_eq buf _ cr hd s2
  simp only [List.length_append, List.length_cons, List.length_nil] at hlen
  have c0 := charAt_of_drop buf _ cr 0 hd
  have c1 := charAt_of_drop buf _ cr 1 hd
  simp only [Nat.add_zero, List.singleton_append, charAt_cons_zero, charAt_cons_succ] at c0 c1
  have hstep : normalize_step buf cr cw = (buf, cr + 2, cw) := by
    unfold normalize_step
    rw [if_pos ⟨c0, by omega, by rw [c1]; rfl⟩]
  have hdrop : buf.drop (cr + 2) = r := by
    rw [← List.drop_drop, hd]
    rfl
  exact ⟨loop_from_step_eq buf cr cw s1 (by omega) _ _ _ hstep,
    ⟨by omega, by omega, s3, s4, s5⟩, hdrop⟩

theorem abs_step_plain (buf : Str) (cr cw : Nat) (st : List Str) (c r : Str)
    (hs : abs_state buf cr cw st) (hc : is_plain c = true)
    (hd : buf.drop cr = c ++ '/' :: r) (hr : r.head? ≠ some '/') :
    ∃ b, loop_from buf cr cw = loop_from b (cr + c.length + 1) (cw + c.length + 1)
      ∧ abs_state b (cr + c.length + 1) (cw + c.length + 1) (c :: st)
      ∧ b.drop (cr + c.length + 1) = r := by
  obtain ⟨s1, s2, s3, s4, s5⟩ := hs
  obtain ⟨p1, p2, p3, p4⟩ := (is_plain_iff c).1 hc
  have hlen := length_of_drop_eq buf _ cr hd s2
  simp only [List.length_append, List.length_cons] at hlen
  have hcomp : component_at buf cr = c :=
    component_at_of_drop buf c _ cr hd p2 (Or.inr rfl)
  have hnext : charAt buf (cr + c.length + 1) ≠ '/' := by
    have := charAt_of_drop buf _ cr (c.length + 1) hd
    rw [charAt_append_right _ _ _ (by omega)] at this
    rw [show cr + c.length + 1 = cr + (c.length + 1) by omega, this,
      show c.length + 1 - c.length = 1 by omega, charAt_cons_succ]
    cases r with
    | nil =>
      rw [charAt_nil]
      exact NUL_ne_slash
    | cons y ys =>
      rw [charAt_cons_zero]
      intro e
      exact hr (by rw [e]; rfl)
  have hstep : normalize_step buf cr cw =
      ((copied buf cr cw).set (cw + c.length) '/', cr + c.length + 1, cw + c.length + 1) := by
    unfold normalize_step
    have n1 : ¬ (charAt buf cr = '.' ∧ cr + 1 ≠ buf.length ∧ charAt buf (cr + 1) = dirsep) :=
      fun ht => p3 (dot_test buf c _ cr hd p1 p2 ht)
    have n2 : ¬ (charAt buf cr = '.' ∧ cr + 1 ≠ buf.length ∧ charAt buf (cr + 1) = '.'
        ∧ cr + 2 ≠ buf.length ∧ charAt buf (cr + 2) = dirsep) :=
      fun ht => p4 (dotdot_test buf c _ cr hd p1 p2 (Or.inr rfl) ht).1
    rw [if_neg n1, if_neg n2, copy_step_eq buf cr cw s1 s2, hcomp,
      if_pos (by omega), if_neg hnext]
  have htake := take_copied_slash buf cr cw s1 s2 (by rw [hcomp]; omega)
  rw [hcomp] at htake
  obtain ⟨hclen, _, _⟩ := copied_facts buf cr cw s1 s2
  refine ⟨_, loop_from_step_eq buf cr cw s1 (by omega) _ _ _ hstep, ?_, ?_⟩
  · refine ⟨by omega, ?_, ?_, ?_, ?_⟩
    · rw [List.length_set, hclen]
      omega
    · rw [htake, s3, written_cons]
      simp
    · intro x hx
      rcases List.mem_cons.1 hx with e | e
      · rw [e]; exact hc
      · exact s4 x e
    · intro h0
      cases h0
  · rw [drop_set_of_lt _ _ _ _ (by omega), copied_drop buf cr cw _ s1 s2 (by rw [hcomp]; omega)]
    rw [show cr + c.length + 1 = cr + (c.length + 1) by omega, ← List.drop_drop, hd]
    rw [show c.length + 1 = (c ++ ['/']).length by simp]
    rw [show c ++ '/' :: r = (c ++ ['/']) ++ r by simp, List.drop_left]

theorem abs_step_last (buf : Str) (cr cw : Nat) (st : List Str) (c : Str)
    (hs : abs_state buf cr cw st) (hc : c ≠ []) (hns : '/' ∉ c) (hd : buf.drop cr = c) :
    (loop_from buf cr cw).1.take (loop_from buf cr cw).2 = '/' :: written st ++ c := by
  obtain ⟨s1, s2, s3, s4, s5⟩ := hs
  have hlen := length_of_drop_eq buf _ cr hd s2
  have hcl : 1 ≤ c.length := List.length_pos.2 hc
  have hd2 : buf.drop cr = c ++ [] := by rw [hd, List.append_nil]
  have hcomp : component_at buf cr = c := component_at_of_drop buf c [] cr hd2 hns (Or.inl rfl)
  have hstep : normalize_step buf cr cw = (copied buf cr cw, cr + c.length, cw + c.length) := by
    unfold normalize_step
    have n1 : ¬ (charAt buf cr = '.' ∧ cr + 1 ≠ buf.length ∧ charAt buf (cr + 1) = dirsep) := by
      intro ht
      have := lt_of_charAt_slash buf (cr + 1) (by simpa [dirsep] using ht.2.2)
      have e := dot_test buf c [] cr hd2 hc hns ht
      rw [e] at hlen
      simp at hlen
      omega
    have n2 : ¬ (charAt buf cr = '.' ∧ cr + 1 ≠ buf.length ∧ charAt buf (cr + 1) = '.'
        ∧ cr + 2 ≠ buf.length ∧ charAt buf (cr + 2) = dirsep) :=
      fun ht => (dotdot_test buf c [] cr hd2 hc hns (Or.inl rfl) ht).2 rfl
    rw [if_neg n1, if_neg n2, copy_step_eq buf cr cw s1 s2, hcomp]
    rw [if_neg (by omega)]
  obtain ⟨hclen, htake, _⟩ := copied_facts buf cr cw s1 s2
  rw [loop_from_step_eq buf cr cw s1 (by omega) _ _ _ hstep,
    loop_from_end _ _ _ (by rw [hclen]; omega)]
  simp only
  rw [← hcomp, htake, s3]

/-- At the root a `".."` component changes nothing. -/
theorem abs_step_dotdot_root (buf : Str) (cr cw : Nat) (r : Str)
    (hs : abs_state buf cr cw []) (hd : buf.drop cr = ['.', '.'] ++ '/' :: r) :
    loop_from buf cr cw = loop_from buf (cr + 3) cw
      ∧ abs_state buf (cr + 3) cw [] ∧ buf.drop (cr + 3) = r := by
  obtain ⟨s1, s2, s3, s4, s5⟩ := hs
  obtain ⟨hns, hlen, hdrop⟩ := normalize_step_dotdot buf cr cw r hd s2
  have hcw : cw = 1 := by
    have := length_of_take_eq buf _ cw s3 (by omega)
    rw [written_nil] at this
    exact this.symm
  subst hcw
  have hsep := last_sep_before_small buf 1 (by omega)
  have h0 : charAt buf 0 = '/' := by
    rw [charAt_of_take_eq buf _ 1 0 s3 (by omega)]
    rfl
  have hstep : normalize_step buf cr 1 = (buf, cr + 3, 0 + 1) := by
    rw [hns, dotdot_step_eq buf cr 1 0 hsep, if_pos ⟨h0, s5 rfl⟩]
  exact ⟨loop_from_step_eq buf cr 1 s1 (by omega) _ _ _ hstep,
    ⟨by omega, by omega, s3, s4, s5⟩, hdrop⟩

/-- Below the root a `".."` component removes the name on top. -/
theorem abs_step_dotdot_pop (buf : Str) (cr cw : Nat) (t : Str) (rest : List Str) (r : Str)
    (hs : abs_state buf cr cw (t :: rest)) (hd : buf.drop cr = ['.', '.'] ++ '/' :: r) :
    ∃ w, loop_from buf cr cw = loop_from buf (cr + 3) w
      ∧ abs_state buf (cr + 3) w rest ∧ buf.drop (cr + 3) = r := by
  obtain ⟨s1, s2, s3, s4, s5⟩ := hs
  obtain ⟨hns, hlen, hdrop⟩ := normalize_step_dotdot buf cr cw r hd s2
  obtain ⟨t1, t2, _, t4⟩ := (is_plain_iff t).1 (s4 t (List.mem_cons_self _ _))
  have hW : buf.take cw = ('/' :: written rest) ++ (t ++ ['/']) := by
    rw [s3, written_cons]
    simp
  have hcwl := length_of_take_eq buf _ cw hW (by omega)
  simp only [List.length_append, List.length_cons, List.length_nil] at hcwl
  have ha := root_written_getLast rest
  have hsep := last_sep_before_written buf ('/' :: written rest) t cw hW (by omega) t1 t2
    (Or.inr ha)
  obtain ⟨a1, a2⟩ := charAt_last_of_getLast _ ha
  simp only [List.length_cons] at hsep a1 a2
  rw [show (written rest).length + 1 - 1 = (written rest).length by omega] at hsep a2
  have hsl : charAt buf (written rest).length = '/' := by
    rw [charAt_of_take_eq buf _ cw _ hW (by omega), charAt_append_left _ _ _ (by simp)]
    exact a2
  have hq : strncmp_eq buf (written rest).length ['/', '.', '.', '/'] = false := by
    cases hq : strncmp_eq buf (written rest).length ['/', '.', '.', '/'] with
    | false => rfl
    | true =>
      rw [strncmp_eq_four] at hq
      obtain ⟨_, q0, q1, q2⟩ := hq
      have := top_is_parent buf ('/' :: written rest) t cw hW (by omega) t1 t2
        (by simpa [Nat.add_assoc] using And.intro q0 (And.intro q1 q2))
      exact absurd this t4
  have hstep : normalize_step buf cr cw = (buf, cr + 3, (written rest).length + 1) := by
    rw [hns, dotdot_step_eq buf cr cw _ hsep, if_pos ⟨hsl, hq⟩]
  refine ⟨_, loop_from_step_eq buf cr cw s1 (by omega) _ _ _ hstep, ?_, hdrop⟩
  refine ⟨by omega, by omega, ?_, fun x hx => s4 x (List.mem_cons_of_mem _ hx), ?_⟩
  · have := take_of_take_eq_append buf _ _ cw hW (by omega)
    simpa using this
  · intro hrest
    subst hrest
    simpa [written] using hq

theorem abs_step_component (buf : Str) (cr cw : Nat) (st : List Str) (c r : Str)
    (hs : abs_state buf cr cw st) (hc : is_component c = true)
    (hd : buf.drop cr = c ++ '/' :: r) (hr : r.head? ≠ some '/') :
    ∃ b cr1 w, loop_from buf cr cw = loop_from b cr1 w
      ∧ abs_state b cr1 w (push_absolute st c) ∧ b.drop cr1 = r := by
  rcases is_component_cases c hc with h | h | h
  · obtain ⟨b, h1, h2, h3⟩ := abs_step_plain buf cr cw st c r hs h hd hr
    obtain ⟨_, _, p3, p4⟩ := (is_plain_iff c).1 h
    refine ⟨b, _, _, h1, ?_, h3⟩
    simpa [push_absolute, p3, p4] using h2
  · subst h
    obtain ⟨h1, h2, h3⟩ := abs_step_dot buf cr cw st r hs hd
    exact ⟨buf, _, _, h1, by simpa [push_absolute] using h2, h3⟩
  · subst h
    cases st with
    | nil =>
      obtain ⟨h1, h2, h3⟩ := abs_step_dotdot_root buf cr cw r hs hd
      exact ⟨buf, _, _, h1, by simpa [push_absolute] using h2, h3⟩
    | cons t rest =>
      obtain ⟨w, h1, h2, h3⟩ := abs_step_dotdot_pop buf cr cw t rest r hs hd
      exact ⟨buf, _, w, h1, by simpa [push_absolute] using h2, h3⟩

theorem abs_run (comps : List Str) :
    ∀ (buf : Str) (cr cw : Nat) (st : List Str) (r : Str),
      (∀ c ∈ comps, is_component c = true) → abs_state buf cr cw st →
      buf.drop cr = slashed comps ++ r → r.head? ≠ some '/' →
      ∃ b cr1 w, loop_from buf cr cw = loop_from b cr1 w
        ∧ abs_state b cr1 w (comps.foldl push_absolute st) ∧ b.drop cr1 = r := by
  induction comps with
  | nil =>
    intro buf cr cw st r _ hs hd _
    exact ⟨buf, cr, cw, rfl, hs, hd⟩
  | cons c cs ih =>
    intro buf cr cw st r hc hs hd hr
    have hd2 : buf.drop cr = c ++ '/' :: (slashed cs ++ r) := by
      rw [hd, slashed]
      simp
    obtain ⟨b1, cr1, w1, e1, s1, d1⟩ := abs_step_component buf cr cw st c _ hs
      (hc c (List.mem_cons_self _ _)) hd2
      (head?_slashed_append cs r (fun x hx => hc x (List.mem_cons_of_mem _ hx)) hr)
    obtain ⟨b2, cr2, w2, e2, s2, d2⟩ := ih b1 cr1 w1 (push_absolute st c) r
      (fun x hx => hc x (List.mem_cons_of_mem _ hx)) s1 d1 hr
    exact ⟨b2, cr2, w2, e1.trans e2, s2, d2⟩

/-- The result of the loop run from a state between components of an
absolute path. -/
theorem abs_result (buf : Str) (cr cw : Nat) (st : List Str) (init : List Str) (last : Str)
    (hs : abs_state buf cr cw st) (hinit : ∀ c ∈ init, is_component c = true)
    (hl : '/' ∉ last) (hd : buf.drop cr = slashed init ++ last) :
    strip_slash ((loop_from buf cr cw).1.take (loop_from buf cr cw).2)
      = strip_slash ('/' :: written (init.foldl push_absolute st) ++ last) := by
  have hhead : last.head? ≠ some '/' := by
    have := head?_no_slash last hl
    intro e
    rw [e] at this
    simp at this
  obtain ⟨b, cr1, w, e, s, d⟩ := abs_run init buf cr cw st last hinit hs hd hhead
  rw [e]
  by_cases hne : last = []
  · subst hne
    obtain ⟨s1, s2, s3, s4, s5⟩ := s
    have hend : cr1 = b.length := by
      have := length_of_drop_eq b _ cr1 d s2
      simpa using this
    rw [loop_from_end b cr1 w hend]
    simp only [List.append_nil]
    rw [s3]
  · rw [abs_step_last b cr1 w _ last s hne hl d]

end Mkdeps

namespace Mkdeps

theorem has_double_slash_tail (c : Char) (rest : Str) (h : has_double_slash (c :: rest) = false) :
    has_double_slash rest = false := by
  simp only [has_double_slash, Bool.or_eq_false_iff] at h
  exact h.2

theorem head?_after_slash (q : Str) (h : has_double_slash ('/' :: q) = false) :
    q.head? ≠ some '/' := by
  intro e
  cases q with
  | nil => simp at e
  | cons y ys =>
    simp only [List.head?_cons, Option.some.injEq] at e
    subst e
    simp [has_double_slash] at h

/-- The first iteration on an absolute path copies the leading separator. -/
theorem abs_start (q : Str) (hq : q.head? ≠ some '/') :
    loop_from ('/' :: q) 0 0 = loop_from ('/' :: q) 1 1 := by
  have hc0 : charAt ('/' :: q) 0 = '/' := charAt_cons_zero _ _
  have hcomp : component_at ('/' :: q) 0 = [] := component_at_slash _ 0 hc0
  have hnext : charAt ('/' :: q) (0 + 0 + 1) ≠ '/' := by
    rw [show 0 + 0 + 1 = 0 + 1 from rfl, charAt_cons_succ]
    cases q with
    | nil =>
      rw [charAt_nil]
      exact NUL_ne_slash
    | cons y ys =>
      rw [charAt_cons_zero]
      intro e
      exact hq (by rw [e]; rfl)
  have hstep : normalize_step ('/' :: q) 0 0 = ('/' :: q, 1, 1) := by
    unfold normalize_step
    have n1 : ¬ (charAt ('/' :: q) 0 = '.' ∧ 0 + 1 ≠ ('/' :: q).length
        ∧ charAt ('/' :: q) (0 + 1) = dirsep) := by
      rw [hc0]
      intro h
      exact absurd h.1 (by decide)
    have n2 : ¬ (charAt ('/' :: q) 0 = '.' ∧ 0 + 1 ≠ ('/' :: q).length
        ∧ charAt ('/' :: q) (0 + 1) = '.' ∧ 0 + 2 ≠ ('/' :: q).length
        ∧ charAt ('/' :: q) (0 + 2) = dirsep) := by
      rw [hc0]
      intro h
      exact absurd h.1 (by decide)
    rw [if_neg n1, if_neg n2, copy_step_eq _ 0 0 (Nat.le_refl _) (Nat.zero_le _), hcomp]
    simp only [List.length_nil, Nat.add_zero]
    rw [if_pos (by simp), if_neg (by simpa using hnext)]
    simp [copied, hcomp]
  exact loop_from_step_eq _ 0 0 (Nat.le_refl _) (by simp) _ _ _ hstep

/-- An absolute path whose first component is not `".."` does not start with
`"/../"`. -/
theorem abs_no_parent (init : List Str) (last : Str) (hl : '/' ∉ last)
    (hinit : ∀ c ∈ init, is_component c = true) (h0 : init.head? ≠ some ['.', '.']) :
    strncmp_eq ('/' :: (slashed init ++ last)) 0 ['/', '.', '.', '/'] = false := by
  cases hq : strncmp_eq ('/' :: (slashed init ++ last)) 0 ['/', '.', '.', '/'] with
  | false => rfl
  | true =>
    rw [strncmp_eq_four] at hq
    obtain ⟨_, q0, q1, q2⟩ := hq
    simp only [Nat.zero_add, charAt_cons_succ] at q0 q1 q2
    cases init with
    | nil =>
      simp only [slashed, List.nil_append] at q2
      exact absurd q2 (charAt_no_slash last 2 hl)
    | cons c cs =>
      obtain ⟨c1, c2⟩ := (is_component_iff c).1 (hinit c (List.mem_cons_self _ _))
      have hW : (slashed (c :: cs) ++ last).take (c.length + 1) = [] ++ (c ++ ['/']) := by
        have : slashed (c :: cs) ++ last = (c ++ ['/']) ++ (slashed cs ++ last) := by
          simp [slashed]
        rw [this, List.nil_append]
        exact List.take_left' (by simp)
      have hlen : c.length + 1 ≤ (slashed (c :: cs) ++ last).length := by
        simp [slashed]
      have := top_is_parent _ [] c (c.length + 1) hW hlen c1 c2 ⟨q0, q1, q2⟩
      exact absurd (by rw [this]; rfl) h0

/-- The result on an absolute path whose first component is not `".."`. -/
theorem abs_normalize (init : List Str) (last : Str)
    (hinit : ∀ c ∈ init, is_component c = true) (hl : '/' ∉ last)
    (h0 : strncmp_eq ('/' :: (slashed init ++ last)) 0 ['/', '.', '.', '/'] = false) :
    normalize_path ('/' :: (slashed init ++ last))
      = strip_slash ('/' :: written (init.foldl push_absolute []) ++ last) := by
  have hhead : last.head? ≠ some '/' := by
    have := head?_no_slash last hl
    intro e
    rw [e] at this
    simp at this
  have hq := head?_slashed_append init last hinit hhead
  rw [normalize_path_strip, abs_start _ hq]
  exact abs_result _ 1 1 [] init last
    ⟨Nat.le_refl _, by simp, rfl, by simp, fun _ => h0⟩ hinit hl rfl

theorem foldl_push_absolute_reverse (st : List Str) (h : ∀ c ∈ st, is_plain c = true) :
    st.reverse.foldl push_absolute [] = st := by
  induction st with
  | nil => rfl
  | cons t rest ih =>
    rw [List.reverse_cons, List.foldl_append, List.foldl_cons, List.foldl_nil,
      ih (fun x hx => h x (List.mem_cons_of_mem _ hx))]
    obtain ⟨_, _, p3, p4⟩ := (is_plain_iff t).1 (h t (List.mem_cons_self _ _))
    simp [push_absolute, p3, p4]

theorem all_plain_foldl (comps : List Str) (st : List Str)
    (hs : ∀ c ∈ st, is_plain c = true) (hc : ∀ c ∈ comps, is_component c = true) :
    ∀ c ∈ comps.foldl push_absolute st, is_plain c = true := by
  induction comps generalizing st with
  | nil => exact hs
  | cons c cs ih =>
    rw [List.foldl_cons]
    apply ih _ _ (fun x hx => hc x (List.mem_cons_of_mem _ hx))
    intro x hx
    unfold push_absolute at hx
    split at hx
    · exact hs x hx
    · split at hx
      · exact hs x (List.mem_of_mem_tail hx)
      · rename_i n1 n2
        rcases List.mem_cons.1 hx with e | e
        · rw [e]
          rcases is_component_cases c (hc c (List.mem_cons_self _ _)) with h | h | h
          · exact h
          · exact absurd h n1
          · exact absurd h n2
        · exact hs x e

theorem all_plain_components (st : List Str) (h : ∀ c ∈ st, is_plain c = true) :
    (∀ c ∈ st.reverse, is_component c = true) ∧ st.reverse.head? ≠ some ['.', '.'] := by
  constructor
  · intro c hc
    have := h c (List.mem_reverse.1 hc)
    simp [is_component, this]
  · intro e
    have hm : ['.', '.'] ∈ st.reverse := List.mem_of_mem_head? e
    have := h _ (List.mem_reverse.1 hm)
    exact absurd this (by decide)

/-- A second pass leaves the result on an absolute path as it is. -/
theorem abs_fixed (st : List Str) (last : Str) (hs : ∀ c ∈ st, is_plain c = true)
    (hl : '/' ∉ last) :
    normalize_path (strip_slash ('/' :: written st ++ last))
      = strip_slash ('/' :: written st ++ last) := by
  by_cases hne : last = []
  · subst hne
    cases st with
    | nil => decide
    | cons t rest =>
      obtain ⟨t1, t2, _, _⟩ := (is_plain_iff t).1 (hs t (List.mem_cons_self _ _))
      have hrest : ∀ c ∈ rest, is_plain c = true := fun x hx => hs x (List.mem_cons_of_mem _ hx)
      obtain ⟨hc, hh⟩ := all_plain_components rest hrest
      have hform : strip_slash ('/' :: written (t :: rest) ++ [])
          = '/' :: (slashed rest.reverse ++ t) := by
        rw [List.append_nil]
        unfold strip_slash
        rw [if_pos (root_written_getLast (t :: rest)), written_cons]
        have : '/' :: (written rest ++ (t ++ ['/'])) = ('/' :: (written rest ++ t)) ++ ['/'] := by
          simp
        rw [this, List.dropLast_concat]
        rfl
      rw [hform, abs_normalize rest.reverse t hc t2 (abs_no_parent _ _ t2 hc hh),
        foldl_push_absolute_reverse rest hrest]
      exact strip_slash_append_last ('/' :: written rest) t t1 t2
  · obtain ⟨hc, hh⟩ := all_plain_components st hs
    have hform : strip_slash ('/' :: written st ++ last) = '/' :: (slashed st.reverse ++ last) :=
      strip_slash_append_last ('/' :: written st) last hne hl
    rw [hform, abs_normalize st.reverse last hc hl (abs_no_parent _ _ hl hc hh),
      foldl_push_absolute_reverse st hs]
    exact hform

theorem starts_with_parent (q : Str)
    (h : charAt q 0 = '.' ∧ charAt q 1 = '.' ∧ charAt q 2 = '/') :
    ∃ r, q = ['.', '.'] ++ '/' :: r := by
  obtain ⟨h0, h1, h2⟩ := h
  cases q with
  | nil =>
    rw [charAt_nil] at h0
    exact absurd h0 NUL_ne_dot
  | cons a q1 =>
    cases q1 with
    | nil =>
      simp only [charAt_cons_succ, charAt_nil] at h1
      exact absurd h1 NUL_ne_dot
    | cons b q2 =>
      cases q2 with
      | nil =>
        simp only [charAt_cons_succ, charAt_nil] at h2
        exact absurd h2 NUL_ne_slash
      | cons c q3 =>
        simp only [charAt_cons_succ, charAt_cons_zero] at h0 h1 h2
        subst h0 h1 h2
        exact ⟨q3, rfl⟩

/-- An absolute path that starts with `"/../"` is normalized as the relative
path after that prefix. -/
theorem abs_reset (r : Str) (init : List Str) (last : Str)
    (hinit : ∀ c ∈ init, is_component c = true) (hl : '/' ∉ last)
    (hr : r = slashed init ++ last) :
    normalize_path ('/' :: (['.', '.'] ++ '/' :: r))
      = strip_slash (written (init.foldl push_component []) ++ last) := by
  have hq : (['.', '.'] ++ '/' :: r).head? ≠ some '/' := by simp
  have hd : ('/' :: (['.', '.'] ++ '/' :: r)).drop 1 = ['.', '.'] ++ '/' :: r := rfl
  obtain ⟨hns, hlen, hdrop⟩ := normalize_step_dotdot _ 1 1 r hd (by simp)
  have hsep := last_sep_before_small ('/' :: (['.', '.'] ++ '/' :: r)) 1 (by omega)
  have htrue : strncmp_eq ('/' :: (['.', '.'] ++ '/' :: r)) 0 ['/', '.', '.', '/'] = true := by
    rfl
  have hstep : normalize_step ('/' :: (['.', '.'] ++ '/' :: r)) 1 1
      = ('/' :: (['.', '.'] ++ '/' :: r), 1 + 3, 0) := by
    rw [hns, dotdot_step_eq _ 1 1 0 hsep, if_neg (by rw [htrue]; simp), if_pos]
    refine ⟨by omega, rfl, rfl⟩
  rw [normalize_path_strip, abs_start _ hq,
    loop_from_step_eq _ 1 1 (Nat.le_refl _) (by simp) _ _ _ hstep]
  exact rel_result _ (1 + 3) 0 [] init last
    ⟨by omega, hlen, rfl, rfl, fun _ => Or.inr htrue⟩ hinit hl (by rw [hdrop, hr])

/-- C3, as amended: on every path without two consecutive separators a
second pass of `normalize_path` changes nothing. -/
theorem normalize_path_idempotent (p : Str) (h : has_double_slash p = false) :
    normalize_path (normalize_path p) = normalize_path p := by
  by_cases hh : p.head? = some '/'
  · cases p with
    | nil => simp at hh
    | cons c q =>
      simp only [List.head?_cons, Option.some.injEq] at hh
      subst hh
      have hq := head?_after_slash q h
      cases hs : strncmp_eq ('/' :: q) 0 ['/', '.', '.', '/'] with
      | false =>
        obtain ⟨init, last, a1, a2, a3⟩ := (path_components _ h).2 q rfl
        subst a3
        rw [abs_normalize init last a1 a2 hs]
        exact abs_fixed _ last (all_plain_foldl init [] (by simp) a1) a2
      | true =>
        rw [strncmp_eq_four] at hs
        obtain ⟨_, q0, q1, q2⟩ := hs
        simp only [Nat.zero_add, charAt_cons_succ] at q0 q1 q2
        obtain ⟨r, hr⟩ := starts_with_parent q ⟨q0, q1, q2⟩
        subst hr
        have h4 : has_double_slash ('/' :: r) = false :=
          has_double_slash_tail _ _ (has_double_slash_tail _ _ (has_double_slash_tail _ _ h))
        obtain ⟨init, last, a1, a2, a3⟩ := (path_components _ h4).2 r rfl
        rw [abs_reset r init last a1 a2 a3]
        exact rel_fixed _ last (stack_ok_foldl init [] rfl a1) a2
  · exact normalize_rel_idempotent p h hh

/-- Witness of C3: `"/x/../a/./b/"`, which has no double separator. -/
theorem normalize_path_idempotent_witness :
    normalize_path (normalize_path "/x/../a/./b/".toList) = normalize_path "/x/../a/./b/".toList :=
  normalize_path_idempotent "/x/../a/./b/".toList (by decide)

/-- C3, as stated, fails: `"a///"` gives `"a/"`, and a second pass gives `"a"`. -/
theorem normalize_path_second_pass :
    normalize_path "a///".toList = "a/".toList
      ∧ normalize_path (normalize_path "a///".toList) = "a".toList := by
  decide

end Mkdeps

namespace Mkdeps

/-! ### The order of names -/

theorem str_lt_irrefl (a : Str) : str_lt a a = false := by
  induction a with
  | nil => rfl
  | cons c cs ih => simp [str_lt, ih]

theorem str_lt_trans (a b c : Str) (h1 : str_lt a b = true) (h2 : str_lt b c = true) :
    str_lt a c = true := by
  induction a generalizing b c with
  | nil =>
    cases b with
    | nil => simp [str_lt] at h1
    | cons y ys =>
      cases c with
      | nil => simp [str_lt] at h2
      | cons z zs => simp [str_lt]
  | cons x xs ih =>
    cases b with
    | nil => simp [str_lt] at h1
    | cons y ys =>
      cases c with
      | nil => simp [str_lt] at h2
      | cons z zs =>
        simp only [str_lt, Bool.or_eq_true, Bool.and_eq_true, decide_eq_true_eq] at h1 h2 ⊢
        rcases h1 with h1 | ⟨h1, h1r⟩
        · rcases h2 with h2 | ⟨h2, _⟩
          · exact Or.inl (lt_trans h1 h2)
          · exact Or.inl (h2 ▸ h1)
        · rcases h2 with h2 | ⟨h2, h2r⟩
          · exact Or.inl (h1 ▸ h2)
          · exact Or.inr ⟨h1.trans h2, ih ys zs h1r h2r⟩

theorem str_lt_asymm (a b : Str) (h : str_lt a b = true) : str_lt b a = false := by
  cases hb : str_lt b a with
  | false => rfl
  | true =>
    have := str_lt_trans a b a h hb
    rw [str_lt_irrefl] at this
    cases this

theorem str_lt_total (a b : Str) (h1 : str_lt a b = false) (h2 : str_lt b a = false) :
    a = b := by
  induction a generalizing b with
  | nil =>
    cases b with
    | nil => rfl
    | cons y ys => simp [str_lt] at h1
  | cons x xs ih =>
    cases b with
    | nil => simp [str_lt] at h2
    | cons y ys =>
      simp only [str_lt, Bool.or_eq_false_iff, Bool.and_eq_false_imp, decide_eq_false_iff_not,
        decide_eq_true_eq] at h1 h2
      have hxy : x = y := le_antisymm (not_lt.mp h2.1) (not_lt.mp h1.1)
      rw [hxy, ih ys (h1.2 hxy) (h2.2 hxy.symm)]

/-! ### The set of files -/

theorem set_insert_mem (src : Source_file) (l : List Source_file) (x : Source_file)
    (h : x ∈ set_insert src l) : x = src ∨ x ∈ l := by
  induction l with
  | nil => simp [set_insert] at h; exact Or.inl h
  | cons f fs ih =>
    simp only [set_insert] at h
    split at h
    · simp only [List.mem_cons] at h ⊢
      exact h
    · split at h
      · simp only [List.mem_cons] at h ⊢
        rcases h with h | h
        · exact Or.inr (Or.inl h)
        · rcases ih h with h | h
          · exact Or.inl h
          · exact Or.inr (Or.inr h)
      · exact Or.inr h

theorem set_insert_keeps (src : Source_file) (l : List Source_file) (x : Source_file)
    (h : x ∈ l) : x ∈ set_insert src l := by
  induction l with
  | nil => cases h
  | cons f fs ih =>
    simp only [set_insert]
    split
    · exact List.mem_cons_of_mem _ h
    · split
      · rcases List.mem_cons.mp h with h | h
        · rw [h]; exact List.mem_cons_self _ _
        · exact List.mem_cons_of_mem _ (ih h)
      · exact h

theorem set_insert_sorted (src : Source_file) (l : List Source_file)
    (h : l.Pairwise (fun a b => str_lt a.name b.name = true)) :
    (set_insert src l).Pairwise (fun a b => str_lt a.name b.name = true) := by
  induction l with
  | nil => simp [set_insert]
  | cons f fs ih =>
    have hf := List.pairwise_cons.mp h
    simp only [set_insert]
    split
    · rename_i hlt
      refine List.pairwise_cons.mpr ⟨?_, h⟩
      intro y hy
      rcases List.mem_cons.mp hy with hy | hy
      · rw [hy]; exact hlt
      · exact str_lt_trans _ _ _ hlt (hf.1 y hy)
    · split
      · rename_i hlt
        refine List.pairwise_cons.mpr ⟨?_, ih hf.2⟩
        intro y hy
        rcases set_insert_mem src fs y hy with hy | hy
        · rw [hy]; exact hlt
        · exact hf.1 y hy
      · exact h

/-- In a set without a file of this name the file is put in. -/
theorem set_insert_new (src : Source_file) (l : List Source_file)
    (h : ∀ f ∈ l, f.name ≠ src.name) : src ∈ set_insert src l := by
  induction l with
  | nil => simp [set_insert]
  | cons f fs ih =>
    simp only [set_insert]
    split
    · exact List.mem_cons_self _ _
    · rename_i h1
      split
      · exact List.mem_cons_of_mem _ (ih (fun g hg => h g (List.mem_cons_of_mem _ hg)))
      · rename_i h2
        exact absurd (str_lt_total _ _ (by simpa using h2) (by simpa using h1))
          (h f (List.mem_cons_self _ _))

/-- A file whose name comes after all the names of the set goes to the end. -/
theorem set_insert_last (src : Source_file) (l : List Source_file)
    (h : ∀ f ∈ l, str_lt f.name src.name = true) : set_insert src l = l ++ [src] := by
  induction l with
  | nil => rfl
  | cons f fs ih =>
    have hlt := h f (List.mem_cons_self _ _)
    simp only [set_insert]
    rw [str_lt_asymm _ _ hlt, hlt]
    simp only [Bool.false_eq_true, if_false, if_true]
    rw [ih (fun g hg => h g (List.mem_cons_of_mem _ hg))]
    rfl

end Mkdeps

namespace Mkdeps

/-! ### The function `add_deps` -/

theorem add_deps_loop_mem (filter : List Str) (src : List Str) (c : Bool) (t : List Str)
    (m : Str) :
    m ∈ (add_deps_loop filter src c t).2 ↔
      m ∈ t ∨ (m ∈ filter ∧ ∃ i ∈ src, module_of i = m) := by
  induction src generalizing c t with
  | nil => simp [add_deps_loop]
  | cons i rest ih =>
    simp only [add_deps_loop]
    have hm : get_base_name (c_str (replace_extension i [])) = module_of i := rfl
    rw [hm]
    split
    · rename_i hf
      split
      · rename_i ht
        rw [ih]
        constructor
        · rintro (h | ⟨h1, j, hj, hjm⟩)
          · exact Or.inl h
          · exact Or.inr ⟨h1, j, List.mem_cons_of_mem _ hj, hjm⟩
        · rintro (h | ⟨h1, j, hj, hjm⟩)
          · exact Or.inl h
          · rcases List.mem_cons.mp hj with hj | hj
            · subst hj; rw [← hjm]; exact Or.inl ht
            · exact Or.inr ⟨h1, j, hj, hjm⟩
      · rw [ih]
        simp only [List.mem_insert_iff]
        constructor
        · rintro ((h | h) | ⟨h1, j, hj, hjm⟩)
          · exact Or.inr ⟨h ▸ hf, i, List.mem_cons_self _ _, h.symm⟩
          · exact Or.inl h
          · exact Or.inr ⟨h1, j, List.mem_cons_of_mem _ hj, hjm⟩
        · rintro (h | ⟨h1, j, hj, hjm⟩)
          · exact Or.inl (Or.inr h)
          · rcases List.mem_cons.mp hj with hj | hj
            · subst hj; exact Or.inl (Or.inl hjm.symm)
            · exact Or.inr ⟨h1, j, hj, hjm⟩
    · rename_i hf
      rw [ih]
      constructor
      · rintro (h | ⟨h1, j, hj, hjm⟩)
        · exact Or.inl h
        · exact Or.inr ⟨h1, j, List.mem_cons_of_mem _ hj, hjm⟩
      · rintro (h | ⟨h1, j, hj, hjm⟩)
        · exact Or.inl h
        · rcases List.mem_cons.mp hj with hj | hj
          · subst hj; rw [hjm] at hf; exact absurd h1 hf
          · exact Or.inr ⟨h1, j, hj, hjm⟩

theorem add_deps_loop_flag_true (filter : List Str) (src : List Str) (t : List Str) :
    (add_deps_loop filter src true t).1 = true := by
  induction src generalizing t with
  | nil => rfl
  | cons i rest ih =>
    simp only [add_deps_loop]
    split
    · split
      · exact ih t
      · exact ih _
    · exact ih t

/-- When `add_deps` returns false the set is as it was. -/
theorem add_deps_loop_false (filter : List Str) (src : List Str) (c : Bool) (t : List Str)
    (h : (add_deps_loop filter src c t).1 = false) :
    c = false ∧ (add_deps_loop filter src c t).2 = t := by
  induction src generalizing c t with
  | nil => exact ⟨h, rfl⟩
  | cons i rest ih =>
    simp only [add_deps_loop] at h ⊢
    split
    · rename_i hf
      simp only [hf, if_true] at h
      split
      · rename_i ht
        simp only [ht, if_true] at h
        exact ih c t h
      · rename_i ht
        simp only [ht, if_false] at h
        rw [add_deps_loop_flag_true] at h
        cases h
    · rename_i hf
      simp only [hf, if_false] at h
      exact ih c t h

/-- When `add_deps` returns true the set has a new member. -/
theorem add_deps_loop_true (filter : List Str) (src : List Str) (c : Bool) (t : List Str)
    (h : (add_deps_loop filter src c t).1 = true) :
    c = true ∨ ∃ m ∈ (add_deps_loop filter src c t).2, m ∉ t := by
  induction src generalizing c t with
  | nil => exact Or.inl h
  | cons i rest ih =>
    simp only [add_deps_loop] at h ⊢
    split
    · rename_i hf
      simp only [hf, if_true] at h
      split
      · rename_i ht
        simp only [ht, if_true] at h
        exact ih c t h
      · rename_i ht
        refine Or.inr ⟨get_base_name (c_str (replace_extension i [])), ?_, ht⟩
        rw [add_deps_loop_mem]
        exact Or.inl (List.mem_insert_self _ _)
    · rename_i hf
      simp only [hf, if_false] at h
      exact ih c t h

theorem add_deps_mem (enum : Enumeration) (he : enumerates enum) (t src filter : List Str)
    (m : Str) :
    m ∈ (add_deps enum t src filter).2 ↔
      m ∈ t ∨ (m ∈ filter ∧ ∃ i ∈ src, module_of i = m) := by
  unfold add_deps
  rw [add_deps_loop_mem]
  constructor
  · rintro (h | ⟨h1, j, hj, hjm⟩)
    · exact Or.inl h
    · exact Or.inr ⟨h1, j, (he _ _).mp hj, hjm⟩
  · rintro (h | ⟨h1, j, hj, hjm⟩)
    · exact Or.inl h
    · exact Or.inr ⟨h1, j, (he _ _).mpr hj, hjm⟩

theorem add_deps_false (enum : Enumeration) (t src filter : List Str)
    (h : (add_deps enum t src filter).1 = false) : (add_deps enum t src filter).2 = t :=
  (add_deps_loop_false filter (enum src) false t h).2

theorem add_deps_true (enum : Enumeration) (t src filter : List Str)
    (h : (add_deps enum t src filter).1 = true) :
    ∃ m ∈ (add_deps enum t src filter).2, m ∉ t ∧ m ∈ filter := by
  rcases add_deps_loop_true filter (enum src) false t h with h | ⟨m, hm, hmt⟩
  · cases h
  · refine ⟨m, hm, hmt, ?_⟩
    rcases (add_deps_loop_mem filter (enum src) false t m).mp hm with h | h
    · exact absurd h hmt
    · exact h.1

theorem add_deps_subset (enum : Enumeration) (t src filter : List Str) (m : Str)
    (h : m ∈ t) : m ∈ (add_deps enum t src filter).2 :=
  (add_deps_loop_mem filter (enum src) false t m).mpr (Or.inl h)

/-- A member of the set after `add_deps` was in it or is in `filter`. -/
theorem add_deps_within (enum : Enumeration) (t src filter : List Str) (m : Str)
    (h : m ∈ (add_deps enum t src filter).2) : m ∈ t ∨ m ∈ filter := by
  rcases (add_deps_loop_mem filter (enum src) false t m).mp h with h | h
  · exact Or.inl h
  · exact Or.inr h.1

/-! ### The loops of `compute_mains` -/

theorem match_files_false (enum : Enumeration) (given : List Str) (li : Str)
    (files : List Source_file) (deps : List Str)
    (h : (match_files enum given li files deps).1 = false) :
    (match_files enum given li files deps).2 = deps ∧
      ∀ f ∈ files, get_base_name (c_str li) = f.name →
        (add_deps enum deps f.deps given).1 = false := by
  induction files with
  | nil => exact ⟨rfl, fun f hf => by cases hf⟩
  | cons i rest ih =>
    simp only [match_files] at h ⊢
    split
    · rename_i hn
      simp only [hn, if_true] at h
      cases hr : add_deps enum deps i.deps given with
      | mk b d1 =>
        rw [hr] at h
        cases b with
        | true => cases h
        | false =>
          have hd : d1 = deps := by
            have := add_deps_false enum deps i.deps given (by rw [hr])
            rw [hr] at this
            exact this
          subst hd
          simp only at h ⊢
          refine ⟨(ih h).1, ?_⟩
          intro f hf hfn
          rcases List.mem_cons.mp hf with hf | hf
          · subst hf; rw [hr]
          · exact (ih h).2 f hf hfn
    · rename_i hn
      simp only [hn, if_false] at h
      refine ⟨(ih h).1, ?_⟩
      intro f hf hfn
      rcases List.mem_cons.mp hf with hf | hf
      · subst hf; exact absurd hfn hn
      · exact (ih h).2 f hf hfn

theorem match_files_true (enum : Enumeration) (given : List Str) (li : Str)
    (files : List Source_file) (deps : List Str)
    (h : (match_files enum given li files deps).1 = true) :
    ∃ f ∈ files, get_base_name (c_str li) = f.name ∧
      add_deps enum deps f.deps given = (true, (match_files enum given li files deps).2) := by
  induction files with
  | nil => cases h
  | cons i rest ih =>
    simp only [match_files] at h ⊢
    split
    · rename_i hn
      simp only [hn, if_true] at h
      cases hr : add_deps enum deps i.deps given with
      | mk b d1 =>
        rw [hr] at h
        cases b with
        | true => exact ⟨i, List.mem_cons_self _ _, hn, by rw [hr]⟩
        | false =>
          have hd : d1 = deps := by
            have := add_deps_false enum deps i.deps given (by rw [hr])
            rw [hr] at this
            exact this
          subst hd
          simp only at h ⊢
          obtain ⟨f, hf, hfn, hfa⟩ := ih h
          exact ⟨f, List.mem_cons_of_mem _ hf, hfn, hfa⟩
    · rename_i hn
      simp only [hn, if_false] at h
      obtain ⟨f, hf, hfn, hfa⟩ := ih h
      exact ⟨f, List.mem_cons_of_mem _ hf, hfn, hfa⟩

theorem scan_deps_false (enum : Enumeration) (files : List Source_file) (given : List Str)
    (l : List Str) (deps : List Str)
    (h : (scan_deps enum files given l deps).1 = false) :
    (scan_deps enum files given l deps).2 = deps ∧
      ∀ li ∈ l, ∀ f ∈ files, get_base_name (c_str li) = f.name →
        (add_deps enum deps f.deps given).1 = false := by
  induction l with
  | nil => exact ⟨rfl, fun li hli => by cases hli⟩
  | cons x rest ih =>
    simp only [scan_deps] at h ⊢
    cases hr : match_files enum given x files deps with
    | mk b d1 =>
      rw [hr] at h
      cases b with
      | true => cases h
      | false =>
        have hm := match_files_false enum given x files deps (by rw [hr])
        rw [hr] at hm
        have hd : d1 = deps := hm.1
        subst hd
        simp only at h ⊢
        refine ⟨(ih h).1, ?_⟩
        intro li hli f hf hfn
        rcases List.mem_cons.mp hli with hli | hli
        · subst hli; exact hm.2 f hf hfn
        · exact (ih h).2 li hli f hf hfn

theorem scan_deps_true (enum : Enumeration) (files : List Source_file) (given : List Str)
    (l : List Str) (deps : List Str)
    (h : (scan_deps enum files given l deps).1 = true) :
    ∃ li ∈ l, ∃ f ∈ files, get_base_name (c_str li) = f.name ∧
      add_deps enum deps f.deps given = (true, (scan_deps enum files given l deps).2) := by
  induction l with
  | nil => cases h
  | cons x rest ih =>
    simp only [scan_deps] at h ⊢
    cases hr : match_files enum given x files deps with
    | mk b d1 =>
      rw [hr] at h
      cases b with
      | true =>
        obtain ⟨f, hf, hfn, hfa⟩ := match_files_true enum given x files deps (by rw [hr])
        rw [hr] at hfa
        exact ⟨x, List.mem_cons_self _ _, f, hf, hfn, hfa⟩
      | false =>
        have hm := match_files_false enum given x files deps (by rw [hr])
        rw [hr] at hm
        have hd : d1 = deps := hm.1
        subst hd
        simp only at h ⊢
        obtain ⟨li, hli, f, hf, hfn, hfa⟩ := ih h
        exact ⟨li, List.mem_cons_of_mem _ hli, f, hf, hfn, hfa⟩

end Mkdeps

namespace Mkdeps

/-! ### The number of restarts -/

theorem missing_le (given deps d1 : List Str) (hsub : ∀ m ∈ deps, m ∈ d1) :
    missing given d1 ≤ missing given deps := by
  induction given with
  | nil => exact Nat.le_refl _
  | cons g gs ih =>
    unfold missing at ih ⊢
    by_cases h1 : g ∈ d1
    · by_cases h0 : g ∈ deps
      · simp only [List.filter_cons, h1, h0, not_true_eq_false, decide_False,
          Bool.false_eq_true, if_false]
        exact ih
      · simp only [List.filter_cons, h1, h0, not_true_eq_false, not_false_eq_true, decide_False,
          decide_True, Bool.false_eq_true, if_false, if_true, List.length_cons]
        exact Nat.le_succ_of_le ih
    · have h0 : g ∉ deps := fun h => h1 (hsub g h)
      simp only [List.filter_cons, h1, h0, not_false_eq_true, decide_True, if_true,
        List.length_cons]
      exact Nat.succ_le_succ ih

theorem missing_lt (given deps d1 : List Str) (hsub : ∀ m ∈ deps, m ∈ d1) (m : Str)
    (hm : m ∈ d1) (hn : m ∉ deps) (hg : m ∈ given) :
    missing given d1 < missing given deps := by
  induction given with
  | nil => cases hg
  | cons g gs ih =>
    have hle := missing_le gs deps d1 hsub
    unfold missing at ih hle ⊢
    by_cases h1 : g ∈ d1
    · by_cases h0 : g ∈ deps
      · simp only [List.filter_cons, h1, h0, not_true_eq_false, decide_False,
          Bool.false_eq_true, if_false]
        rcases List.mem_cons.mp hg with hg | hg
        · subst hg; exact absurd h0 hn
        · exact ih hg
      · simp only [List.filter_cons, h1, h0, not_true_eq_false, not_false_eq_true, decide_False,
          decide_True, Bool.false_eq_true, if_false, if_true, List.length_cons]
        exact Nat.lt_succ_of_le hle
    · have h0 : g ∉ deps := fun h => h1 (hsub g h)
      simp only [List.filter_cons, h1, h0, not_false_eq_true, decide_True, if_true,
        List.length_cons]
      rcases List.mem_cons.mp hg with hg | hg
      · subst hg; exact absurd hm h1
      · exact Nat.succ_lt_succ (ih hg)

theorem missing_le_length (given deps : List Str) : missing given deps ≤ given.length :=
  List.length_filter_le _ _

/-- A restart: the set keeps its members, gets a new one, and the new members
are given files. -/
theorem scan_deps_grows (enum : Enumeration) (files : List Source_file) (given : List Str)
    (l : List Str) (deps d1 : List Str)
    (h : scan_deps enum files given l deps = (true, d1)) :
    (∀ m ∈ deps, m ∈ d1) ∧ (∃ m ∈ d1, m ∉ deps) ∧ (∀ m ∈ d1, m ∈ deps ∨ m ∈ given) := by
  obtain ⟨li, _, f, _, _, hfa⟩ := scan_deps_true enum files given l deps (by rw [h])
  rw [h] at hfa
  have h2 : (add_deps enum deps f.deps given).2 = d1 := by rw [hfa]
  refine ⟨?_, ?_, ?_⟩
  · intro m hm
    rw [← h2]
    exact add_deps_subset enum deps f.deps given m hm
  · obtain ⟨m, hm, hmn, _⟩ := add_deps_true enum deps f.deps given (by rw [hfa])
    rw [h2] at hm
    exact ⟨m, hm, hmn⟩
  · intro m hm
    rw [← h2] at hm
    exact add_deps_within enum deps f.deps given m hm

theorem scan_deps_missing (enum : Enumeration) (files : List Source_file) (given : List Str)
    (l : List Str) (deps d1 : List Str)
    (h : scan_deps enum files given l deps = (true, d1)) :
    missing given d1 < missing given deps := by
  obtain ⟨hsub, ⟨m, hm, hmn⟩, hin⟩ := scan_deps_grows enum files given l deps d1 h
  rcases hin m hm with h0 | h0
  · exact absurd h0 hmn
  · exact missing_lt given deps d1 hsub m hm hmn h0

theorem close_entry_succ (enum : Enumeration) (files : List Source_file) (given : List Str)
    (fuel : Nat) (c : Bool) (deps : List Str) :
    close_entry enum files given (fuel + 1) c deps =
      match scan_deps enum files given (enum deps) deps with
      | (true, deps1) => close_entry enum files given fuel true deps1
      | (false, deps1) => some (c, deps1) := rfl

/-- With a bound above the number of missing given files the loop of an entry
comes to its end. -/
theorem close_entry_enough (enum : Enumeration) (files : List Source_file) (given : List Str)
    (fuel : Nat) (c : Bool) (deps : List Str) (h : missing given deps < fuel) :
    ∃ r, close_entry enum files given fuel c deps = some r := by
  induction fuel generalizing c deps with
  | zero => cases h
  | succ n ih =>
    rw [close_entry_succ]
    cases hr : scan_deps enum files given (enum deps) deps with
    | mk b d1 =>
      cases b with
      | true =>
        have := scan_deps_missing enum files given (enum deps) deps d1 hr
        exact ih true d1 (by omega)
      | false => exact ⟨_, rfl⟩

/-- What holds of the set at the label `restart` holds at the end of the loop,
where the set is settled. -/
theorem close_entry_invariant (enum : Enumeration) (files : List Source_file)
    (given : List Str) (Inv : List Str → Prop)
    (hstep : ∀ deps d1, Inv deps →
      scan_deps enum files given (enum deps) deps = (true, d1) → Inv d1)
    (fuel : Nat) (c : Bool) (deps : List Str) (r : Bool × List Str) (h0 : Inv deps)
    (h : close_entry enum files given fuel c deps = some r) :
    Inv r.2 ∧ settled enum files given r.2 := by
  induction fuel generalizing c deps with
  | zero => cases h
  | succ n ih =>
    rw [close_entry_succ] at h
    cases hr : scan_deps enum files given (enum deps) deps with
    | mk b d1 =>
      rw [hr] at h
      cases b with
      | true => exact ih true d1 (hstep deps d1 h0 hr) h
      | false =>
        have hd : d1 = deps := by
          have := (scan_deps_false enum files given (enum deps) deps (by rw [hr])).1
          rw [hr] at this
          exact this
        subst hd
        simp only [Option.some.injEq] at h
        subst h
        exact ⟨h0, hr⟩

theorem close_entry_settled (enum : Enumeration) (files : List Source_file)
    (given : List Str) (fuel : Nat) (c : Bool) (deps : List Str)
    (h : settled enum files given deps) :
    close_entry enum files given (fuel + 1) c deps = some (c, deps) := by
  rw [close_entry_succ]
  unfold settled at h
  rw [h]

/-- The value of `changed` before the loop of an entry only shows in the value
of `changed` after it. -/
theorem close_entry_flag (enum : Enumeration) (files : List Source_file)
    (given : List Str) (fuel : Nat) (c : Bool) (deps : List Str) :
    close_entry enum files given fuel c deps =
      (close_entry enum files given fuel false deps).map (fun r => (c || r.1, r.2)) := by
  cases fuel with
  | zero => rfl
  | succ n =>
    rw [close_entry_succ, close_entry_succ]
    cases hr : scan_deps enum files given (enum deps) deps with
    | mk b d1 =>
      cases b with
      | false => simp
      | true =>
        simp only
        have hkey : ∀ (k : Nat) (d : List Str),
            ∃ r, close_entry enum files given k true d = r ∧
              (∀ x, r = some x → x.1 = true) := by
          intro k
          induction k with
          | zero => intro d; exact ⟨none, rfl, fun x hx => by cases hx⟩
          | succ k ihk =>
            intro d
            rw [close_entry_succ]
            cases hs : scan_deps enum files given (enum d) d with
            | mk b2 d2 =>
              cases b2 with
              | true => exact ihk d2
              | false => exact ⟨_, rfl, fun x hx => by cases hx; rfl⟩
        obtain ⟨r, hr1, hr2⟩ := hkey n d1
        rw [hr1]
        cases r with
        | none => rfl
        | some x =>
          have := hr2 x rfl
          obtain ⟨x1, x2⟩ := x
          simp only at this
          subst this
          simp

theorem closed_set_spec (enum : Enumeration) (files : List Source_file)
    (given : List Str) (fuel : Nat) (c : Bool) (deps : List Str)
    (h : missing given deps < fuel) :
    ∃ c1, close_entry enum files given fuel c deps =
      some (c1, closed_set enum files given fuel deps) := by
  obtain ⟨r, hr⟩ := close_entry_enough enum files given fuel false deps h
  rw [close_entry_flag]
  unfold closed_set
  rw [hr]
  exact ⟨c || r.1, rfl⟩

theorem closed_set_settled (enum : Enumeration) (files : List Source_file)
    (given : List Str) (fuel : Nat) (deps : List Str)
    (h : missing given deps < fuel) :
    settled enum files given (closed_set enum files given fuel deps) := by
  obtain ⟨r, hr⟩ := close_entry_enough enum files given fuel false deps h
  have := close_entry_invariant enum files given (fun _ => True) (fun _ _ _ _ => trivial)
    fuel false deps r trivial hr
  unfold closed_set
  rw [hr]
  exact this.2

theorem closed_set_invariant (enum : Enumeration) (files : List Source_file)
    (given : List Str) (Inv : List Str → Prop)
    (hstep : ∀ deps d1, Inv deps →
      scan_deps enum files given (enum deps) deps = (true, d1) → Inv d1)
    (fuel : Nat) (deps : List Str) (h0 : Inv deps) :
    Inv (closed_set enum files given fuel deps) := by
  unfold closed_set
  cases hr : close_entry enum files given fuel false deps with
  | none => exact h0
  | some r =>
    exact (close_entry_invariant enum files given Inv hstep fuel false deps r h0 hr).1

/-! ### The passes over the entries -/

/-- The entry with its set after the fixed-point loop. -/
theorem pass_mains_spec (enum : Enumeration) (files : List Source_file) (given : List Str)
    (fuel : Nat) (hfuel : given.length < fuel) (mains : List Source_file) (c : Bool) :
    ∃ c1, pass_mains enum files given fuel mains c =
      some (c1, mains.map
        (fun e => { e with deps := closed_set enum files given fuel e.deps })) := by
  induction mains generalizing c with
  | nil => exact ⟨c, rfl⟩
  | cons mi rest ih =>
    obtain ⟨c1, h1⟩ := closed_set_spec enum files given fuel c mi.deps
      (Nat.lt_of_le_of_lt (missing_le_length _ _) hfuel)
    obtain ⟨c2, h2⟩ := ih c1
    refine ⟨c2, ?_⟩
    simp only [pass_mains, h1, h2, List.map_cons]

theorem pass_mains_settled (enum : Enumeration) (files : List Source_file)
    (given : List Str) (fuel : Nat) (mains : List Source_file)
    (h : ∀ e ∈ mains, settled enum files given e.deps) (c : Bool) :
    pass_mains enum files given (fuel + 1) mains c = some (c, mains) := by
  induction mains generalizing c with
  | nil => rfl
  | cons mi rest ih =>
    simp only [pass_mains]
    rw [close_entry_settled enum files given fuel c mi.deps (h mi (List.mem_cons_self _ _))]
    simp only
    rw [ih (fun e he => h e (List.mem_cons_of_mem _ he))]

theorem fix_mains_spec (enum : Enumeration) (files : List Source_file) (given : List Str)
    (fuel : Nat) (hfuel : given.length < fuel) (passes : Nat) (mains : List Source_file) :
    fix_mains enum files given fuel (passes + 2) mains =
      some (mains.map
        (fun e => { e with deps := closed_set enum files given fuel e.deps })) := by
  obtain ⟨c1, h1⟩ := pass_mains_spec enum files given fuel hfuel mains false
  have hset : ∀ e ∈ mains.map
      (fun e => { e with deps := closed_set enum files given fuel e.deps }),
      settled enum files given e.deps := by
    intro e he
    obtain ⟨e0, _, he0⟩ := List.mem_map.mp he
    rw [← he0]
    exact closed_set_settled enum files given fuel e0.deps
      (Nat.lt_of_le_of_lt (missing_le_length _ _) hfuel)
  cases c1 with
  | false => simp only [fix_mains, h1]
  | true =>
    obtain ⟨k, rfl⟩ : ∃ k, fuel = k + 1 := ⟨fuel - 1, by omega⟩
    simp only [fix_mains, h1]
    cases passes with
    | zero =>
      simp only [fix_mains]
      rw [pass_mains_settled enum files given k _ hset false]
    | succ p =>
      simp only [fix_mains]
      rw [pass_mains_settled enum files given k _ hset false]

end Mkdeps

namespace Mkdeps

/-! ### More fuel gives the same result -/

theorem close_entry_mono (enum : Enumeration) (files : List Source_file) (given : List Str)
    (fuel : Nat) (c : Bool) (deps : List Str) (r : Bool × List Str)
    (h : close_entry enum files given fuel c deps = some r) :
    close_entry enum files given (fuel + 1) c deps = some r := by
  induction fuel generalizing c deps with
  | zero => cases h
  | succ n ih =>
    rw [close_entry_succ] at h ⊢
    cases hr : scan_deps enum files given (enum deps) deps with
    | mk b d1 =>
      rw [hr] at h
      cases b with
      | true => exact ih true d1 h
      | false => exact h

theorem pass_mains_mono (enum : Enumeration) (files : List Source_file) (given : List Str)
    (fuel : Nat) (mains : List Source_file) (c : Bool) (r : Bool × List Source_file)
    (h : pass_mains enum files given fuel mains c = some r) :
    pass_mains enum files given (fuel + 1) mains c = some r := by
  induction mains generalizing c r with
  | nil => exact h
  | cons mi rest ih =>
    simp only [pass_mains] at h ⊢
    cases h1 : close_entry enum files given fuel c mi.deps with
    | none => rw [h1] at h; cases h
    | some r1 =>
      rw [h1] at h
      rw [close_entry_mono enum files given fuel c mi.deps r1 h1]
      simp only at h ⊢
      cases h2 : pass_mains enum files given fuel rest r1.1 with
      | none => rw [h2] at h; cases h
      | some r2 =>
        rw [h2] at h
        rw [ih r1.1 r2 h2]
        exact h

theorem fix_mains_mono (enum : Enumeration) (files : List Source_file) (given : List Str)
    (fuel passes : Nat) (mains r : List Source_file)
    (h : fix_mains enum files given fuel passes mains = some r) :
    fix_mains enum files given (fuel + 1) (passes + 1) mains = some r := by
  induction passes generalizing mains with
  | zero => cases h
  | succ n ih =>
    rw [fix_mains] at h ⊢
    cases h1 : pass_mains enum files given fuel mains false with
    | none => rw [h1] at h; cases h
    | some r1 =>
      rw [h1] at h
      rw [pass_mains_mono enum files given fuel mains false r1 h1]
      obtain ⟨b, m1⟩ := r1
      cases b with
      | true => exact ih m1 h
      | false => exact h

theorem compute_mains_mono (enum : Enumeration) (p q : Project) (fuel fuel2 : Nat)
    (hle : fuel ≤ fuel2) (h : p.compute_mains enum fuel = some q) :
    p.compute_mains enum fuel2 = some q := by
  induction fuel2 with
  | zero =>
    have : fuel = 0 := by omega
    subst this
    exact h
  | succ n ih =>
    by_cases hn : fuel = n + 1
    · subst hn; exact h
    · have hprev := ih (by omega)
      unfold Project.compute_mains at hprev ⊢
      cases hf : fix_mains enum p.files p.given_files n n
          (initial_mains enum p.given_files p.given_files_full p.files p.mains) with
      | none => rw [hf] at hprev; cases hprev
      | some r =>
        rw [hf] at hprev
        rw [fix_mains_mono enum p.files p.given_files n n _ r hf]
        exact hprev

end Mkdeps

namespace Mkdeps

/-! ### Base names -/

theorem base_name_loop_spec (s ans : Str) :
    (base_name_loop s ans = ans ∧ ∀ c ∈ s, ¬ (c = '/' ∨ c = '\\')) ∨
    (base_name_loop s ans <:+ s ∧ ∀ c ∈ base_name_loop s ans, ¬ (c = '/' ∨ c = '\\')) := by
  induction s generalizing ans with
  | nil => exact Or.inl ⟨rfl, fun c hc => by cases hc⟩
  | cons x xs ih =>
    simp only [base_name_loop]
    split
    · rcases ih xs with ⟨h1, h2⟩ | ⟨h1, h2⟩
      · right
        rw [h1]
        exact ⟨List.suffix_cons _ _, h2⟩
      · right
        exact ⟨h1.trans (List.suffix_cons _ _), h2⟩
    · rename_i hx
      rcases ih ans with ⟨h1, h2⟩ | ⟨h1, h2⟩
      · left
        refine ⟨h1, ?_⟩
        intro c hc
        rcases List.mem_cons.mp hc with hc | hc
        · rw [hc]; exact hx
        · exact h2 c hc
      · right
        exact ⟨h1.trans (List.suffix_cons _ _), h2⟩

theorem get_base_name_suffix (s : Str) : get_base_name s <:+ s := by
  unfold get_base_name
  rcases base_name_loop_spec s s with ⟨h1, _⟩ | ⟨h1, _⟩
  · rw [h1]
  · exact h1

theorem get_base_name_no_sep (s : Str) :
    ∀ c ∈ get_base_name s, ¬ (c = '/' ∨ c = '\\') := by
  unfold get_base_name
  rcases base_name_loop_spec s s with ⟨h1, h2⟩ | ⟨_, h2⟩
  · rw [h1]; exact h2
  · exact h2

theorem base_name_loop_plain (s ans : Str) (h : ∀ c ∈ s, ¬ (c = '/' ∨ c = '\\')) :
    base_name_loop s ans = ans := by
  induction s generalizing ans with
  | nil => rfl
  | cons x xs ih =>
    simp only [base_name_loop]
    rw [if_neg (h x (List.mem_cons_self _ _))]
    exact ih ans (fun c hc => h c (List.mem_cons_of_mem _ hc))

theorem get_base_name_plain (s : Str) (h : ∀ c ∈ s, ¬ (c = '/' ∨ c = '\\')) :
    get_base_name s = s :=
  base_name_loop_plain s s h

theorem c_str_no_nul (s : Str) : ∀ c ∈ c_str s, c ≠ NUL := by
  intro c hc
  have := List.mem_takeWhile_imp hc
  simpa using this

theorem c_str_of_no_nul (s : Str) (h : ∀ c ∈ s, c ≠ NUL) : c_str s = s := by
  unfold c_str
  rw [List.takeWhile_eq_self_iff]
  intro c hc
  simpa using h c hc

/-- The base name of a C string is its own base name. -/
theorem get_base_name_stable (s : Str) :
    get_base_name (c_str (get_base_name (c_str s))) = get_base_name (c_str s) := by
  have h1 : c_str (get_base_name (c_str s)) = get_base_name (c_str s) :=
    c_str_of_no_nul _
      (fun c hc => c_str_no_nul s c ((get_base_name_suffix (c_str s)).subset hc))
  rw [h1]
  exact get_base_name_plain _ (get_base_name_no_sep _)

theorem module_of_stable (d : Str) : get_base_name (c_str (module_of d)) = module_of d :=
  get_base_name_stable _

/-! ### The entries before the fixed-point loop -/

theorem main_entry_name (enum : Enumeration) (given full : List Str) (i : Source_file) :
    (main_entry enum given full i).name = i.name := by
  unfold main_entry
  split <;> rfl

theorem main_entry_target (enum : Enumeration) (given full : List Str) (i : Source_file) :
    (main_entry enum given full i).target = i.target := by
  unfold main_entry
  split <;> rfl

theorem main_entry_deps (enum : Enumeration) (he : enumerates enum) (given full : List Str)
    (i : Source_file) (m : Str) :
    m ∈ (main_entry enum given full i).deps ↔ initial_set given i m := by
  have hadd := add_deps_mem enum he [] i.deps given m
  unfold main_entry initial_set implies_module
  split
  · rename_i ht
    simp only [List.mem_insert_iff, hadd, List.not_mem_nil, false_or, ht, true_and]
    exact or_comm
  · rename_i ht
    simp only [hadd, List.not_mem_nil, false_or, ht, false_and, or_false]

theorem initial_mains_sorted (enum : Enumeration) (given full : List Str)
    (files acc : List Source_file)
    (hs : files.Pairwise (fun a b => str_lt a.name b.name = true))
    (hacc : ∀ a ∈ acc, ∀ f ∈ files, str_lt a.name f.name = true) :
    initial_mains enum given full files acc =
      acc ++ files.map (main_entry enum given full) := by
  induction files generalizing acc with
  | nil => simp [initial_mains]
  | cons i rest ih =>
    have hi := List.pairwise_cons.mp hs
    simp only [initial_mains]
    rw [set_insert_last _ acc (fun a ha => by
      rw [main_entry_name]; exact hacc a ha i (List.mem_cons_self _ _))]
    rw [ih (acc ++ [main_entry enum given full i]) hi.2 (by
      intro a ha f hf
      rcases List.mem_append.mp ha with ha | ha
      · exact hacc a ha f (List.mem_cons_of_mem _ hf)
      · rw [List.mem_singleton] at ha
        rw [ha, main_entry_name]
        exact hi.1 f hf)]
    simp

theorem compute_mains_spec (enum : Enumeration) (p : Project) (hp : project_ok p)
    (fuel : Nat) (hfuel : p.given_files.length + 2 ≤ fuel) :
    p.compute_mains enum fuel =
      some { p with mains := p.files.map (closed_entry enum p fuel) } := by
  unfold Project.compute_mains
  obtain ⟨k, rfl⟩ : ∃ k, fuel = k + 2 := ⟨fuel - 2, by omega⟩
  rw [hp.2.2, initial_mains_sorted enum _ _ p.files [] hp.1 (fun a ha => by cases ha)]
  rw [fix_mains_spec enum p.files p.given_files (k + 2) (by omega) k]
  simp only [List.nil_append, List.map_map, Option.map_some']
  rfl

end Mkdeps

namespace Mkdeps

/-! ### The set of an entry after the fixed-point loop -/

/-- A settled set holds the given modules implied by the files that its
members name. -/
theorem settled_closed (enum : Enumeration) (he : enumerates enum)
    (files : List Source_file) (given d : List Str) (hs : settled enum files given d)
    (m : Str) (hm : m ∈ d) (f : Source_file) (hf : f ∈ files)
    (hn : get_base_name (c_str m) = f.name) (m2 : Str) (h2 : implies_module given f m2) :
    m2 ∈ d := by
  have hflag := (scan_deps_false enum files given (enum d) d (by rw [hs])).2 m
    ((he _ _).mpr hm) f hf hn
  have heq := add_deps_false enum d f.deps given hflag
  rw [← heq, add_deps_mem enum he]
  exact Or.inr h2

theorem closed_set_superset (enum : Enumeration) (files : List Source_file)
    (given : List Str) (fuel : Nat) (deps : List Str) (m : Str) (hm : m ∈ deps) :
    m ∈ closed_set enum files given fuel deps :=
  closed_set_invariant enum files given (fun d => m ∈ d)
    (fun d d1 h hs => (scan_deps_grows enum files given (enum d) d d1 hs).1 m h)
    fuel deps hm

theorem closed_set_reach (enum : Enumeration) (he : enumerates enum)
    (files : List Source_file) (given : List Str) (fuel : Nat) (deps : List Str)
    (init : Str → Prop) (hinit : ∀ m ∈ deps, init m)
    (hst : ∀ m ∈ deps, get_base_name (c_str m) = m) :
    ∀ m ∈ closed_set enum files given fuel deps, Reach files given init m := by
  have h := closed_set_invariant enum files given
    (fun d => ∀ m ∈ d, Reach files given init m ∧ get_base_name (c_str m) = m)
    (by
      intro d d1 hd hs m hm
      obtain ⟨li, hli, f, hf, hfn, hfa⟩ :=
        scan_deps_true enum files given (enum d) d (by rw [hs])
      rw [hs] at hfa
      have hm2 : m ∈ (add_deps enum d f.deps given).2 := by rw [hfa]; exact hm
      rcases (add_deps_mem enum he d f.deps given m).mp hm2 with h0 | h0
      · exact hd m h0
      · have hli2 := hd li ((he _ _).mp hli)
        refine ⟨Reach.step li m f hli2.1 hf ?_ h0, ?_⟩
        · rw [← hfn, hli2.2]
        · obtain ⟨_, i, _, hi⟩ := h0
          rw [← hi]
          exact module_of_stable i)
    fuel deps (fun m hm => ⟨Reach.base m (hinit m hm), hst m hm⟩)
  exact fun m hm => (h m hm).1

theorem reach_closed_set (enum : Enumeration) (he : enumerates enum)
    (files : List Source_file) (given : List Str) (fuel : Nat) (deps : List Str)
    (hfuel : given.length < fuel)
    (hnames : ∀ f ∈ files, get_base_name (c_str f.name) = f.name)
    (init : Str → Prop) (hinit : ∀ m, init m → m ∈ deps) (m : Str)
    (h : Reach files given init m) : m ∈ closed_set enum files given fuel deps := by
  induction h with
  | base m hm => exact closed_set_superset enum files given fuel deps m (hinit m hm)
  | step m m2 f _ hf hn h2 ih =>
    refine settled_closed enum he files given _
      (closed_set_settled enum files given fuel deps
        (Nat.lt_of_le_of_lt (missing_le_length _ _) hfuel)) m ih f hf ?_ m2 h2
    rw [← hn]
    exact hnames f hf

theorem initial_set_stable (given : List Str) (f : Source_file)
    (hf : get_base_name (c_str f.name) = f.name) (m : Str) (h : initial_set given f m) :
    get_base_name (c_str m) = m := by
  rcases h with ⟨_, i, _, hi⟩ | ⟨_, hm⟩
  · rw [← hi]; exact module_of_stable i
  · rw [hm]; exact hf

/-- The set of the entry of a file after `compute_mains`: the modules
reachable from its initial set. -/
theorem closed_entry_deps (enum : Enumeration) (he : enumerates enum) (p : Project)
    (hp : project_ok p) (fuel : Nat) (hfuel : p.given_files.length + 2 ≤ fuel)
    (f : Source_file) (hf : f ∈ p.files) (m : Str) :
    m ∈ (closed_entry enum p fuel f).deps ↔
      Reach p.files p.given_files (initial_set p.given_files f) m := by
  have hd := main_entry_deps enum he p.given_files p.given_files_full f
  constructor
  · intro h
    refine closed_set_reach enum he p.files p.given_files fuel _ _
      (fun x hx => (hd x).mp hx) ?_ m h
    intro x hx
    exact initial_set_stable p.given_files f (hp.2.1 f hf) x ((hd x).mp hx)
  · intro h
    exact reach_closed_set enum he p.files p.given_files fuel _ (by omega) hp.2.1 _
      (fun x hx => (hd x).mpr hx) m h

theorem closed_entry_name (enum : Enumeration) (p : Project) (fuel : Nat)
    (f : Source_file) : (closed_entry enum p fuel f).name = f.name :=
  main_entry_name enum _ _ f

theorem reach_mono (files1 files2 : List Source_file) (given1 given2 : List Str)
    (init1 init2 : Str → Prop) (hinit : ∀ m, init1 m → init2 m)
    (hg : ∀ m, m ∈ given1 → m ∈ given2)
    (hf : ∀ f1 ∈ files1, ∃ f2 ∈ files2, f2.name = f1.name ∧ ∀ d, d ∈ f1.deps → d ∈ f2.deps)
    (m : Str) (h : Reach files1 given1 init1 m) : Reach files2 given2 init2 m := by
  induction h with
  | base m hm => exact Reach.base m (hinit m hm)
  | step m m2 f _ hf1 hn h2 ih =>
    obtain ⟨f2, hf2, hn2, hd2⟩ := hf f hf1
    obtain ⟨hg2, i, hi, him⟩ := h2
    exact Reach.step m m2 f2 ih hf2 (hn2.trans hn) ⟨hg m2 hg2, i, hd2 i hi, him⟩

end Mkdeps

namespace Mkdeps

theorem enumerates_id : enumerates id := fun _ _ => Iff.rfl

/-- The entries of `initial_mains` in the terms of `module_of`, the steps of
`add_deps`: before the fixed-point loop `compute_mains` has one entry for every
registered file, in the order of the files, with the name and the target of
the file; its set holds exactly the given modules implied by the dependencies
of the file (the path with its extension stripped, reduced to its base name,
is a given file) and, exactly when the target is `Main_target`, the name of
the file. -/
theorem compute_mains_initial_sets (enum : Enumeration) (he : enumerates enum)
    (p : Project) (hp : project_ok p) :
    List.Forall₂
      (fun f e => e.name = f.name ∧ e.target = f.target ∧
        ∀ m, m ∈ e.deps ↔
          ((m ∈ p.given_files ∧ ∃ d ∈ f.deps, module_of d = m) ∨
            (f.target = Target_type.Main_target ∧ m = f.name)))
      p.files (initial_mains enum p.given_files p.given_files_full p.files p.mains) := by
  rw [hp.2.2, initial_mains_sorted enum _ _ p.files [] hp.1 (fun a ha => by cases ha),
    List.nil_append, List.forall₂_map_right_iff, List.forall₂_same]
  intro f _
  exact ⟨main_entry_name enum _ _ f, main_entry_target enum _ _ f,
    fun m => main_entry_deps enum he _ _ f m⟩

theorem compute_mains_initial_sets_witness :
    enumerates id ∧ project_ok chain_project ∧
    List.Forall₂
      (fun f e => e.name = f.name ∧ e.target = f.target ∧
        ∀ m, m ∈ e.deps ↔
          ((m ∈ chain_project.given_files ∧ ∃ d ∈ f.deps, module_of d = m) ∨
            (f.target = Target_type.Main_target ∧ m = f.name)))
      chain_project.files
      (initial_mains id chain_project.given_files chain_project.given_files_full
        chain_project.files chain_project.mains) :=
  ⟨enumerates_id, by decide,
    compute_mains_initial_sets id enumerates_id chain_project (by decide)⟩

/-- The closure in the terms of `module_of`, the steps of `add_deps`: with
enough fuel `compute_mains` returns, and the set of every entry holds the
initial set of its file and is closed under module dependencies: for
every member `m` and every registered file named `m`, the given modules
implied by the dependencies of that file are members.  In particular, when the
main program `fa` implies the given module `fb.name` and the registered file
`fb` implies the given module `c`, the entry of `fa` holds the three names. -/
theorem compute_mains_closed (enum : Enumeration) (he : enumerates enum)
    (p : Project) (hp : project_ok p) (fuel : Nat)
    (hfuel : p.given_files.length + 2 ≤ fuel) :
    ∃ q, p.compute_mains enum fuel = some q ∧
      List.Forall₂
        (fun f e => e.name = f.name ∧
          (∀ m, initial_set p.given_files f m → m ∈ e.deps) ∧
          ∀ m ∈ e.deps, ∀ g ∈ p.files, g.name = m →
            ∀ m2, implies_module p.given_files g m2 → m2 ∈ e.deps)
        p.files q.mains ∧
      ∀ fa ∈ p.files, ∀ fb ∈ p.files, ∀ c,
        fa.target = Target_type.Main_target →
        implies_module p.given_files fa fb.name →
        implies_module p.given_files fb c →
        ∃ e ∈ q.mains, e.name = fa.name ∧ fa.name ∈ e.deps ∧ fb.name ∈ e.deps ∧
          c ∈ e.deps := by
  refine ⟨_, compute_mains_spec enum p hp fuel hfuel, ?_, ?_⟩
  · simp only [List.forall₂_map_right_iff, List.forall₂_same]
    intro f hf
    refine ⟨closed_entry_name enum p fuel f, ?_, ?_⟩
    · intro m hm
      exact (closed_entry_deps enum he p hp fuel hfuel f hf m).mpr (Reach.base m hm)
    · intro m hm g hg hgn m2 h2
      rw [closed_entry_deps enum he p hp fuel hfuel f hf] at hm ⊢
      exact Reach.step m m2 g hm hg hgn h2
  · intro fa hfa fb hfb c hmain hab hbc
    refine ⟨closed_entry enum p fuel fa, List.mem_map.mpr ⟨fa, hfa, rfl⟩,
      closed_entry_name enum p fuel fa, ?_, ?_, ?_⟩
    · exact (closed_entry_deps enum he p hp fuel hfuel fa hfa _).mpr
        (Reach.base _ (Or.inr ⟨hmain, rfl⟩))
    · exact (closed_entry_deps enum he p hp fuel hfuel fa hfa _).mpr
        (Reach.base _ (Or.inl hab))
    · exact (closed_entry_deps enum he p hp fuel hfuel fa hfa _).mpr
        (Reach.step _ _ fb (Reach.base _ (Or.inl hab)) hfb rfl hbc)

theorem compute_mains_closed_witness :
    enumerates id ∧ project_ok chain_project ∧ chain_project.given_files.length + 2 ≤ 5 ∧
    ∃ q, chain_project.compute_mains id 5 = some q ∧
      List.Forall₂
        (fun f e => e.name = f.name ∧
          (∀ m, initial_set chain_project.given_files f m → m ∈ e.deps) ∧
          ∀ m ∈ e.deps, ∀ g ∈ chain_project.files, g.name = m →
            ∀ m2, implies_module chain_project.given_files g m2 → m2 ∈ e.deps)
        chain_project.files q.mains ∧
      ∀ fa ∈ chain_project.files, ∀ fb ∈ chain_project.files, ∀ c,
        fa.target = Target_type.Main_target →
        implies_module chain_project.given_files fa fb.name →
        implies_module chain_project.given_files fb c →
        ∃ e ∈ q.mains, e.name = fa.name ∧ fa.name ∈ e.deps ∧ fb.name ∈ e.deps ∧
          c ∈ e.deps :=
  ⟨enumerates_id, by decide, by decide,
    compute_mains_closed id enumerates_id chain_project (by decide) 5 (by decide)⟩

/-- C19: `compute_mains` terminates.  For every project and every enumeration
of the sets there is one result that `compute_mains` returns for every `fuel`,
the bound on the passes and on the restarts for an entry, that is at least the
number of given files plus two.  A restart keeps the members of the set of the
entry and adds a member; the members it adds are given files, so the number of
given files missing from the set goes down.  A scan without a restart leaves
the set as it is. -/
theorem compute_mains_terminates (enum : Enumeration) (p : Project) :
    (∃ q, ∀ fuel, p.given_files.length + 2 ≤ fuel → p.compute_mains enum fuel = some q) ∧
    (∀ l deps d1, scan_deps enum p.files p.given_files l deps = (true, d1) →
      (∀ m ∈ deps, m ∈ d1) ∧ (∃ m ∈ d1, m ∉ deps) ∧
        (∀ m ∈ d1, m ∈ deps ∨ m ∈ p.given_files) ∧
        missing p.given_files d1 < missing p.given_files deps) ∧
    (∀ l deps d1, scan_deps enum p.files p.given_files l deps = (false, d1) →
      d1 = deps) := by
  refine ⟨?_, ?_, ?_⟩
  · have h0 : ∃ q, p.compute_mains enum (p.given_files.length + 2) = some q := by
      unfold Project.compute_mains
      rw [fix_mains_spec enum p.files p.given_files (p.given_files.length + 2) (by omega)
        p.given_files.length]
      exact ⟨_, rfl⟩
    obtain ⟨q, hq⟩ := h0
    exact ⟨q, fun fuel hfuel => compute_mains_mono enum p q _ fuel hfuel hq⟩
  · intro l deps d1 h
    obtain ⟨h1, h2, h3⟩ := scan_deps_grows enum p.files p.given_files l deps d1 h
    exact ⟨h1, h2, h3, scan_deps_missing enum p.files p.given_files l deps d1 h⟩
  · intro l deps d1 h
    have := (scan_deps_false enum p.files p.given_files l deps (by rw [h])).1
    rw [h] at this
    exact this

theorem compute_mains_terminates_witness :
    (∃ q, cycle_project.compute_mains id 4 = some q) ∧
    scan_deps id cycle_project.files cycle_project.given_files ["a".toList] ["a".toList] =
      (true, ["b".toList, "a".toList]) ∧
    missing cycle_project.given_files ["b".toList, "a".toList] <
      missing cycle_project.given_files ["a".toList] :=
  ⟨match (compute_mains_terminates id cycle_project).1 with
    | ⟨q, h⟩ => ⟨q, h 4 (by decide)⟩,
   by decide,
   ((compute_mains_terminates id cycle_project).2.1 ["a".toList] ["a".toList]
      ["b".toList, "a".toList] (by decide)).2.2.2⟩

/-- The entries of two files that include the header of each other. -/
theorem compute_mains_cycle_example :
    (cycle_project.compute_mains id 4).map
        (fun q => q.mains.map (fun e => (e.name, e.deps))) =
      some [("a".toList, ["a".toList, "b".toList]), ("b".toList, ["b".toList, "a".toList])] := by
  decide

end Mkdeps

namespace Mkdeps

/-! ### Registration -/

theorem add_files (enum : Enumeration) (p : Project) (r : Registration) :
    (p.add enum r.name r.cont r.target).files = set_insert (registered enum r) p.files :=
  rfl

theorem foldl_insert_mem (l acc : List Str) (m : Str) :
    m ∈ l.foldl (fun acc d => acc.insert d) acc ↔ m ∈ acc ∨ m ∈ l := by
  induction l generalizing acc with
  | nil => simp
  | cons x xs ih =>
    simp only [List.foldl_cons, ih, List.mem_insert_iff, List.mem_cons]
    constructor
    · rintro ((h | h) | h)
      · exact Or.inr (Or.inl h)
      · exact Or.inl h
      · exact Or.inr (Or.inr h)
    · rintro (h | h | h)
      · exact Or.inl (Or.inr h)
      · exact Or.inl (Or.inl h)
      · exact Or.inr h

theorem registered_deps (enum : Enumeration) (he : enumerates enum) (r : Registration)
    (d : Str) : d ∈ (registered enum r).deps ↔ d ∈ r.cont := by
  unfold registered
  simp only [foldl_insert_mem, List.not_mem_nil, false_or]
  exact he _ _

theorem registered_name (enum : Enumeration) (r : Registration) :
    (registered enum r).name = module_of (c_str r.name) := rfl

theorem add_all_other (enum : Enumeration) (regs : List Registration) (p : Project) :
    (regs.foldl (fun p r => p.add enum r.name r.cont r.target) p).mains = p.mains ∧
    (regs.foldl (fun p r => p.add enum r.name r.cont r.target) p).given_files =
      p.given_files := by
  induction regs generalizing p with
  | nil => exact ⟨rfl, rfl⟩
  | cons r rest ih =>
    simp only [List.foldl_cons]
    exact ih (p.add enum r.name r.cont r.target)

theorem add_all_ok (enum : Enumeration) (regs : List Registration) (p : Project)
    (hs : p.files.Pairwise (fun a b => str_lt a.name b.name = true))
    (hn : ∀ f ∈ p.files, get_base_name (c_str f.name) = f.name) :
    (regs.foldl (fun p r => p.add enum r.name r.cont r.target) p).files.Pairwise
      (fun a b => str_lt a.name b.name = true) ∧
    ∀ f ∈ (regs.foldl (fun p r => p.add enum r.name r.cont r.target) p).files,
      get_base_name (c_str f.name) = f.name := by
  induction regs generalizing p with
  | nil => exact ⟨hs, hn⟩
  | cons r rest ih =>
    simp only [List.foldl_cons]
    refine ih (p.add enum r.name r.cont r.target) ?_ ?_
    · rw [add_files]; exact set_insert_sorted _ _ hs
    · rw [add_files]
      intro f hf
      rcases set_insert_mem _ _ f hf with h | h
      · rw [h, registered_name]; exact module_of_stable _
      · exact hn f h

/-- After registrations under different names the files are those that were
there and those of the registrations. -/
theorem add_all_files (enum : Enumeration) (regs : List Registration) (p : Project)
    (hs : p.files.Pairwise (fun a b => str_lt a.name b.name = true))
    (hk : (regs.map (fun r => module_of (c_str r.name))).Nodup)
    (hd : ∀ f ∈ p.files, ∀ r ∈ regs, f.name ≠ module_of (c_str r.name))
    (f : Source_file) :
    f ∈ (regs.foldl (fun p r => p.add enum r.name r.cont r.target) p).files ↔
      f ∈ p.files ∨ ∃ r ∈ regs, f = registered enum r := by
  induction regs generalizing p with
  | nil => simp
  | cons r rest ih =>
    have hk2 : module_of (c_str r.name) ∉ rest.map (fun r => module_of (c_str r.name)) ∧
        (rest.map (fun r => module_of (c_str r.name))).Nodup := by
      rw [List.map_cons] at hk
      exact List.nodup_cons.mp hk
    simp only [List.foldl_cons]
    rw [ih (p.add enum r.name r.cont r.target)
      (by rw [add_files]; exact set_insert_sorted _ _ hs) hk2.2
      (by
        rw [add_files]
        intro g hg r2 hr2
        rcases set_insert_mem _ _ g hg with h | h
        · rw [h, registered_name]
          intro heq
          exact hk2.1 (List.mem_map.mpr ⟨r2, hr2, heq.symm⟩)
        · exact hd g h r2 (List.mem_cons_of_mem _ hr2))]
    rw [add_files]
    constructor
    · rintro (h | ⟨r2, hr2, h⟩)
      · rcases set_insert_mem _ _ f h with h | h
        · exact Or.inr ⟨r, List.mem_cons_self _ _, h⟩
        · exact Or.inl h
      · exact Or.inr ⟨r2, List.mem_cons_of_mem _ hr2, h⟩
    · rintro (h | ⟨r2, hr2, h⟩)
      · exact Or.inl (set_insert_keeps _ _ f h)
      · rcases List.mem_cons.mp hr2 with hr2 | hr2
        · left
          rw [h, hr2]
          exact set_insert_new _ _
            (fun g hg => by rw [registered_name]; exact hd g hg r (List.mem_cons_self _ _))
        · exact Or.inr ⟨r2, hr2, h⟩

theorem add_given_all (given : List Str) (p : Project) :
    (given.foldl Project.add_given_file p).files = p.files ∧
    (given.foldl Project.add_given_file p).mains = p.mains ∧
    (given.foldl Project.add_given_file p).given_files.length ≤
      p.given_files.length + given.length ∧
    ∀ m, m ∈ (given.foldl Project.add_given_file p).given_files ↔
      m ∈ p.given_files ∨ ∃ fn ∈ given, replace_extension (get_base_name (c_str fn)) [] = m := by
  induction given generalizing p with
  | nil => simp
  | cons fn rest ih =>
    simp only [List.foldl_cons]
    obtain ⟨h1, h2, h3, h4⟩ := ih (p.add_given_file fn)
    refine ⟨h1, h2, ?_, ?_⟩
    · have : (p.add_given_file fn).given_files.length ≤ p.given_files.length + 1 := by
        unfold Project.add_given_file
        simp only
        by_cases hmem : replace_extension (get_base_name (c_str fn)) [] ∈ p.given_files
        · rw [List.insert_of_mem hmem]; omega
        · rw [List.length_insert_of_not_mem hmem]
      simp only [List.length_cons]
      omega
    · intro m
      rw [h4]
      unfold Project.add_given_file
      simp only [List.mem_insert_iff, List.mem_cons]
      constructor
      · rintro ((h | h) | ⟨x, hx, h⟩)
        · exact Or.inr ⟨fn, Or.inl rfl, h.symm⟩
        · exact Or.inl h
        · exact Or.inr ⟨x, Or.inr hx, h⟩
      · rintro (h | ⟨x, hx | hx, h⟩)
        · exact Or.inl (Or.inr h)
        · subst hx; exact Or.inl (Or.inl h.symm)
        · exact Or.inr ⟨x, hx, h⟩

theorem register_all_ok (enum : Enumeration) (curdir : Str) (regs : List Registration)
    (given : List Str) : project_ok (register_all enum curdir regs given) := by
  unfold register_all project_ok
  obtain ⟨h1, h2, _, _⟩ := add_given_all given
    (regs.foldl (fun p r => p.add enum r.name r.cont r.target) (Project.empty curdir))
  rw [h1, h2]
  have h3 := add_all_ok enum regs (Project.empty curdir) List.Pairwise.nil
    (fun f hf => by cases hf)
  exact ⟨h3.1, h3.2, (add_all_other enum regs (Project.empty curdir)).1⟩

theorem register_all_files (enum : Enumeration) (curdir : Str) (regs : List Registration)
    (given : List Str) (hk : (regs.map (fun r => module_of (c_str r.name))).Nodup)
    (f : Source_file) :
    f ∈ (register_all enum curdir regs given).files ↔ ∃ r ∈ regs, f = registered enum r := by
  unfold register_all
  rw [(add_given_all given _).1,
    add_all_files enum regs (Project.empty curdir) List.Pairwise.nil hk
      (fun f hf => by cases hf)]
  simp [Project.empty]

theorem register_all_given (enum : Enumeration) (curdir : Str) (regs : List Registration)
    (given : List Str) (m : Str) :
    m ∈ (register_all enum curdir regs given).given_files ↔
      ∃ fn ∈ given, replace_extension (get_base_name (c_str fn)) [] = m := by
  unfold register_all
  rw [(add_given_all given _).2.2.2, (add_all_other enum regs _).2]
  simp [Project.empty]

theorem register_all_length (enum : Enumeration) (curdir : Str) (regs : List Registration)
    (given : List Str) :
    (register_all enum curdir regs given).given_files.length ≤ given.length := by
  unfold register_all
  have := (add_given_all given
    (regs.foldl (fun p r => p.add enum r.name r.cont r.target) (Project.empty curdir))).2.2.1
  rw [(add_all_other enum regs _).2] at this
  simpa [Project.empty] using this

/-- Two lists of names in order with the same members are the same list. -/
theorem sorted_ext (l1 l2 : List Str)
    (h1 : l1.Pairwise (fun a b => str_lt a b = true))
    (h2 : l2.Pairwise (fun a b => str_lt a b = true))
    (h : ∀ x, x ∈ l1 ↔ x ∈ l2) : l1 = l2 := by
  induction l1 generalizing l2 with
  | nil =>
    cases l2 with
    | nil => rfl
    | cons b bs => exact absurd ((h b).mpr (List.mem_cons_self _ _)) (List.not_mem_nil _)
  | cons a as ih =>
    cases l2 with
    | nil => exact absurd ((h a).mp (List.mem_cons_self _ _)) (List.not_mem_nil _)
    | cons b bs =>
      have ha := List.pairwise_cons.mp h1
      have hb := List.pairwise_cons.mp h2
      have hab : a = b := by
        rcases List.mem_cons.mp ((h a).mp (List.mem_cons_self _ _)) with h3 | h3
        · exact h3
        · rcases List.mem_cons.mp ((h b).mpr (List.mem_cons_self _ _)) with h4 | h4
          · exact h4.symm
          · have := str_lt_asymm _ _ (ha.1 b h4)
            rw [hb.1 a h3] at this
            cases this
      subst hab
      rw [ih bs ha.2 hb.2 (by
        intro x
        constructor
        · intro hx
          rcases List.mem_cons.mp ((h x).mp (List.mem_cons_of_mem _ hx)) with h3 | h3
          · have := ha.1 x hx
            rw [h3, str_lt_irrefl] at this
            cases this
          · exact h3
        · intro hx
          rcases List.mem_cons.mp ((h x).mpr (List.mem_cons_of_mem _ hx)) with h3 | h3
          · have := hb.1 x hx
            rw [h3, str_lt_irrefl] at this
            cases this
          · exact h3)]

end Mkdeps

namespace Mkdeps

/-- The modules reachable for a registration do not depend on the order of
the registrations nor on the enumerations. -/
theorem reach_register_all (enum1 enum2 : Enumeration)
    (he1 : enumerates enum1) (he2 : enumerates enum2) (curdir : Str)
    (regs1 regs2 : List Registration) (given1 given2 : List Str)
    (hregs : ∀ r, r ∈ regs1 → r ∈ regs2) (hgiven : ∀ fn, fn ∈ given1 → fn ∈ given2)
    (hk1 : (regs1.map (fun r => module_of (c_str r.name))).Nodup)
    (hk2 : (regs2.map (fun r => module_of (c_str r.name))).Nodup)
    (r : Registration) (m : Str)
    (h : Reach (register_all enum1 curdir regs1 given1).files
      (register_all enum1 curdir regs1 given1).given_files
      (initial_set (register_all enum1 curdir regs1 given1).given_files (registered enum1 r))
      m) :
    Reach (register_all enum2 curdir regs2 given2).files
      (register_all enum2 curdir regs2 given2).given_files
      (initial_set (register_all enum2 curdir regs2 given2).given_files (registered enum2 r))
      m := by
  have hg : ∀ x, x ∈ (register_all enum1 curdir regs1 given1).given_files →
      x ∈ (register_all enum2 curdir regs2 given2).given_files := by
    intro x hx
    rw [register_all_given] at hx ⊢
    obtain ⟨fn, hfn, hx⟩ := hx
    exact ⟨fn, hgiven fn hfn, hx⟩
  have hdeps : ∀ r0 d, d ∈ (registered enum1 r0).deps → d ∈ (registered enum2 r0).deps := by
    intro r0 d hd
    rw [registered_deps enum1 he1] at hd
    rw [registered_deps enum2 he2]
    exact hd
  refine reach_mono _ _ _ _ _ _ ?_ hg ?_ m h
  · intro x hx
    rcases hx with ⟨hx1, i, hi, hxi⟩ | hx
    · exact Or.inl ⟨hg x hx1, i, hdeps r i hi, hxi⟩
    · exact Or.inr hx
  · intro f1 hf1
    rw [register_all_files enum1 curdir regs1 given1 hk1] at hf1
    obtain ⟨r0, hr0, hf1⟩ := hf1
    refine ⟨registered enum2 r0, ?_, ?_, ?_⟩
    · rw [register_all_files enum2 curdir regs2 given2 hk2]
      exact ⟨r0, hregs r0 hr0, rfl⟩
    · rw [hf1]; rfl
    · rw [hf1]; exact hdeps r0

theorem key_injective (regs : List Registration)
    (hk : (regs.map (fun r => module_of (c_str r.name))).Nodup)
    (r1 r2 : Registration) (h1 : r1 ∈ regs) (h2 : r2 ∈ regs)
    (h : module_of (c_str r1.name) = module_of (c_str r2.name)) : r1 = r2 :=
  List.inj_on_of_nodup_map hk h1 h2 h

/-- C20, amended: the result of the closure depends on set membership only.  The
same files, no two of them registered under the same name, in any order, with the same given
files in any order, and any two enumerations of the sets, give with enough
fuel two results of `compute_mains` that have the same names of entries in
the same order and, for every name, sets with the same members. -/
theorem compute_mains_order_independent (enum1 enum2 : Enumeration)
    (he1 : enumerates enum1) (he2 : enumerates enum2) (curdir : Str)
    (regs1 regs2 : List Registration) (given1 given2 : List Str)
    (hregs : regs1.Perm regs2) (hgiven : given1.Perm given2)
    (hk : (regs1.map (fun r => module_of (c_str r.name))).Nodup)
    (fuel1 fuel2 : Nat) (h1 : given1.length + 2 ≤ fuel1) (h2 : given2.length + 2 ≤ fuel2) :
    ∃ q1 q2,
      (register_all enum1 curdir regs1 given1).compute_mains enum1 fuel1 = some q1 ∧
      (register_all enum2 curdir regs2 given2).compute_mains enum2 fuel2 = some q2 ∧
      q1.mains.map (fun e => e.name) = q2.mains.map (fun e => e.name) ∧
      ∀ e1 ∈ q1.mains, ∀ e2 ∈ q2.mains, e1.name = e2.name →
        ∀ m, m ∈ e1.deps ↔ m ∈ e2.deps := by
  have hk2 : (regs2.map (fun r => module_of (c_str r.name))).Nodup :=
    (hregs.map _).nodup_iff.mp hk
  have hok1 := register_all_ok enum1 curdir regs1 given1
  have hok2 := register_all_ok enum2 curdir regs2 given2
  have hf1 : (register_all enum1 curdir regs1 given1).given_files.length + 2 ≤ fuel1 :=
    Nat.le_trans (Nat.add_le_add_right (register_all_length enum1 curdir regs1 given1) 2) h1
  have hf2 : (register_all enum2 curdir regs2 given2).given_files.length + 2 ≤ fuel2 :=
    Nat.le_trans (Nat.add_le_add_right (register_all_length enum2 curdir regs2 given2) 2) h2
  refine ⟨_, _, compute_mains_spec enum1 _ hok1 fuel1 hf1,
    compute_mains_spec enum2 _ hok2 fuel2 hf2, ?_, ?_⟩
  · simp only [List.map_map]
    have hn1 : ((fun e : Source_file => e.name) ∘
        closed_entry enum1 (register_all enum1 curdir regs1 given1) fuel1) =
        fun f => f.name := funext (fun f => closed_entry_name _ _ _ f)
    have hn2 : ((fun e : Source_file => e.name) ∘
        closed_entry enum2 (register_all enum2 curdir regs2 given2) fuel2) =
        fun f => f.name := funext (fun f => closed_entry_name _ _ _ f)
    rw [hn1, hn2]
    refine sorted_ext _ _ (List.pairwise_map.mpr hok1.1) (List.pairwise_map.mpr hok2.1) ?_
    intro n
    simp only [List.mem_map, register_all_files enum1 curdir regs1 given1 hk,
      register_all_files enum2 curdir regs2 given2 hk2]
    constructor
    · rintro ⟨f, ⟨r, hr, hf⟩, hn⟩
      exact ⟨registered enum2 r, ⟨r, hregs.mem_iff.mp hr, rfl⟩, by rw [← hn, hf]; rfl⟩
    · rintro ⟨f, ⟨r, hr, hf⟩, hn⟩
      exact ⟨registered enum1 r, ⟨r, hregs.mem_iff.mpr hr, rfl⟩, by rw [← hn, hf]; rfl⟩
  · intro e1 he1m e2 he2m hname m
    obtain ⟨f1, hf1m, rfl⟩ := List.mem_map.mp he1m
    obtain ⟨f2, hf2m, rfl⟩ := List.mem_map.mp he2m
    rw [closed_entry_name, closed_entry_name] at hname
    rw [closed_entry_deps enum1 he1 _ hok1 fuel1 hf1 f1 hf1m,
      closed_entry_deps enum2 he2 _ hok2 fuel2 hf2 f2 hf2m]
    rw [register_all_files enum1 curdir regs1 given1 hk] at hf1m
    rw [register_all_files enum2 curdir regs2 given2 hk2] at hf2m
    obtain ⟨r1, hr1, rfl⟩ := hf1m
    obtain ⟨r2, hr2, rfl⟩ := hf2m
    have hr : r1 = r2 :=
      key_injective regs2 hk2 r1 r2 (hregs.mem_iff.mp hr1) hr2 hname
    subst hr
    constructor
    · exact reach_register_all enum1 enum2 he1 he2 curdir regs1 regs2 given1 given2
        (fun r => hregs.mem_iff.mp) (fun fn => hgiven.mem_iff.mp) hk hk2 r1 m
    · exact reach_register_all enum2 enum1 he2 he1 curdir regs2 regs1 given2 given1
        (fun r => hregs.mem_iff.mpr) (fun fn => hgiven.mem_iff.mpr) hk2 hk r1 m

end Mkdeps

namespace Mkdeps

theorem enumerates_reverse : enumerates List.reverse := fun _ _ => List.mem_reverse

theorem compute_mains_order_independent_witness :
    enumerates id ∧ enumerates List.reverse ∧ chain_regs.Perm chain_regs.reverse ∧
    chain_given.Perm chain_given.reverse ∧
    (chain_regs.map (fun r => module_of (c_str r.name))).Nodup ∧
    chain_given.length + 2 ≤ 5 ∧ chain_given.reverse.length + 2 ≤ 6 ∧
    ∃ q1 q2,
      (register_all id [] chain_regs chain_given).compute_mains id 5 = some q1 ∧
      (register_all List.reverse [] chain_regs.reverse chain_given.reverse).compute_mains
        List.reverse 6 = some q2 ∧
      q1.mains.map (fun e => e.name) = q2.mains.map (fun e => e.name) ∧
      ∀ e1 ∈ q1.mains, ∀ e2 ∈ q2.mains, e1.name = e2.name →
        ∀ m, m ∈ e1.deps ↔ m ∈ e2.deps :=
  ⟨enumerates_id, enumerates_reverse, (List.reverse_perm _).symm, (List.reverse_perm _).symm,
    by decide, by decide, by decide,
    compute_mains_order_independent id List.reverse enumerates_id enumerates_reverse []
      chain_regs chain_regs.reverse chain_given chain_given.reverse
      (List.reverse_perm _).symm (List.reverse_perm _).symm (by decide) 5 6
      (by decide) (by decide)⟩

end Mkdeps

namespace Mkdeps

end Mkdeps

namespace Mkdeps

/-! ### The target of a scan -/

theorem strncmp_eq_cons_succ (b : Char) (buf : Str) (off : Nat) (pat : Str) :
    strncmp_eq (b :: buf) (off + 1) pat = strncmp_eq buf off pat := by
  induction pat generalizing off with
  | nil => rfl
  | cons c pat ih => simp only [strncmp_eq, charAt_cons_succ, ih]

/-- The call `strncmp (buf, pat, n) == 0` holds when `pat` is a prefix. -/
theorem strncmp_eq_starts (buf pat : Str) (hp : ∀ c ∈ pat, c ≠ NUL) :
    strncmp_eq buf 0 pat = true ↔ pat <+: buf := by
  induction pat generalizing buf with
  | nil => simp [strncmp_eq]
  | cons c pat ih =>
    have hc : c ≠ NUL := hp c (List.mem_cons_self _ _)
    cases buf with
    | nil =>
      simp only [strncmp_eq, charAt_nil, Bool.and_eq_true, beq_iff_eq]
      constructor
      · rintro ⟨h, _⟩; exact absurd h.symm hc
      · intro h; exact absurd (List.eq_nil_of_prefix_nil h) (List.cons_ne_nil _ _)
    | cons b buf =>
      simp only [strncmp_eq, charAt_cons_zero, strncmp_eq_cons_succ, Bool.and_eq_true,
        beq_iff_eq, List.cons_prefix_cons,
        ih buf (fun x hx => hp x (List.mem_cons_of_mem _ hx))]
      constructor
      · rintro ⟨h1, h2⟩; exact ⟨h1.symm, h2⟩
      · rintro ⟨h1, h2⟩; exact ⟨h1.symm, h2⟩

theorem last_target_nil (t : Target_type) : last_target t [] = t := rfl

theorem last_target_append (t : Target_type) (a b : List Str) :
    last_target t (a ++ b) = last_target (last_target t a) b := by
  unfold last_target
  rw [List.filterMap_append, List.getLast?_append]
  cases (List.filterMap classify b).getLast? with
  | none => simp
  | some x => simp

/-- The step of the loop of `scan_source_file` on a line that is no directive:
the target becomes the classification of the line, if it has one. -/
theorem classify_step (sb : Str) (t : Target_type) :
    (if strncmp_eq (skip_space (c_str sb)) 0 "int main".toList
        ∨ strncmp_eq (skip_space (c_str sb)) 0 "main".toList then Target_type.Main_target
      else if strncmp_eq (skip_space (c_str sb)) 0 "/* LIBRARY */".toList then
        Target_type.Lib_target
      else t) = last_target t [sb] := by
  have h1 := strncmp_eq_starts (skip_space (c_str sb)) "int main".toList (by decide)
  have h2 := strncmp_eq_starts (skip_space (c_str sb)) "main".toList (by decide)
  have h3 := strncmp_eq_starts (skip_space (c_str sb)) "/* LIBRARY */".toList (by decide)
  unfold last_target classify
  unfold skip_space at h1 h2 h3 ⊢
  simp only [List.filterMap_cons, List.filterMap_nil]
  by_cases ha : "int main".toList <+: List.dropWhile isspace (c_str sb) ∨
      "main".toList <+: List.dropWhile isspace (c_str sb)
  · rw [if_pos ha, if_pos (by rw [h1, h2]; exact ha)]
    rfl
  · rw [if_neg ha, if_neg (by rw [h1, h2]; exact ha)]
    by_cases hb : "/* LIBRARY */".toList <+: List.dropWhile isspace (c_str sb)
    · rw [if_pos hb, if_pos (by rw [h3]; exact hb)]
      rfl
    · rw [if_neg hb, if_neg (by rw [h3]; exact hb)]
      rfl

/-- A directive has no classification. -/
theorem classify_directive (sb : Str) (h : charAt (skip_space (c_str sb)) 0 = '#') :
    classify sb = none := by
  unfold classify
  unfold skip_space at h
  cases hi : List.dropWhile isspace (c_str sb) with
  | nil => rw [hi, charAt_nil] at h; exact absurd h (by decide)
  | cons c cs =>
    rw [hi, charAt_cons_zero] at h
    subst h
    simp only
    rw [if_neg, if_neg]
    · intro hp
      have := List.cons_prefix_cons.mp hp
      exact absurd this.1 (by decide)
    · rintro (hp | hp)
      · have := List.cons_prefix_cons.mp hp
        exact absurd this.1 (by decide)
      · have := List.cons_prefix_cons.mp hp
        exact absurd this.1 (by decide)

theorem last_target_directive (t : Target_type) (sb : Str)
    (h : charAt (skip_space (c_str sb)) 0 = '#') : last_target t [sb] = t := by
  unfold last_target
  simp [classify_directive sb h]

end Mkdeps

namespace Mkdeps

theorem process_line_other (g : Globals) (fs : Files)
    (scan scan2 : State → List Str → Str → Option State)
    (st : State) (is : List Str) (d parent_dir : Str)
    (h : ¬ (strncmp_eq d 0 "include".toList = true)) :
    process_line g fs scan st is d parent_dir = process_line g fs scan2 st is d parent_dir := by
  unfold process_line
  rw [if_neg h, if_neg h]

theorem process_line_other_target (g : Globals) (fs : Files)
    (scan : State → List Str → Str → Option State)
    (st : State) (is : List Str) (d parent_dir : Str)
    (h : ¬ (strncmp_eq d 0 "include".toList = true)) (r : State × List Str)
    (hr : process_line g fs scan st is d parent_dir = some r) : r.1.target = st.target := by
  unfold process_line at hr
  rw [if_neg h] at hr
  split at hr
  · cases hr; rfl
  · split at hr
    · cases hr; rfl
    · split at hr
      · cases hr; rfl
      · split at hr
        · cases hr; rfl
        · split at hr
          · cases hr; rfl
          · cases hr; rfl

/-- Without the lines read `process_line_log` is `process_line`. -/
theorem process_line_log_erase (g : Globals) (fs : Files)
    (scanL : Logged → List Str → Str → Option Logged)
    (scan : State → List Str → Str → Option State)
    (H : ∀ st log is name, (scanL (st, log) is name).map Prod.fst = scan st is name)
    (st : State) (log : List Str) (is : List Str) (d parent_dir : Str) :
    (process_line_log g fs scanL (st, log) is d parent_dir).map (fun r => (r.1.1, r.2)) =
      process_line g fs scan st is d parent_dir := by
  by_cases h : strncmp_eq d 0 "include".toList = true
  · unfold process_line_log process_line
    rw [if_pos h, if_pos h]
    simp only
    cases hl : locate_file g fs (skip_space (List.drop 7 d)) [] parent_dir with
    | mk b expanded =>
      cases b with
      | false => rfl
      | true =>
        simp only [process_include_log, process_include]
        cases open_file fs (c_str expanded) with
        | none => rfl
        | some is2 =>
          simp only [Option.map_map]
          rw [← H (add_dependency st expanded) log is2 (c_str expanded)]
          simp only [Option.map_map]
          rfl
  · unfold process_line_log
    rw [if_neg h]
    simp only [Option.map_map]
    rw [process_line_other g fs scan (fun s _ _ => some s) st is d parent_dir h]
    cases process_line g fs (fun s _ _ => some s) st is d parent_dir with
    | none => rfl
    | some r => rfl

theorem scan_loop_log_cons (g : Globals) (fs : Files)
    (scan : Logged → List Str → Str → Option Logged) (n : Nat) (st : Logged) (ns sb : Str)
    (rest : List Str) :
    scan_loop_log g fs scan (n + 1) st ns (sb :: rest) =
      if charAt (skip_space (c_str sb)) 0 = '#' then
        match process_line_log g fs scan (st.1, st.2 ++ [sb]) rest
            (skip_space ((skip_space (c_str sb)).drop 1)) ns with
        | some (st1, rest1) => scan_loop_log g fs scan n st1 ns rest1
        | none => none
      else if strncmp_eq (skip_space (c_str sb)) 0 "int main".toList
          ∨ strncmp_eq (skip_space (c_str sb)) 0 "main".toList then
        scan_loop_log g fs scan n
          ({ st.1 with target := Target_type.Main_target }, st.2 ++ [sb]) ns rest
      else if strncmp_eq (skip_space (c_str sb)) 0 "/* LIBRARY */".toList then
        scan_loop_log g fs scan n
          ({ st.1 with target := Target_type.Lib_target }, st.2 ++ [sb]) ns rest
      else scan_loop_log g fs scan n (st.1, st.2 ++ [sb]) ns rest := rfl

theorem scan_loop_log_erase (g : Globals) (fs : Files)
    (scanL : Logged → List Str → Str → Option Logged)
    (scan : State → List Str → Str → Option State)
    (H : ∀ st log is name, (scanL (st, log) is name).map Prod.fst = scan st is name)
    (n : Nat) (st : State) (log : List Str) (ns : Str) (is : List Str) :
    (scan_loop_log g fs scanL n (st, log) ns is).map Prod.fst =
      scan_loop g fs scan n st ns is := by
  induction n generalizing st log is with
  | zero =>
    cases is with
    | nil => rfl
    | cons sb rest => rfl
  | succ n ih =>
    cases is with
    | nil => rfl
    | cons sb rest =>
      rw [scan_loop_log_cons, scan_loop_cons]
      split
      · have hp := process_line_log_erase g fs scanL scan H st (log ++ [sb]) rest
          (skip_space ((skip_space (c_str sb)).drop 1)) ns
        simp only at hp ⊢
        rw [← hp]
        cases process_line_log g fs scanL (st, log ++ [sb]) rest
            (skip_space ((skip_space (c_str sb)).drop 1)) ns with
        | none => rfl
        | some r =>
          obtain ⟨⟨s1, l1⟩, rest1⟩ := r
          exact ih s1 l1 rest1
      · split
        · exact ih _ _ _
        · split
          · exact ih _ _ _
          · exact ih _ _ _

theorem scan_source_file_log_erase (g : Globals) (fs : Files) (depth : Nat) :
    ∀ (st : State) (log : List Str) (is : List Str) (name : Str),
      (scan_source_file_log g fs depth (st, log) is name).map Prod.fst =
        scan_source_file g fs depth st is name := by
  induction depth with
  | zero =>
    intro st log is name
    simp only [scan_source_file_log, scan_source_file]
    split <;> rfl
  | succ depth ih =>
    intro st log is name
    simp only [scan_source_file_log, scan_source_file]
    split
    · rfl
    · exact scan_loop_log_erase g fs _ _ ih _ _ _ _ _

theorem process_line_log_target (g : Globals) (fs : Files)
    (scanL : Logged → List Str → Str → Option Logged)
    (H : ∀ st log is name r, scanL (st, log) is name = some r →
      ∃ new, r.2 = log ++ new ∧ r.1.target = last_target st.target new)
    (st : State) (log : List Str) (is : List Str) (d parent_dir : Str)
    (r : Logged × List Str)
    (hr : process_line_log g fs scanL (st, log) is d parent_dir = some r) :
    ∃ new, r.1.2 = log ++ new ∧ r.1.1.target = last_target st.target new := by
  by_cases h : strncmp_eq d 0 "include".toList = true
  · unfold process_line_log at hr
    rw [if_pos h] at hr
    simp only at hr
    cases hl : locate_file g fs (skip_space (List.drop 7 d)) [] parent_dir with
    | mk b expanded =>
      rw [hl] at hr
      cases b with
      | false =>
        simp only [Option.some.injEq] at hr
        subst hr
        exact ⟨[], by simp, rfl⟩
      | true =>
        simp only [process_include_log] at hr
        cases ho : open_file fs (c_str expanded) with
        | none =>
          rw [ho] at hr
          simp only [Option.map_some', Option.some.injEq] at hr
          subst hr
          exact ⟨[], by simp, rfl⟩
        | some is2 =>
          rw [ho] at hr
          simp only at hr
          cases hs : scanL (add_dependency st expanded, log) is2 (c_str expanded) with
          | none => rw [hs] at hr; cases hr
          | some r2 =>
            rw [hs] at hr
            simp only [Option.map_some', Option.some.injEq] at hr
            subst hr
            exact H (add_dependency st expanded) log is2 (c_str expanded) r2 hs
  · unfold process_line_log at hr
    rw [if_neg h] at hr
    cases hp : process_line g fs (fun s _ _ => some s) st is d parent_dir with
    | none => simp only [hp, Option.map_none'] at hr; cases hr
    | some r2 =>
      simp only [hp, Option.map_some', Option.some.injEq] at hr
      subst hr
      exact ⟨[], by simp, process_line_other_target g fs _ st is d parent_dir h r2 hp⟩

theorem scan_loop_log_target (g : Globals) (fs : Files)
    (scanL : Logged → List Str → Str → Option Logged)
    (H : ∀ st log is name r, scanL (st, log) is name = some r →
      ∃ new, r.2 = log ++ new ∧ r.1.target = last_target st.target new)
    (n : Nat) (st : State) (log : List Str) (ns : Str) (is : List Str) (r : Logged)
    (hr : scan_loop_log g fs scanL n (st, log) ns is = some r) :
    ∃ new, r.2 = log ++ new ∧ r.1.target = last_target st.target new := by
  induction n generalizing st log is with
  | zero =>
    cases is with
    | nil =>
      simp only [scan_loop_log, Option.some.injEq] at hr
      subst hr
      exact ⟨[], by simp, rfl⟩
    | cons sb rest => simp [scan_loop_log] at hr
  | succ n ih =>
    cases is with
    | nil =>
      simp only [scan_loop_log, Option.some.injEq] at hr
      subst hr
      exact ⟨[], by simp, rfl⟩
    | cons sb rest =>
      rw [scan_loop_log_cons] at hr
      have hstep := classify_step sb st.target
      split at hr
      · rename_i hd
        simp only at hr
        cases hp : process_line_log g fs scanL (st, log ++ [sb]) rest
            (skip_space ((skip_space (c_str sb)).drop 1)) ns with
        | none => rw [hp] at hr; cases hr
        | some r1 =>
          obtain ⟨⟨s1, l1⟩, rest1⟩ := r1
          rw [hp] at hr
          simp only at hr
          obtain ⟨new1, hl1, ht1⟩ := process_line_log_target g fs scanL H st (log ++ [sb])
            rest _ ns _ hp
          obtain ⟨new2, hl2, ht2⟩ := ih s1 l1 rest1 hr
          simp only at hl1 ht1
          refine ⟨[sb] ++ new1 ++ new2, ?_, ?_⟩
          · rw [hl2, hl1]; simp
          · rw [ht2, ht1, last_target_append, last_target_append,
              last_target_directive st.target sb hd]
      · rename_i hd
        split at hr
        · rename_i hm
          rw [if_pos hm] at hstep
          obtain ⟨new2, hl2, ht2⟩ := ih _ _ rest hr
          simp only at hl2 ht2
          refine ⟨[sb] ++ new2, ?_, ?_⟩
          · rw [hl2]; simp
          · rw [ht2, last_target_append, ← hstep]
        · rename_i hm
          rw [if_neg hm] at hstep
          split at hr
          · rename_i hl
            rw [if_pos hl] at hstep
            obtain ⟨new2, hl2, ht2⟩ := ih _ _ rest hr
            simp only at hl2 ht2
            refine ⟨[sb] ++ new2, ?_, ?_⟩
            · rw [hl2]; simp
            · rw [ht2, last_target_append, ← hstep]
          · rename_i hl
            rw [if_neg hl] at hstep
            obtain ⟨new2, hl2, ht2⟩ := ih _ _ rest hr
            simp only at hl2 ht2
            refine ⟨[sb] ++ new2, ?_, ?_⟩
            · rw [hl2]; simp
            · rw [ht2, last_target_append, ← hstep]

theorem scan_source_file_log_target (g : Globals) (fs : Files) (depth : Nat) :
    ∀ (st : State) (log : List Str) (is : List Str) (name : Str) (r : Logged),
      scan_source_file_log g fs depth (st, log) is name = some r →
      ∃ new, r.2 = log ++ new ∧ r.1.target = last_target st.target new := by
  induction depth with
  | zero =>
    intro st log is name r hr
    simp only [scan_source_file_log] at hr
    split at hr
    · cases hr; exact ⟨[], by simp, rfl⟩
    · cases hr
  | succ depth ih =>
    intro st log is name r hr
    simp only [scan_source_file_log] at hr
    split at hr
    · cases hr; exact ⟨[], by simp, rfl⟩
    · exact scan_loop_log_target g fs _ ih is.length
        { st with already_seen := st.already_seen.insert name } log _ is r hr

/-- In a file without directives the loop reads all the lines. -/
theorem scan_loop_log_plain (g : Globals) (fs : Files)
    (scanL : Logged → List Str → Str → Option Logged)
    (n : Nat) (st : State) (log : List Str) (ns : Str) (is : List Str) (r : Logged)
    (hplain : ∀ sb ∈ is, charAt (skip_space (c_str sb)) 0 ≠ '#')
    (hr : scan_loop_log g fs scanL n (st, log) ns is = some r) : r.2 = log ++ is := by
  induction n generalizing st log is with
  | zero =>
    cases is with
    | nil =>
      simp only [scan_loop_log, Option.some.injEq] at hr
      subst hr
      simp
    | cons sb rest => simp [scan_loop_log] at hr
  | succ n ih =>
    cases is with
    | nil =>
      simp only [scan_loop_log, Option.some.injEq] at hr
      subst hr
      simp
    | cons sb rest =>
      rw [scan_loop_log_cons, if_neg (hplain sb (List.mem_cons_self _ _))] at hr
      have hrest : ∀ x ∈ rest, charAt (skip_space (c_str x)) 0 ≠ '#' :=
        fun x hx => hplain x (List.mem_cons_of_mem _ hx)
      split at hr
      · rw [ih _ _ rest hrest hr]; simp
      · split at hr
        · rw [ih _ _ rest hrest hr]; simp
        · rw [ih _ _ rest hrest hr]; simp

end Mkdeps

namespace Mkdeps

/-- C14: the target is the last match.  With enough depth a scan from the
initial state returns, and its target is the classification of the last line
read by the loop of `scan_source_file`, in the file or in a file it includes,
that after leading white space begins with `int main` or `main`
(`Main_target`) or with `/* LIBRARY */` (`Lib_target`); it is `Not_target`
when no line read has a classification.  The lines consumed by
`process_ifdef` are not read by the loop; in a file without directives the
lines read are the lines of the file. -/
theorem scan_target_last_match (g : Globals) (fs : Files) (is : List Str) (name : Str)
    (depth : Nat) (hd : fs.length + 1 ≤ depth) :
    ∃ st log, scan_source_file g fs depth State.init is name = some st ∧
      scan_source_file_log g fs depth (State.init, []) is name = some (st, log) ∧
      st.target = ((log.filterMap classify).getLast?).getD Target_type.Not_target ∧
      ((∀ sb ∈ is, charAt (skip_space (c_str sb)) 0 ≠ '#') → log = is) := by
  obtain ⟨r, hr, _, _⟩ := scan_source_file_returns g fs depth State.init is name
    (Or.inr (Nat.lt_of_lt_of_le (Nat.lt_succ_of_le (unseen_le_length fs _)) hd))
  have herase := scan_source_file_log_erase g fs depth State.init [] is name
  rw [hr] at herase
  cases hl : scan_source_file_log g fs depth (State.init, []) is name with
  | none => rw [hl] at herase; cases herase
  | some rl =>
    obtain ⟨s, log⟩ := rl
    rw [hl] at herase
    simp only [Option.map_some', Option.some.injEq] at herase
    subst herase
    obtain ⟨new, hnew, ht⟩ := scan_source_file_log_target g fs depth State.init [] is name _ hl
    simp only [List.nil_append] at hnew
    subst hnew
    refine ⟨s, log, hr, rfl, ht, ?_⟩
    intro hplain
    obtain ⟨k, rfl⟩ : ∃ k, depth = k + 1 := ⟨depth - 1, by omega⟩
    simp only [scan_source_file_log, State.init, List.not_mem_nil, if_false] at hl
    have := scan_loop_log_plain g fs _ is.length _ [] _ is _ hplain hl
    simpa using this

theorem scan_target_last_match_witness :
    target_files.length + 1 ≤ 2 ∧
    ∃ st log, scan_source_file default_globals target_files 2 State.init target_lines
        "t.c".toList = some st ∧
      scan_source_file_log default_globals target_files 2 (State.init, []) target_lines
        "t.c".toList = some (st, log) ∧
      st.target = ((log.filterMap classify).getLast?).getD Target_type.Not_target ∧
      ((∀ sb ∈ target_lines, charAt (skip_space (c_str sb)) 0 ≠ '#') → log = target_lines) :=
  ⟨by decide, scan_target_last_match default_globals target_files target_lines "t.c".toList 2
    (by decide)⟩

/-- The scan of `target_lines`: the library mark is read, the main program in
the skipped region is not, and the line `main` of the included header comes
last. -/
theorem scan_target_example :
    (scan_source_file_log default_globals target_files 2 (State.init, []) target_lines
      "t.c".toList).map (fun r => (r.1.target, r.2)) =
      some (Target_type.Main_target,
        ["/* LIBRARY */".toList, "#ifdef X".toList, include_line "m.h",
          "  main (void)".toList, [], "int x;".toList, []]) := by
  decide

/-! ### Conditional regions -/

/-- C11, evaluated at its failing input: `FOO` has not been defined and `FOX`
has.  The line `#define FOX` stores `FO`, the line `#ifdef FOO` looks up `FO`,
the region is scanned, and both `x.h` and `y.h` are recorded.  Without the
line `#define FOX` only `y.h` is recorded. -/
theorem ifdef_else_after_similar_define :
    word_before "FOX".toList = "FO".toList ∧ word_before "FOO".toList = "FO".toList ∧
    (scan_source_file default_globals two_headers 3 State.init
      ["#define FOX".toList, "#ifdef FOO".toList, include_line "x.h", "#else".toList,
        include_line "y.h", "#endif".toList, []] "t.c".toList).map State.deps =
      some ["y.h".toList, "x.h".toList] ∧
    (scan_source_file default_globals two_headers 3 State.init
      ["#ifdef FOO".toList, include_line "x.h", "#else".toList,
        include_line "y.h", "#endif".toList, []] "t.c".toList).map State.deps =
      some ["y.h".toList] := by
  decide

/-- C12, evaluated at its failing input: after `#define FOO` only, the region
guarded by `#ifdef FOX` is scanned and its include is recorded, as is the
region guarded by `#ifdef FOO`; both names are cut to `FO`.  The region
guarded by `#ifdef BAR` is skipped. -/
theorem ifdef_of_similar_name :
    (scan_source_file default_globals two_headers 3 State.init
      ["#define FOO".toList, "#ifdef FOX".toList, include_line "x.h", "#endif".toList, []]
      "t.c".toList).map (fun st => (st.defines, st.deps)) =
      some (["FO".toList], ["x.h".toList]) ∧
    (scan_source_file default_globals two_headers 3 State.init
      ["#define FOO".toList, "#ifdef FOO".toList, include_line "x.h", "#endif".toList, []]
      "t.c".toList).map State.deps = some ["x.h".toList] ∧
    (scan_source_file default_globals two_headers 3 State.init
      ["#define FOO".toList, "#ifdef BAR".toList, include_line "x.h", "#endif".toList, []]
      "t.c".toList).map State.deps = some [] := by
  decide

/-- C13, evaluated at its failing input: after `#define A`, which stores the
empty string, the line `#ifdef 0` looks up the empty string, not `0`, and
finds it: the region is scanned and its include is recorded.  Without a
define the region is skipped. -/
theorem ifdef_zero_after_define :
    word_before "0".toList = [] ∧ word_before "A".toList = [] ∧
    (scan_source_file default_globals two_headers 3 State.init
      ["#define A".toList, "#ifdef 0".toList, include_line "x.h", "#endif".toList, []]
      "t.c".toList).map (fun st => (st.defines, st.deps)) = some ([[]], ["x.h".toList]) ∧
    (scan_source_file default_globals two_headers 3 State.init
      ["#ifdef 0".toList, include_line "x.h", "#endif".toList, []]
      "t.c".toList).map State.deps = some [] := by
  decide

end Mkdeps

namespace Mkdeps

/-! ### Wrapping -/

/-- The function `cat_and_wrap` appends a space and the token, after a
continuation marker or not. -/
theorem cat_and_wrap_eq (dest s : Str) :
    ∃ b, cat_and_wrap dest s = dest ++ wrapped_token b s := by
  have h : ∀ (c : Prop) [Decidable c],
      ∃ b, (if c then dest ++ continuation else dest) ++ [' '] ++ s =
        dest ++ wrapped_token b s := by
    intro c _
    by_cases hc : c
    · exact ⟨true, by simp [hc, wrapped_token]⟩
    · exact ⟨false, by simp [hc, wrapped_token]⟩
  exact h _

theorem foldl_cat_and_wrap (tokens : List Str) (dest : Str) :
    ∃ bs : List Bool, bs.length = tokens.length ∧
      tokens.foldl cat_and_wrap dest = dest ++ (List.zipWith wrapped_token bs tokens).flatten := by
  induction tokens generalizing dest with
  | nil => exact ⟨[], rfl, by simp⟩
  | cons t ts ih =>
    obtain ⟨b, hb⟩ := cat_and_wrap_eq dest t
    obtain ⟨bs, hlen, hbs⟩ := ih (cat_and_wrap dest t)
    refine ⟨b :: bs, by simp [hlen], ?_⟩
    rw [List.foldl_cons, hbs, hb]
    simp

theorem remove_continuations_skip (x r : Str) :
    remove_continuations_from x.length (x ++ r) = remove_continuations_from 0 r := by
  induction x with
  | nil => rfl
  | cons c cs ih =>
    cases r with
    | nil => simpa [remove_continuations_from] using ih
    | cons d ds => simpa [remove_continuations_from] using ih

theorem remove_continuations_marker (r : Str) :
    remove_continuations_from 0 (continuation ++ r) = remove_continuations_from 0 r := by
  have h : continuation ++ r = ' ' :: ([' ', '\\', '\n', ' ', ' ', ' '] ++ r) := rfl
  rw [h, remove_continuations_from, if_pos (by rw [← h]; exact List.prefix_append _ _)]
  exact remove_continuations_skip [' ', '\\', '\n', ' ', ' ', ' '] r

/-- Characters other than a backslash in front of a text whose first two
characters are no backslash are kept. -/
theorem remove_continuations_plain (x r : Str) (hx : ∀ c ∈ x, c ≠ '\\')
    (h0 : charAt r 0 ≠ '\\') (h1 : charAt r 1 ≠ '\\') :
    remove_continuations_from 0 (x ++ r) = x ++ remove_continuations_from 0 r := by
  induction x with
  | nil => rfl
  | cons c cs ih =>
    have hcs : ∀ c ∈ cs, c ≠ '\\' := fun d hd => hx d (List.mem_cons_of_mem _ hd)
    have hno : ¬ continuation <+: c :: (cs ++ r) := by
      intro hp
      obtain ⟨t, ht⟩ := hp
      have h2 : charAt (c :: (cs ++ r)) 2 = '\\' := by
        rw [← ht]; rfl
      rw [charAt_cons_succ] at h2
      cases cs with
      | nil => exact h1 h2
      | cons a as =>
        rw [List.cons_append, charAt_cons_succ] at h2
        cases as with
        | nil => exact h0 h2
        | cons b bs =>
          rw [List.cons_append, charAt_cons_zero] at h2
          exact hcs b (by simp) h2
    rw [List.cons_append, remove_continuations_from, if_neg hno, ih hcs]
    rfl

theorem wrapped_start (bs : List Bool) (tokens : List Str)
    (ht : ∀ t ∈ tokens, ∀ c ∈ t, c ≠ '\\') :
    charAt (List.zipWith wrapped_token bs tokens).flatten 0 ≠ '\\' ∧
    charAt (List.zipWith wrapped_token bs tokens).flatten 1 ≠ '\\' := by
  induction tokens generalizing bs with
  | nil => simp [charAt_nil, NUL]
  | cons t ts ih =>
    cases bs with
    | nil => simp [charAt_nil, NUL]
    | cons b bs =>
      have ih2 := ih bs (fun u hu => ht u (List.mem_cons_of_mem _ hu))
      simp only [List.zipWith_cons_cons, List.flatten_cons]
      cases b with
      | true =>
        constructor
        · simp [wrapped_token, continuation, charAt_cons_zero]
        · simp [wrapped_token, continuation, charAt_cons_zero, charAt_cons_succ]
      | false =>
        simp only [wrapped_token, Bool.false_eq_true, if_false, List.nil_append,
          List.cons_append, charAt_cons_zero, charAt_cons_succ]
        refine ⟨by decide, ?_⟩
        cases t with
        | nil => exact ih2.1
        | cons c cs =>
          rw [List.cons_append, charAt_cons_zero]
          exact ht (c :: cs) (List.mem_cons_self _ _) c (List.mem_cons_self _ _)

theorem remove_continuations_wrapped (bs : List Bool) (tokens : List Str)
    (hlen : bs.length = tokens.length) (ht : ∀ t ∈ tokens, ∀ c ∈ t, c ≠ '\\') :
    remove_continuations (List.zipWith wrapped_token bs tokens).flatten = unwrapped tokens := by
  unfold remove_continuations unwrapped
  induction tokens generalizing bs with
  | nil => simp [remove_continuations_from]
  | cons t ts ih =>
    cases bs with
    | nil => simp at hlen
    | cons b bs =>
      have hts : ∀ u ∈ ts, ∀ c ∈ u, c ≠ '\\' := fun u hu => ht u (List.mem_cons_of_mem _ hu)
      have hsafe := wrapped_start bs ts hts
      have hplain : ∀ c ∈ ' ' :: t, c ≠ '\\' := by
        intro c hc
        rcases List.mem_cons.mp hc with hc | hc
        · rw [hc]; decide
        · exact ht t (List.mem_cons_self _ _) c hc
      simp only [List.zipWith_cons_cons, List.flatten_cons, List.map_cons]
      have hstep : remove_continuations_from 0
          (wrapped_token b t ++ (List.zipWith wrapped_token bs ts).flatten) =
          remove_continuations_from 0 ((' ' :: t) ++ (List.zipWith wrapped_token bs ts).flatten) := by
        cases b with
        | true =>
          simp only [wrapped_token, if_true, List.append_assoc]
          exact remove_continuations_marker _
        | false => simp [wrapped_token]
      rw [hstep, remove_continuations_plain (' ' :: t) _ hplain hsafe.1 hsafe.2,
        ih bs (by simpa using hlen) hts]

end Mkdeps

namespace Mkdeps

/-! ### The width of the wrapped lines -/

theorem end_col_append (a b : Str) (col : Nat) :
    end_col (a ++ b) col = end_col b (end_col a col) := by
  induction a generalizing col with
  | nil => rfl
  | cons c cs ih =>
    simp only [List.cons_append, end_col]
    split
    · exact ih 0
    · exact ih (col + 1)

theorem end_col_le (x : Str) (col : Nat) : end_col x col ≤ col + x.length := by
  induction x generalizing col with
  | nil => simp [end_col]
  | cons c cs ih =>
    simp only [end_col, List.length_cons]
    split
    · have := ih 0; omega
    · have := ih (col + 1); omega

theorem end_col_plain (x : Str) (col : Nat) (h : ∀ c ∈ x, c ≠ '\n') :
    end_col x col = col + x.length := by
  induction x generalizing col with
  | nil => simp [end_col]
  | cons c cs ih =>
    simp only [end_col, List.length_cons]
    rw [if_neg (h c (List.mem_cons_self _ _)),
      ih (col + 1) (fun d hd => h d (List.mem_cons_of_mem _ hd))]
    omega

theorem width_ok_append (w : Nat) (a b : Str) (col : Nat) (ha : width_ok w a col = true)
    (hb : width_ok w b (end_col a col) = true) : width_ok w (a ++ b) col = true := by
  induction a generalizing col with
  | nil => exact hb
  | cons c cs ih =>
    simp only [List.cons_append, width_ok, end_col] at ha hb ⊢
    split
    · rename_i hc
      simp only [hc, if_true, Bool.and_eq_true] at ha hb ⊢
      exact ⟨ha.1, ih 0 ha.2 hb⟩
    · rename_i hc
      simp only [hc, if_false] at ha hb
      exact ih (col + 1) ha hb

theorem width_ok_short (w : Nat) (x : Str) (col : Nat) (h : col + x.length ≤ w) :
    width_ok w x col = true := by
  induction x generalizing col with
  | nil => simpa [width_ok] using h
  | cons c cs ih =>
    simp only [List.length_cons] at h
    simp only [width_ok]
    split
    · simp only [Bool.and_eq_true, decide_eq_true_eq]
      exact ⟨by omega, ih 0 (by omega)⟩
    · exact ih (col + 1) (by omega)

theorem lines_of_ne_nil (s : Str) : lines_of s ≠ [] := by
  cases s with
  | nil => simp [lines_of]
  | cons c cs =>
    simp only [lines_of]
    split
    · simp
    · split <;> simp

/-- The check `width_ok` bounds the physical lines. -/
theorem width_ok_lines (w : Nat) (s : Str) (col : Nat) (h : width_ok w s col = true) :
    ∃ l0 ls, lines_of s = l0 :: ls ∧ col + l0.length ≤ w ∧ ∀ l ∈ ls, l.length ≤ w := by
  induction s generalizing col with
  | nil => exact ⟨[], [], rfl, by simpa [width_ok] using h, fun l hl => by cases hl⟩
  | cons c cs ih =>
    simp only [width_ok] at h
    simp only [lines_of]
    split
    · rename_i hc
      simp only [hc, if_true, Bool.and_eq_true, decide_eq_true_eq] at h
      obtain ⟨l0, ls, hl, h0, hls⟩ := ih 0 h.2
      refine ⟨[], lines_of cs, rfl, by simpa using h.1, ?_⟩
      intro l hmem
      rw [hl] at hmem
      rcases List.mem_cons.mp hmem with hmem | hmem
      · rw [hmem]; omega
      · exact hls l hmem
    · rename_i hc
      simp only [hc, if_false] at h
      obtain ⟨l0, ls, hl, h0, hls⟩ := ih (col + 1) h
      rw [hl]
      exact ⟨c :: l0, ls, rfl, by simp only [List.length_cons]; omega, hls⟩

theorem width_ok_all_lines (w : Nat) (s : Str) (h : width_ok w s 0 = true) :
    ∀ l ∈ lines_of s, l.length ≤ w := by
  obtain ⟨l0, ls, hl, h0, hls⟩ := width_ok_lines w s 0 h
  intro l hmem
  rw [hl] at hmem
  rcases List.mem_cons.mp hmem with hmem | hmem
  · rw [hmem]; omega
  · exact hls l hmem

theorem line_start_scan_le (dest : Str) (k : Nat) : line_start_scan dest k ≤ k := by
  induction k with
  | zero => simp [line_start_scan]
  | succ k ih =>
    simp only [line_start_scan]
    split
    · exact Nat.le_refl _
    · exact Nat.le_succ_of_le ih

theorem line_start_scan_at (dest : Str) (k : Nat) :
    charAt dest (line_start_scan dest k) = '\n' ∨ line_start_scan dest k = 0 := by
  induction k with
  | zero => right; rfl
  | succ k ih =>
    simp only [line_start_scan]
    split
    · rename_i h; exact Or.inl h
    · exact ih

theorem line_start_scan_after (dest : Str) (k j : Nat)
    (h1 : line_start_scan dest k < j) (h2 : j ≤ k) : charAt dest j ≠ '\n' := by
  induction k with
  | zero => simp [line_start_scan] at h1; omega
  | succ k ih =>
    simp only [line_start_scan] at h1
    split at h1
    · omega
    · rename_i hc
      by_cases hj : j = k + 1
      · rw [hj]; exact hc
      · exact ih h1 (by omega)

/-- The distance that `cat_and_wrap` measures is the length of the last line,
or one more. -/
theorem line_start_scan_col (dest : Str) (h : dest ≠ []) :
    end_col dest 0 + line_start_scan dest (dest.length - 1) ≤ dest.length ∧
    dest.length ≤ end_col dest 0 + line_start_scan dest (dest.length - 1) + 1 := by
  have hpos : 0 < dest.length := List.length_pos.mpr h
  have hle := line_start_scan_le dest (dest.length - 1)
  have hlt : line_start_scan dest (dest.length - 1) < dest.length := by omega
  have hsplit : dest = dest.take (line_start_scan dest (dest.length - 1)) ++
      charAt dest (line_start_scan dest (dest.length - 1)) ::
        dest.drop (line_start_scan dest (dest.length - 1) + 1) := by
    rw [← drop_eq_charAt_cons dest _ hlt, List.take_append_drop]
  have htail : ∀ c ∈ dest.drop (line_start_scan dest (dest.length - 1) + 1), c ≠ '\n' := by
    intro c hc
    obtain ⟨i, hi, hget⟩ := List.mem_iff_getElem.mp hc
    have hi2 : i < dest.length - (line_start_scan dest (dest.length - 1) + 1) := by
      simpa using hi
    have hch : charAt dest (line_start_scan dest (dest.length - 1) + 1 + i) = c := by
      rw [← charAt_drop, charAt_of_lt _ _ hi, hget]
    rw [← hch]
    exact line_start_scan_after dest (dest.length - 1) _ (by omega) (by omega)
  have hlen : (dest.drop (line_start_scan dest (dest.length - 1) + 1)).length =
      dest.length - (line_start_scan dest (dest.length - 1) + 1) := by simp
  rcases line_start_scan_at dest (dest.length - 1) with hnl | hzero
  · have hcol : end_col dest 0 =
        (dest.drop (line_start_scan dest (dest.length - 1) + 1)).length := by
      conv_lhs => rw [hsplit]
      rw [end_col_append]
      simp only [end_col, hnl, if_true]
      rw [end_col_plain _ 0 htail]
      omega
    omega
  · by_cases hnl : charAt dest 0 = '\n'
    · rw [hzero] at hsplit htail hlen ⊢
      have hcol : end_col dest 0 = (dest.drop (0 + 1)).length := by
        conv_lhs => rw [hsplit]
        simp only [List.take_zero, List.nil_append, end_col, hnl, if_true]
        rw [end_col_plain _ 0 htail]
        omega
      omega
    · rw [hzero] at hsplit htail hlen ⊢
      have hcol : end_col dest 0 = dest.length := by
        have hall : ∀ c ∈ dest, c ≠ '\n' := by
          intro c hc
          rw [hsplit] at hc
          simp only [List.take_zero, List.nil_append, List.mem_cons] at hc
          rcases hc with hc | hc
          · rw [hc]; exact hnl
          · exact htail c hc
        rw [end_col_plain dest 0 hall]
        omega
      omega

end Mkdeps

namespace Mkdeps

theorem cat_and_wrap_unfold (dest s : Str) :
    cat_and_wrap dest s =
      (if add_size (to_int ((dest.length : Int) -
          (if dest = [] then (-1 : Int) else (line_start_scan dest (dest.length - 1) : Nat))))
          s.length > 72 then dest ++ continuation else dest) ++ [' '] ++ s := rfl

/-- The distance measured by `cat_and_wrap`, between the length of the last
line and one more. -/
theorem cat_and_wrap_distance (dest : Str) :
    ∃ d : Nat, (dest.length : Int) -
        (if dest = [] then (-1 : Int) else (line_start_scan dest (dest.length - 1) : Nat)) = d
      ∧ end_col dest 0 ≤ d ∧ d ≤ end_col dest 0 + 1 ∧ 1 ≤ d := by
  by_cases h : dest = []
  · subst h
    exact ⟨1, by simp, by simp [end_col], by simp [end_col], Nat.le_refl _⟩
  · have hcol := line_start_scan_col dest h
    have hle := line_start_scan_le dest (dest.length - 1)
    have hpos : 0 < dest.length := List.length_pos.mpr h
    refine ⟨dest.length - line_start_scan dest (dest.length - 1), ?_, by omega, by omega,
      by omega⟩
    rw [if_neg h]
    omega

theorem add_size_small (d n : Nat) (hd : d ≤ 78) (hn : n ≤ 73) :
    add_size (to_int (d : Int)) n = ((d + n : Nat) : Int) := by
  unfold add_size to_int
  omega

/-- One call of `cat_and_wrap` with a token of at most 73 characters keeps the
lines at most 80 characters long and the last line at most 77. -/
theorem cat_and_wrap_width (dest s : Str) (hs : s.length ≤ 73)
    (h1 : width_ok 80 dest 0 = true) (h2 : end_col dest 0 ≤ 77) :
    width_ok 80 (cat_and_wrap dest s) 0 = true ∧ end_col (cat_and_wrap dest s) 0 ≤ 77 := by
  obtain ⟨d, hd, hlo, hhi, _⟩ := cat_and_wrap_distance dest
  rw [cat_and_wrap_unfold, hd, add_size_small d s.length (by omega) hs]
  by_cases hb : ((d + s.length : Nat) : Int) > 72
  · rw [if_pos hb]
    have heq : dest ++ continuation ++ [' '] ++ s =
        dest ++ (' ' :: ' ' :: '\\' :: '\n' :: (' ' :: ' ' :: ' ' :: ' ' :: s)) := by
      simp [continuation]
    rw [heq]
    constructor
    · apply width_ok_append 80 dest _ 0 h1
      simp only [width_ok]
      simp only [Char.reduceEq, if_false, if_true, Bool.and_eq_true, decide_eq_true_eq]
      refine ⟨by omega, ?_⟩
      have := width_ok_short 80 (' ' :: ' ' :: ' ' :: ' ' :: s) 0
        (by simp only [List.length_cons]; omega)
      simpa [width_ok] using this
    · rw [end_col_append]
      simp only [end_col, Char.reduceEq, if_false, if_true]
      have := end_col_le s (0 + 1 + 1 + 1 + 1)
      omega
  · rw [if_neg hb]
    have hsum : d + s.length ≤ 72 := by
      have : ¬ (72 : Int) < ((d + s.length : Nat) : Int) := hb
      omega
    have heq : dest ++ [' '] ++ s = dest ++ (' ' :: s) := by simp
    rw [heq]
    constructor
    · apply width_ok_append 80 dest _ 0 h1
      exact width_ok_short 80 _ _ (by simp only [List.length_cons]; omega)
    · rw [end_col_append]
      have := end_col_le (' ' :: s) (end_col dest 0)
      simp only [List.length_cons] at this
      omega

theorem foldl_cat_and_wrap_width (tokens : List Str) (dest : Str)
    (ht : ∀ t ∈ tokens, t.length ≤ 73)
    (h1 : width_ok 80 dest 0 = true) (h2 : end_col dest 0 ≤ 77) :
    width_ok 80 (tokens.foldl cat_and_wrap dest) 0 = true := by
  induction tokens generalizing dest with
  | nil => exact h1
  | cons t ts ih =>
    have hstep := cat_and_wrap_width dest t (ht t (List.mem_cons_self _ _)) h1 h2
    exact ih _ (fun u hu => ht u (List.mem_cons_of_mem _ hu)) hstep.1 hstep.2

theorem list_deps_eq (enum : Enumeration) (target : List Str) (ext dir : Str) :
    list_deps enum target ext dir =
      ((enum target).map
        (fun li => if dir = [] then li ++ ext else dir ++ ['/'] ++ li ++ ext)).foldl
        cat_and_wrap [] := by
  unfold list_deps
  rw [List.foldl_map]

/-- C21: wrapping is lossless.  For every list of tokens without a backslash,
the text built by `cat_and_wrap` from the empty string consists of the tokens
in order, each whole, after a space and with or without a continuation marker
in front; removing the continuation markers (two spaces, backslash, newline,
three spaces) gives the unwrapped line, a space and the token for every token
in order.  The text of `list_deps` is built in this way from the tokens
`[dir/]name ext` of the names in the order of their enumeration. -/
theorem wrapping_lossless (tokens : List Str) (ht : ∀ t ∈ tokens, ∀ c ∈ t, c ≠ '\\') :
    remove_continuations (tokens.foldl cat_and_wrap []) = unwrapped tokens ∧
    (∃ bs : List Bool, bs.length = tokens.length ∧
      tokens.foldl cat_and_wrap [] = (List.zipWith wrapped_token bs tokens).flatten) ∧
    ∀ (enum : Enumeration) (target : List Str) (ext dir : Str),
      list_deps enum target ext dir =
        ((enum target).map
          (fun li => if dir = [] then li ++ ext else dir ++ ['/'] ++ li ++ ext)).foldl
          cat_and_wrap [] := by
  obtain ⟨bs, hlen, hbs⟩ := foldl_cat_and_wrap tokens []
  rw [List.nil_append] at hbs
  refine ⟨?_, ⟨bs, hlen, hbs⟩, list_deps_eq⟩
  rw [hbs]
  exact remove_continuations_wrapped bs tokens hlen ht

theorem wrapping_lossless_witness :
    (∀ t ∈ long_tokens, ∀ c ∈ t, c ≠ '\\') ∧
    remove_continuations (long_tokens.foldl cat_and_wrap []) = unwrapped long_tokens ∧
    (∃ bs : List Bool, bs.length = long_tokens.length ∧
      long_tokens.foldl cat_and_wrap [] =
        (List.zipWith wrapped_token bs long_tokens).flatten) ∧
    ∀ (enum : Enumeration) (target : List Str) (ext dir : Str),
      list_deps enum target ext dir =
        ((enum target).map
          (fun li => if dir = [] then li ++ ext else dir ++ ['/'] ++ li ++ ext)).foldl
          cat_and_wrap [] :=
  ⟨by decide, wrapping_lossless long_tokens (by decide)⟩

/-- C30: the wrapped list is width-bounded.  For every list of tokens of at
most 73 characters each, every physical line of the text built by
`cat_and_wrap` from the empty string, the continuation backslash included, is
at most 80 characters long.  The text of `list_deps` is built in this way from
the tokens `[dir/]name ext`. -/
theorem wrapping_width (tokens : List Str) (ht : ∀ t ∈ tokens, t.length ≤ 73) :
    (∀ l ∈ lines_of (tokens.foldl cat_and_wrap []), l.length ≤ 80) ∧
    ∀ (enum : Enumeration) (target : List Str) (ext dir : Str),
      list_deps enum target ext dir =
        ((enum target).map
          (fun li => if dir = [] then li ++ ext else dir ++ ['/'] ++ li ++ ext)).foldl
          cat_and_wrap [] :=
  ⟨width_ok_all_lines 80 _
    (foldl_cat_and_wrap_width tokens [] ht (by decide) (by decide)), list_deps_eq⟩

theorem wrapping_width_witness :
    (∀ t ∈ long_tokens, t.length ≤ 73) ∧
    (∀ l ∈ lines_of (long_tokens.foldl cat_and_wrap []), l.length ≤ 80) ∧
    ∀ (enum : Enumeration) (target : List Str) (ext dir : Str),
      list_deps enum target ext dir =
        ((enum target).map
          (fun li => if dir = [] then li ++ ext else dir ++ ['/'] ++ li ++ ext)).foldl
          cat_and_wrap [] :=
  ⟨by decide, wrapping_width long_tokens (by decide)⟩

/-- The wrapped text of `long_tokens`: a token of 73 characters makes a line
of 80 characters. -/
theorem wrapping_example :
    (lines_of (long_tokens.foldl cat_and_wrap [])).map List.length = [11, 80, 11] := by
  decide

end Mkdeps

namespace Mkdeps

/-! ### The header of the old makefile -/

theorem transfer_loop_eq (lines : List Str) (dest : Str) :
    transfer_loop false lines dest =
      dest ++ ((before_marker lines).map (fun l => l ++ ['\n'])).flatten := by
  unfold before_marker
  induction lines generalizing dest with
  | nil => simp [transfer_loop]
  | cons ln rest ih =>
    simp only [transfer_loop, Bool.false_eq_true, not_false_eq_true, true_and]
    by_cases h : ln = needle
    · simp [h]
    · rw [if_neg h, ih]
      simp [h]

theorem lines_of_line (l r : Str) (h : ∀ c ∈ l, c ≠ '\n') :
    lines_of (l ++ '\n' :: r) = l :: lines_of r := by
  induction l with
  | nil => simp [lines_of]
  | cons c cs ih =>
    rw [List.cons_append, lines_of, if_neg (h c (List.mem_cons_self _ _)),
      ih (fun d hd => h d (List.mem_cons_of_mem _ hd))]

theorem lines_of_lines (ls : List Str) (r : Str) (h : ∀ l ∈ ls, ∀ c ∈ l, c ≠ '\n') :
    lines_of ((ls.map (fun l => l ++ ['\n'])).flatten ++ r) = ls ++ lines_of r := by
  induction ls with
  | nil => rfl
  | cons l rest ih =>
    simp only [List.map_cons, List.flatten_cons, List.append_assoc, List.singleton_append,
      List.cons_append]
    rw [lines_of_line l _ (h l (List.mem_cons_self _ _)), List.nil_append,
      ih (fun m hm => h m (List.mem_cons_of_mem _ hm))]

theorem before_marker_spec (lines : List Str) :
    lines = before_marker lines ++ from_marker lines ∧
    (∀ l ∈ before_marker lines, l ≠ needle) ∧
    (from_marker lines = [] ∨ (from_marker lines).head? = some needle) := by
  unfold before_marker from_marker
  refine ⟨(List.takeWhile_append_dropWhile _ _).symm, ?_, ?_⟩
  · intro l hl
    have := List.mem_takeWhile_imp hl
    simpa using this
  · cases hd : List.dropWhile (fun l => decide (l ≠ needle)) lines with
    | nil => exact Or.inl rfl
    | cons x xs =>
      right
      have := List.head_dropWhile_not (fun l => decide (l ≠ needle)) lines
        (by rw [hd]; exact List.cons_ne_nil _ _)
      simp only [hd, List.head_cons] at this
      simp only [List.head?_cons]
      simpa using this

/-- C24: when not in append mode, the text that `real_main` has written when
the generated content begins is: the lines of the old makefile that precede
its first marker line, in order and each followed by a newline, then the
marker line, an empty line and the title of the object rules.  The old lines
split into those copied, none of which is the marker, and the rest, which is
empty or starts with the marker; so the marker is one line of the text,
exactly once.  Without an old makefile the text starts with the marker. -/
theorem makefile_head_spec (o : Options) (hna : o.append = false) (lines : List Str)
    (hl : ∀ l ∈ lines, ∀ c ∈ l, c ≠ '\n') :
    makefile_head o (some lines) =
      ((before_marker lines).map (fun l => l ++ ['\n'])).flatten ++ needle ++ "\n\n".toList
        ++ "# Object dependencies.\n".toList ∧
    (lines = before_marker lines ++ from_marker lines ∧
      (∀ l ∈ before_marker lines, l ≠ needle) ∧
      (from_marker lines = [] ∨ (from_marker lines).head? = some needle)) ∧
    lines_of (makefile_head o (some lines)) =
      before_marker lines ++ [needle, [], "# Object dependencies.".toList, []] ∧
    (lines_of (makefile_head o (some lines))).count needle = 1 ∧
    makefile_head o none = needle ++ "\n\n".toList ++ "# Object dependencies.\n".toList := by
  have hspec := before_marker_spec lines
  have hhead : makefile_head o (some lines) =
      ((before_marker lines).map (fun l => l ++ ['\n'])).flatten ++ needle ++ "\n\n".toList
        ++ "# Object dependencies.\n".toList := by
    unfold makefile_head transfer_header
    simp only [hna, Bool.false_eq_true, not_false_eq_true, if_true]
    rw [transfer_loop_eq]
    simp
  have hbefore : ∀ l ∈ before_marker lines, ∀ c ∈ l, c ≠ '\n' := by
    intro l hmem
    exact hl l (by rw [hspec.1]; exact List.mem_append_left _ hmem)
  have hlines : lines_of (makefile_head o (some lines)) =
      before_marker lines ++ [needle, [], "# Object dependencies.".toList, []] := by
    rw [hhead, List.append_assoc, List.append_assoc, lines_of_lines _ _ hbefore]
    congr 1
  refine ⟨hhead, hspec, hlines, ?_, ?_⟩
  · rw [hlines, List.count_append, List.count_eq_zero_of_not_mem
      (fun hmem => hspec.2.1 needle hmem rfl)]
    decide
  · unfold makefile_head transfer_header
    simp [hna]

theorem makefile_head_spec_witness :
    Options.initial.append = false ∧ (∀ l ∈ old_makefile, ∀ c ∈ l, c ≠ '\n') ∧
    makefile_head Options.initial (some old_makefile) =
      ((before_marker old_makefile).map (fun l => l ++ ['\n'])).flatten ++ needle
        ++ "\n\n".toList ++ "# Object dependencies.\n".toList ∧
    (old_makefile = before_marker old_makefile ++ from_marker old_makefile ∧
      (∀ l ∈ before_marker old_makefile, l ≠ needle) ∧
      (from_marker old_makefile = [] ∨ (from_marker old_makefile).head? = some needle)) ∧
    lines_of (makefile_head Options.initial (some old_makefile)) =
      before_marker old_makefile ++ [needle, [], "# Object dependencies.".toList, []] ∧
    (lines_of (makefile_head Options.initial (some old_makefile))).count needle = 1 ∧
    makefile_head Options.initial none =
      needle ++ "\n\n".toList ++ "# Object dependencies.\n".toList :=
  ⟨rfl, by decide, makefile_head_spec Options.initial rfl old_makefile (by decide)⟩

/-- The head of the new makefile for `old_makefile`. -/
theorem makefile_head_example :
    makefile_head Options.initial (some old_makefile) =
      ("CC = gcc\n\n# Generated automatically. Do not edit beyond here.\n\n"
        ++ "# Object dependencies.\n").toList := by
  decide

end Mkdeps

namespace Mkdeps

/-! ### The writes of `normalize_path` -/

theorem write_checked_eq (buf : Str) (lim i : Nat) (c : Char) (h1 : i < lim)
    (h2 : lim ≤ buf.length) : write_checked buf lim i c = some (buf.set i c) := by
  unfold write_checked
  rw [if_pos ⟨h1, h2⟩]

theorem copy_component_checked_eq (n : Nat) :
    ∀ (buf : Str) (cr cw : Nat), cw ≤ cr → cr + n ≤ buf.length →
      copy_component_checked n buf cr cw = some (copy_component n buf cr cw) := by
  induction n with
  | zero => intro buf cr cw _ _; rfl
  | succ n ih =>
    intro buf cr cw h1 h2
    simp only [copy_component_checked, copy_component]
    split
    · rw [write_checked_eq buf (cr + 1) cw _ (by omega) (by omega)]
      exact ih _ _ _ (by omega) (by simp only [List.length_set]; omega)
    · rfl

theorem copy_component_bounds (n : Nat) :
    ∀ (buf : Str) (cr cw : Nat), cw ≤ cr → cr + n ≤ buf.length →
      (copy_component n buf cr cw).1.length = buf.length
      ∧ (copy_component n buf cr cw).2.2 ≤ (copy_component n buf cr cw).2.1
      ∧ (copy_component n buf cr cw).2.1 ≤ buf.length := by
  induction n with
  | zero => intro buf cr cw h1 h2; exact ⟨rfl, h1, by simpa using h2⟩
  | succ n ih =>
    intro buf cr cw h1 h2
    simp only [copy_component]
    split
    · have := ih (buf.set cw (charAt buf cr)) (cr + 1) (cw + 1) (by omega)
        (by simp only [List.length_set]; omega)
      simpa only [List.length_set] using this
    · exact ⟨rfl, h1, by show cr ≤ buf.length; omega⟩

theorem copy_step_checked_eq (buf : Str) (cr cw : Nat) (h1 : cw ≤ cr)
    (h2 : cr ≤ buf.length) : copy_step_checked buf cr cw = some (copy_step buf cr cw) := by
  unfold copy_step_checked copy_step
  rw [copy_component_checked_eq _ buf cr cw h1 (by omega)]
  have hb := copy_component_bounds (buf.length - cr) buf cr cw h1 (by omega)
  cases hc : copy_component (buf.length - cr) buf cr cw with
  | mk buf1 r =>
    obtain ⟨cr1, cw1⟩ := r
    rw [hc] at hb
    simp only at hb ⊢
    split
    · rename_i hne
      have hlt : cr1 < buf1.length := by omega
      rw [write_checked_eq buf1 (cr1 + 1) cw1 _ (by omega) (by omega)]
      simp only
      split <;> rfl
    · rfl

theorem dotdot_step_checked_eq (buf : Str) (cr cw : Nat) (h1 : cw ≤ cr)
    (h2 : cr + 3 ≤ buf.length) :
    dotdot_step_checked buf cr cw = some (dotdot_step buf cr cw) := by
  unfold dotdot_step_checked dotdot_step
  simp only
  split
  · rfl
  · split
    · rfl
    · rw [write_checked_eq buf (cr + 3) cw _ (by omega) h2]
      simp only
      rw [write_checked_eq _ (cr + 3) (cw + 1) _ (by omega)
        (by simp only [List.length_set]; exact h2)]
      simp only
      rw [write_checked_eq _ (cr + 3) (cw + 2) _ (by omega)
        (by simp only [List.length_set]; exact h2)]

theorem normalize_step_checked_eq (buf : Str) (cr cw : Nat) (h1 : cw ≤ cr)
    (h2 : cr < buf.length) :
    normalize_step_checked buf cr cw = some (normalize_step buf cr cw) := by
  unfold normalize_step_checked normalize_step
  split
  · rfl
  · split
    · rename_i hd
      exact dotdot_step_checked_eq buf cr cw h1 (by omega)
    · exact copy_step_checked_eq buf cr cw h1 (by omega)

theorem normalize_loop_checked_eq (fuel : Nat) :
    ∀ (buf : Str) (cr cw : Nat), cw ≤ cr → cr ≤ buf.length →
      normalize_loop_checked fuel buf cr cw = some (normalize_loop fuel buf cr cw) := by
  induction fuel with
  | zero =>
    intro buf cr cw h1 _
    simp only [normalize_loop_checked, normalize_loop, if_pos h1]
  | succ n ih =>
    intro buf cr cw h1 h2
    simp only [normalize_loop_checked, normalize_loop]
    rw [if_neg (by omega)]
    split
    · rfl
    · rename_i hne
      have hlt : cr < buf.length := by omega
      rw [normalize_step_checked_eq buf cr cw h1 hlt]
      have hb := normalize_step_bounds buf cr cw h1 hlt
      cases hs : normalize_step buf cr cw with
      | mk b1 r =>
        obtain ⟨cr1, cw1⟩ := r
        rw [hs] at hb
        simp only at hb ⊢
        exact ih b1 cr1 cw1 hb.2.2.2.1 (by omega)

/-- C28: `normalize_path` never lengthens its input.  For every path the loop
with all its checks returns what the loop of `normalize_path` returns: at the
head of every iteration and at the end the write cursor has not passed the
read cursor, and every write goes to an offset inside the buffer of the path
and below the offset up to which the path has been read.  The final write
cursor is at most the length of the path, and the result is no longer than
the path. -/
theorem normalize_path_never_lengthens (p : Str) :
    normalize_loop_checked p.length p 0 0 = some (normalize_loop p.length p 0 0) ∧
    (normalize_loop p.length p 0 0).1.length = p.length ∧
    (normalize_loop p.length p 0 0).2 ≤ p.length ∧
    (normalize_path p).length ≤ p.length := by
  have hinv := normalize_loop_invariant (fun _ _ _ => True) (fun _ _ _ _ _ _ => trivial)
    p.length p 0 0 (Nat.le_refl _) (Nat.zero_le _) (by omega) trivial
  refine ⟨normalize_loop_checked_eq p.length p 0 0 (Nat.le_refl _) (Nat.zero_le _),
    hinv.2.2, by omega, ?_⟩
  unfold normalize_path
  simp only
  have htake : ((normalize_loop p.length p 0 0).1.take (normalize_loop p.length p 0 0).2).length
      ≤ p.length := by
    rw [List.length_take]
    omega
  split
  · rw [List.length_dropLast]
    omega
  · exact htake

end Mkdeps

namespace Mkdeps

/-! ### The emitted rules -/

set_option maxRecDepth 100000 in
/-- C22, evaluated at its failing input: without object directories the rule
of `parser_project` on a single line has 82 columns, and the rule is written
without a continuation break: `": "` is not added to `count` in this branch.
With the object directory `o`, where it is added, the rule has a break. -/
theorem object_rule_not_wrapped :
    parser_rule.length = 82 ∧
    (dump_single_deps id Options.initial parser_project ([], [])).1 =
      parser_rule ++ "  \n\n".toList ∧
    (dump_single_deps id { Options.initial with object_dirs := ["o".toList] } parser_project
        ([], [])).1 =
      ("o/parser.o : src/parser.c \\\n"
        ++ "    /usr/local/include/project/generated/grammar/parser_tabs.h  \n\n").toList := by
  decide

set_option maxRecDepth 100000 in
/-- C23, evaluated at its failing input: with the ABI variant `m32` the link
rule of the target `prog-m32` is written, and the value of `FULL_TARGETS` is
`prog` alone. -/
theorem full_targets_misses_abi_program :
    dump_main_progs id { Options.initial with abis := ["m32".toList] } prog_project [] [] =
      ("# Main programs\n"
        ++ "prog: \\\n    prog.o util.o\n\n"
        ++ "prog-m32: \\\n    prog-m32.o util-m32.o\n\n"
        ++ "FULL_TARGETS =  prog\n"
        ++ "full_targets: $(FULL_TARGETS)\n"
        ++ "FULL_LIB_HEADERS = \n").toList := by
  decide

set_option maxRecDepth 100000 in
/-- C26, evaluated at its failing input: with the ABI variant `x` the rule of
the default shared library `libfoo.so.$(SONAME)` has the prerequisite
`foo-x.o` of the variant, left in `objs` by the loop over the variants, and
not `foo.o`.  Without a variant the prerequisite is `foo.o`. -/
theorem shared_library_stale_objects :
    dump_main_progs id { Options.initial with abis := ["x".toList] } foo_project [] [] =
      ("# Main programs\n"
        ++ "libfoo.a: \\\n    foo.o\n\n"
        ++ "./libfoo-x.so.$(SONAME): \\\n    foo-x.o\n\n"
        ++ "libfoo.so.$(SONAME): \\\n    foo-x.o\n\n"
        ++ "FULL_TARGETS =  libfoo.a ./libfoo-x.so.$(SONAME) libfoo.so.$(SONAME)\n"
        ++ "full_targets: $(FULL_TARGETS)\n"
        ++ "FULL_LIB_HEADERS = \n").toList ∧
    dump_main_progs id Options.initial foo_project [] [] =
      ("# Main programs\n"
        ++ "libfoo.a: \\\n    foo.o\n\n"
        ++ "libfoo.so.$(SONAME): \\\n    foo.o\n\n"
        ++ "FULL_TARGETS =  libfoo.a libfoo.so.$(SONAME)\n"
        ++ "full_targets: $(FULL_TARGETS)\n"
        ++ "FULL_LIB_HEADERS = \n").toList := by
  decide

/-! ### Nested conditionals -/

/-- C25, evaluated at its failing input: after `#define A`, which stores the
empty string, `U` is not defined, yet `#ifdef U` looks up the empty string and
the region is scanned, and so is the region of `#ifdef V`: both `x.h` and
`y.h` are recorded.  Without the define only `y.h` is recorded, and a scan
that reaches the end of the input while skipping returns.  A nested
conditional written `# ifdef V` is not counted by the skipping loop: its
`#endif` ends the skipping, and the include of `x.h` after it is recorded. -/
theorem nested_ifdef_after_define :
    (scan_source_file default_globals two_headers 3 State.init
      ("#define A".toList :: nested_lines) "t.c".toList).map State.deps =
      some ["y.h".toList, "x.h".toList] ∧
    (scan_source_file default_globals two_headers 3 State.init nested_lines
      "t.c".toList).map State.deps = some ["y.h".toList] ∧
    (scan_source_file default_globals two_headers 3 State.init
      ["#ifdef U".toList, "#ifdef V".toList, include_line "x.h", []]
      "t.c".toList).map State.deps = some [] ∧
    (scan_source_file default_globals two_headers 3 State.init
      ["#ifdef U".toList, "# ifdef V".toList, "#endif".toList, include_line "x.h",
        "#else".toList, include_line "y.h", "#endif".toList, []]
      "t.c".toList).map State.deps = some ["y.h".toList, "x.h".toList] := by
  decide

/-! ### Absolute paths -/

/-- C29, evaluated at its failing input: `/../x` becomes the relative path
`x`, and `/` becomes the empty string; `/a/../../x` becomes `/x`. -/
theorem normalize_path_loses_root :
    normalize_path "/../x".toList = "x".toList ∧ normalize_path "/".toList = [] ∧
    normalize_path "/a/../../x".toList = "/x".toList := by
  decide

end Mkdeps

namespace Mkdeps

/-! ### A conditional that holds -/

theorem scan_step_plain (g : Globals) (fs : Files)
    (scan : State → List Str → Str → Option State) (n : Nat) (st : State) (ns : Str)
    (rest : List Str) :
    scan_loop g fs scan (n + 1) st ns ("#else".toList :: rest) = scan_loop g fs scan n st ns rest
    ∧ scan_loop g fs scan (n + 1) st ns ("#endif".toList :: rest) =
      scan_loop g fs scan n st ns rest
    ∧ scan_loop g fs scan (n + 1) st ns ([] :: rest) = scan_loop g fs scan n st ns rest :=
  ⟨rfl, rfl, rfl⟩

theorem scan_step_include (scan : State → List Str → Str → Option State) (n : Nat)
    (st : State) (rest : List Str) :
    scan_loop default_globals two_headers scan (n + 1) st ['.'] (include_line "x.h" :: rest) =
      (match (scan (add_dependency st "x.h".toList) [[]] "x.h".toList).map
          (fun st1 => (st1, rest)) with
       | some (st1, rest1) => scan_loop default_globals two_headers scan n st1 ['.'] rest1
       | none => none)
    ∧ scan_loop default_globals two_headers scan (n + 1) st ['.']
        (include_line "y.h" :: rest) =
      (match (scan (add_dependency st "y.h".toList) [[]] "y.h".toList).map
          (fun st1 => (st1, rest)) with
       | some (st1, rest1) => scan_loop default_globals two_headers scan n st1 ['.'] rest1
       | none => none) :=
  ⟨rfl, rfl⟩

/-- The scan of a header of one empty line changes `already_seen` at most. -/
theorem scan_empty_header (g : Globals) (fs : Files) (depth : Nat) (st : State) (name : Str) :
    ∃ r, scan_source_file g fs (depth + 1) st [[]] name = some r ∧ r.deps = st.deps
      ∧ r.defines = st.defines ∧ r.target = st.target := by
  simp only [scan_source_file]
  split
  · exact ⟨st, rfl, rfl, rfl, rfl⟩
  · exact ⟨_, rfl, rfl, rfl, rfl⟩

theorem isword_not_nul (c : Char) (h : isword c = true) : c ≠ NUL := by
  intro hc
  rw [hc] at h
  exact absurd h (by decide)

theorem isword_not_space (c : Char) (h : isword c = true) : isspace c = false := by
  cases hs : isspace c with
  | false => rfl
  | true =>
    simp only [isspace, Bool.or_eq_true, decide_eq_true_eq] at hs
    rcases hs with ((((hs | hs) | hs) | hs) | hs) | hs <;>
      (rw [hs] at h; exact absurd h (by decide))

theorem identifier_facts (foo : Str) (h : is_identifier foo = true) :
    (∀ c ∈ foo, c ≠ NUL) ∧ skip_space (' ' :: foo) = foo ∧ word_before foo ≠ ['0'] := by
  cases foo with
  | nil => simp [is_identifier] at h
  | cons c cs =>
    simp only [is_identifier, Bool.and_eq_true, Bool.not_eq_true', List.all_eq_true] at h
    obtain ⟨⟨h1, h2⟩, h3⟩ := h
    refine ⟨?_, ?_, ?_⟩
    · intro d hd
      rcases List.mem_cons.mp hd with hd | hd
      · rw [hd]; exact isword_not_nul c h1
      · exact isword_not_nul d (h3 d hd)
    · have hsp : isspace ' ' = true := by decide
      simp only [skip_space, List.dropWhile, hsp, isword_not_space c h1]
    · intro hw
      unfold word_before at hw
      simp only at hw
      have hc0 : c ≠ '0' := by
        intro hc
        rw [hc] at h2
        exact absurd h2 (by decide)
      cases hk : (if (c :: cs).length - (skip_word (c :: cs)).length ≠ 0
          then (c :: cs).length - (skip_word (c :: cs)).length - 1
          else (c :: cs).length - (skip_word (c :: cs)).length) with
      | zero => rw [hk] at hw; simp at hw
      | succ k =>
        rw [hk] at hw
        simp only [List.take_succ_cons, List.cons.injEq] at hw
        exact hc0 hw.1

end Mkdeps

namespace Mkdeps

theorem scan_step_define (g : Globals) (fs : Files)
    (scan : State → List Str → Str → Option State) (n : Nat) (st : State) (ns : Str)
    (rest : List Str) (foo : Str) (h : is_identifier foo = true) :
    scan_loop g fs scan (n + 1) st ns (("#define ".toList ++ foo) :: rest) =
      scan_loop g fs scan n (add_define st foo) ns rest := by
  obtain ⟨hnul, hskip, _⟩ := identifier_facts foo h
  have hline : "#define ".toList ++ foo =
      '#' :: 'd' :: 'e' :: 'f' :: 'i' :: 'n' :: 'e' :: ' ' :: foo := rfl
  have hc : c_str ("#define ".toList ++ foo) = "#define ".toList ++ foo := by
    apply c_str_of_no_nul
    intro c hc
    rcases List.mem_append.mp hc with hc | hc
    · exact (by decide : ∀ c ∈ "#define ".toList, c ≠ NUL) c hc
    · exact hnul c hc
  have h1 : isspace '#' = false := by decide
  have h2 : isspace 'd' = false := by decide
  have hinc : strncmp_eq ('d' :: 'e' :: 'f' :: 'i' :: 'n' :: 'e' :: ' ' :: foo) 0
      "include".toList = false := by
    rw [show "include".toList = ['i', 'n', 'c', 'l', 'u', 'd', 'e'] from rfl]
    simp [strncmp_eq, charAt_cons_zero]
  have hdef : strncmp_eq ('d' :: 'e' :: 'f' :: 'i' :: 'n' :: 'e' :: ' ' :: foo) 0
      "define".toList = true := by
    rw [show "define".toList = ['d', 'e', 'f', 'i', 'n', 'e'] from rfl]
    simp [strncmp_eq, charAt_cons_zero, charAt_cons_succ]
  rw [scan_loop_cons, hc, hline]
  simp only [skip_space, List.dropWhile, h1, h2, charAt_cons_zero, if_true, List.drop_succ_cons,
    List.drop_zero]
  unfold process_line
  rw [hinc, hdef]
  simp only [Bool.false_eq_true, if_false, if_true, List.drop_succ_cons, List.drop_zero]
  rw [hskip]

theorem scan_step_ifdef (g : Globals) (fs : Files)
    (scan : State → List Str → Str → Option State) (n : Nat) (st : State) (ns : Str)
    (rest : List Str) (foo : Str) (h : is_identifier foo = true)
    (hdef : word_before foo ∈ st.defines) :
    scan_loop g fs scan (n + 1) st ns (("#ifdef ".toList ++ foo) :: rest) =
      scan_loop g fs scan n st ns rest := by
  obtain ⟨hnul, hskip, hzero⟩ := identifier_facts foo h
  have hline : "#ifdef ".toList ++ foo =
      '#' :: 'i' :: 'f' :: 'd' :: 'e' :: 'f' :: ' ' :: foo := rfl
  have hc : c_str ("#ifdef ".toList ++ foo) = "#ifdef ".toList ++ foo := by
    apply c_str_of_no_nul
    intro c hc
    rcases List.mem_append.mp hc with hc | hc
    · exact (by decide : ∀ c ∈ "#ifdef ".toList, c ≠ NUL) c hc
    · exact hnul c hc
  have h1 : isspace '#' = false := by decide
  have h2 : isspace 'i' = false := by decide
  have hinc : strncmp_eq ('i' :: 'f' :: 'd' :: 'e' :: 'f' :: ' ' :: foo) 0
      "include".toList = false := by
    rw [show "include".toList = ['i', 'n', 'c', 'l', 'u', 'd', 'e'] from rfl]
    simp [strncmp_eq, charAt_cons_zero, charAt_cons_succ]
  have hdefine : strncmp_eq ('i' :: 'f' :: 'd' :: 'e' :: 'f' :: ' ' :: foo) 0
      "define".toList = false := by
    rw [show "define".toList = ['d', 'e', 'f', 'i', 'n', 'e'] from rfl]
    simp [strncmp_eq, charAt_cons_zero]
  have hifdef : strncmp_eq ('i' :: 'f' :: 'd' :: 'e' :: 'f' :: ' ' :: foo) 0
      "ifdef".toList = true := by
    rw [show "ifdef".toList = ['i', 'f', 'd', 'e', 'f'] from rfl]
    simp [strncmp_eq, charAt_cons_zero, charAt_cons_succ]
  rw [scan_loop_cons, hc, hline]
  simp only [skip_space, List.dropWhile, h1, h2, charAt_cons_zero, if_true, List.drop_succ_cons,
    List.drop_zero]
  unfold process_line
  rw [hinc, hdefine, hifdef]
  simp only [Bool.false_eq_true, if_false, if_true, List.drop_succ_cons, List.drop_zero]
  rw [hskip]
  unfold process_ifdef
  simp only [hdef, decide_True, ne_eq, hzero, not_false_eq_true, and_self, true_or, if_true]

/-- C27: when the condition of an `#ifdef` holds nothing is skipped.  For
every identifier `foo`, in every state in which the file `t.c` has not been
seen, the scan of the lines `#define foo`, `#ifdef foo`, `#include "x.h"`,
`#else`, `#include "y.h"`, `#endif`, with both headers existing, returns and
has recorded `x.h` and `y.h`: the dependencies are those of the state with
`x.h` and then `y.h` added. -/
theorem ifdef_held_scans_both (foo : Str) (hfoo : is_identifier foo = true) (st : State)
    (hst : "t.c".toList ∉ st.already_seen) (depth : Nat) (hd : 2 ≤ depth) :
    ∃ r, scan_source_file default_globals two_headers depth st (held_lines foo)
        "t.c".toList = some r ∧
      r.deps = (st.deps.insert "x.h".toList).insert "y.h".toList ∧
      "x.h".toList ∈ r.deps ∧ "y.h".toList ∈ r.deps := by
  obtain ⟨k, rfl⟩ : ∃ k, depth = k + 2 := ⟨depth - 2, by omega⟩
  have hns : (if shrink_to_dir "t.c".toList = [] then ['.'] else shrink_to_dir "t.c".toList)
      = ['.'] := by decide
  have hlen : (held_lines foo).length = 6 + 1 := rfl
  rw [scan_source_file, if_neg hst]
  simp only [hns, hlen]
  unfold held_lines
  rw [scan_step_define _ _ _ _ _ _ _ foo hfoo]
  rw [scan_step_ifdef _ _ _ _ _ _ _ foo hfoo (by
    simp only [add_define]
    exact List.mem_insert_self _ _)]
  rw [(scan_step_include _ _ _ _).1]
  obtain ⟨r1, hr1, hd1, _, _⟩ := scan_empty_header default_globals two_headers k
    (add_dependency (add_define { st with already_seen := st.already_seen.insert "t.c".toList }
      foo) "x.h".toList) "x.h".toList
  rw [hr1]
  simp only [Option.map_some']
  rw [(scan_step_plain _ _ _ _ _ _ _).1, (scan_step_include _ _ _ _).2]
  obtain ⟨r2, hr2, hd2, _, _⟩ := scan_empty_header default_globals two_headers k
    (add_dependency r1 "y.h".toList) "y.h".toList
  rw [hr2]
  simp only [Option.map_some']
  rw [(scan_step_plain _ _ _ _ _ _ _).2.1, (scan_step_plain _ _ _ _ _ _ _).2.2]
  have hdeps : r2.deps = (st.deps.insert "x.h".toList).insert "y.h".toList := by
    rw [hd2]
    simp only [add_dependency]
    rw [hd1]
    rfl
  refine ⟨r2, rfl, hdeps, ?_, ?_⟩
  · rw [hdeps]
    exact List.mem_insert_of_mem (List.mem_insert_self _ _)
  · rw [hdeps]
    exact List.mem_insert_self _ _

theorem ifdef_held_scans_both_witness :
    is_identifier "FOO".toList = true ∧ "t.c".toList ∉ State.init.already_seen ∧ 2 ≤ 3 ∧
    ∃ r, scan_source_file default_globals two_headers 3 State.init (held_lines "FOO".toList)
        "t.c".toList = some r ∧
      r.deps = (State.init.deps.insert "x.h".toList).insert "y.h".toList ∧
      "x.h".toList ∈ r.deps ∧ "y.h".toList ∈ r.deps :=
  ⟨by decide, by decide, by decide,
    ifdef_held_scans_both "FOO".toList (by decide) State.init (by decide) 3 (by decide)⟩

end Mkdeps

namespace Mkdeps

/-! ### The scan of a directory -/

theorem scan_endless_none (g : Globals) (fs : Files)
    (scan : State → List Str → Str → Option State) (n : Nat) (st : State) (ns : Str) :
    scan_endless g fs scan n st ns = none := by
  induction n generalizing st with
  | zero => rfl
  | succ n ih =>
    have h : scan_endless g fs scan (n + 1) st ns = scan_endless g fs scan n st ns := rfl
    rw [h]
    exact ih st

theorem scan_source_file_on_regular (g : Globals) (fs : Files) (fuel : Nat) :
    scan_source_file_on ⟨fs, []⟩ g fuel = scan_source_file g fs fuel := by
  induction fuel with
  | zero => rfl
  | succ n ih =>
    funext st is name
    simp only [scan_source_file_on, scan_source_file, ih, List.not_mem_nil, if_false,
      Disk.opens, List.map_nil, List.nil_append]

theorem scan_directory_none (d : Disk) (g : Globals) (fuel : Nat) (st : State)
    (is : List Str) (name : Str) (hd : name ∈ d.dirs) (hs : name ∉ st.already_seen) :
    scan_source_file_on d g fuel st is name = none := by
  cases fuel with
  | zero => simp [scan_source_file_on, hs]
  | succ n => simp [scan_source_file_on, hs, hd, scan_endless_none]

end Mkdeps

namespace Mkdeps

theorem scan_step_directory (scan : State → List Str → Str → Option State) (n : Nat)
    (st : State) (rest : List Str) :
    scan_loop default_globals dir_disk.opens scan (n + 1) st ['.']
        (include_line "sub" :: rest) =
      (match (scan (add_dependency st "sub".toList) [] "sub".toList).map
          (fun st1 => (st1, rest)) with
       | some (st1, rest1) => scan_loop default_globals dir_disk.opens scan n st1 ['.'] rest1
       | none => none) :=
  rfl

/-- C10, evaluated at its failing input: the source file `t.c` has the line
`#include "sub"`, and `sub` is a directory.  `locate_file` opens `sub` with
`is.good()`, `process_include` opens it again and calls the scan, and the loop
`while (!is.eof())` of that scan never ends: for every bound the scan of
`t.c` has no result.  When `sub` is a header of one empty line the same scan
returns with the dependency `sub` and the target of a main program. -/
theorem scan_directory_never_returns :
    (∀ fuel, scan_source_file_on dir_disk default_globals fuel State.init
        [include_line "sub", "int main()".toList, []] "t.c".toList = none) ∧
    (scan_source_file_on header_disk default_globals 3 State.init
        [include_line "sub", "int main()".toList, []] "t.c".toList).map
        (fun st => (st.deps, st.target))
      = some (["sub".toList], Target_type.Main_target) := by
  refine ⟨?_, by decide⟩
  intro fuel
  cases fuel with
  | zero => decide
  | succ k =>
    have h : scan_source_file_on dir_disk default_globals (k + 1) State.init
        [include_line "sub", "int main()".toList, []] "t.c".toList
        = scan_loop default_globals dir_disk.opens
            (scan_source_file_on dir_disk default_globals k) 3
            { State.init with already_seen := ["t.c".toList] } ['.']
            [include_line "sub", "int main()".toList, []] := rfl
    rw [h, scan_step_directory,
      scan_directory_none dir_disk default_globals k _ [] "sub".toList (by decide) (by decide)]
    rfl

end Mkdeps

namespace Mkdeps

/-! ### Dependencies whose directory has a dot -/

/-- C16, evaluated at its failing input: the main program `main.c` depends on
the header `v1.2/util`, and `util` is a given file.  The base name of the
header with its extension stripped is `util`, which is also what the steps of
`add_given_file` make of the path, so the set of `main` before the
fixed-point loop is to hold `util` and `main`.  `add_deps` strips the
extension of the whole path first, which cuts the path at the dot of the
directory, and takes the base name `v1` of what is left: the entry of `main`
in `initial_mains` holds `main` alone. -/
theorem initial_set_misses_dotted_path :
    stated_module "v1.2/util".toList = "util".toList ∧
    replace_extension (get_base_name (c_str "v1.2/util".toList)) [] = "util".toList ∧
    get_base_name (c_str (replace_extension "v1.2/util".toList [])) = "v1".toList ∧
    "util".toList ∈ dotted_project.given_files ∧
    dotted_project.files.map
        (fun f => (f.name, f.deps, stated_initial_set dotted_project.given_files f))
      = [("main".toList, ["v1.2/util".toList], ["util".toList, "main".toList]),
         ("tools".toList, [], []),
         ("util".toList, ["tools.h".toList], ["tools".toList])] ∧
    (initial_mains id dotted_project.given_files dotted_project.given_files_full
        dotted_project.files dotted_project.mains).map (fun e => (e.name, e.deps))
      = [("main".toList, ["main".toList]), ("tools".toList, []),
         ("util".toList, ["tools".toList])] := by
  decide

/-- C17, evaluated at its failing input: the main program `main.c` includes
the header `v1.2/util`, which implies the module `util`, and `util.c`
includes the header `tools.h`, which implies the module `tools`; the three
modules are given and registered.  The closed set of `main` is to hold `main`,
`util` and `tools`.  `compute_mains` returns, and the set of `main` holds
`main` alone: `add_deps` makes the module `v1` of the header `v1.2/util`. -/
theorem closed_set_misses_dotted_path :
    stated_module "v1.2/util".toList = "util".toList ∧
    stated_module "tools.h".toList = "tools".toList ∧
    dotted_project.files.map (fun f => (f.name, f.deps, f.target))
      = [("main".toList, ["v1.2/util".toList], Target_type.Main_target),
         ("tools".toList, [], Target_type.Not_target),
         ("util".toList, ["tools.h".toList], Target_type.Not_target)] ∧
    "main".toList ∈ dotted_project.given_files ∧
    "util".toList ∈ dotted_project.given_files ∧
    "tools".toList ∈ dotted_project.given_files ∧
    (dotted_project.compute_mains id 5).map
        (fun q => q.mains.map (fun e => (e.name, e.deps)))
      = some [("main".toList, ["main".toList]), ("tools".toList, []),
              ("util".toList, ["tools".toList])] := by
  decide

/-- Counterexample to C20: the files `x/a.c`, which includes `b.h`, and
`y/a.c`, which includes `c.h`, are registered under the one name `a`, and the
first registration wins.  With `x/a.c` registered first the final set of the
entry `a` holds `a` and `b`; with `y/a.c` registered first, the registered
files, the given files and the enumeration being the same, it holds `c`
alone. -/
theorem compute_mains_order_of_same_name :
    same_name_regs.Perm same_name_swapped ∧
    ((register_all id [] same_name_regs same_name_given).compute_mains id 6).map
        (fun q => q.mains.map (fun e => (e.name, e.deps)))
      = some [("a".toList, ["a".toList, "b".toList]), ("b".toList, []), ("c".toList, [])] ∧
    ((register_all id [] same_name_swapped same_name_given).compute_mains id 6).map
        (fun q => q.mains.map (fun e => (e.name, e.deps)))
      = some [("a".toList, ["c".toList]), ("b".toList, []), ("c".toList, [])] :=
  ⟨List.Perm.swap _ _ _, by decide, by decide⟩

end Mkdeps
